import Mathlib

/-!
SDA: linear allocator, padding arithmetic, benchmark loop and sorting.

Shallow embedding of `src/MemoryUtility.cpp`, `src/Allocator.hpp`,
`src/LiniarAllocator.cpp`, the allocation loop of `src/MemoryBenchmark.cpp` and
`BubbleSort` / `SelectionSort` of `src/Sort.hpp`.

* `std::size_t` is the 64-bit unsigned type: a value is a `Nat` below `SIZE_MOD`,
  and `+`, `*`, `-` of the source are `addSz`, `mulSz`, `subSz` (reduction modulo `2 ^ 64`).
* A `void*` is the integer it converts to; `nullptr` is `0`.
* A call either returns (`Except.ok`) or stops the program (`Except.error`): a failed
  `assert` (asserts are compiled in) or an operation without defined behaviour (division
  by zero, access outside an array, overflow of an `int`, use of a deleted object).
* `malloc` belongs to the environment: `Init` takes the address `malloc` returned.
-/

namespace SDA

/-- Number of values of `std::size_t` (64-bit target). -/
def SIZE_MOD : Nat := 2 ^ 64

/-- Unsigned `a + b` on `std::size_t`. -/
def addSz (a b : Nat) : Nat := (a + b) % SIZE_MOD

/-- Unsigned `a * b` on `std::size_t`. -/
def mulSz (a b : Nat) : Nat := (a * b) % SIZE_MOD

/-- Unsigned `a - b` on `std::size_t` (wraps below zero). -/
def subSz (a b : Nat) : Nat := (a % SIZE_MOD + SIZE_MOD - b % SIZE_MOD) % SIZE_MOD

/-- Ways a call can stop the program instead of returning. -/
inductive Fault where
  | assertion
  | divByZero
  | outOfBounds
  | signedOverflow
  | useAfterFree
  deriving DecidableEq, Repr

deriving instance DecidableEq for Except

/-- `SDA::CalculateMemoryPadding` (MemoryUtility.cpp). The integer division by
`alignment` has no defined value for `alignment == 0`. -/
def CalculateMemoryPadding (baseAddress alignment : Nat) : Except Fault Nat :=
  if alignment = 0 then .error .divByZero
  else
    let multiplier := addSz (baseAddress / alignment) 1
    let alignedAddress := mulSz multiplier alignment
    let padding := subSz alignedAddress baseAddress
    .ok padding

/-- Data members of `Allocator` (`mTotalSize`, `mUsed`, `mPeak`) and of
`LiniarAllocator` (`mMemoryBuffer`, `mOffset`). -/
structure LiniarAllocator where
  mTotalSize : Nat
  mUsed : Nat
  mPeak : Nat
  mMemoryBuffer : Nat
  mOffset : Nat
  deriving DecidableEq, Repr

namespace LiniarAllocator

/-- Constructor `LiniarAllocator(totalSize)`: `Allocator(totalSize)` zeroes `mUsed` and
`mPeak`, the buffer is `nullptr` and the offset `0`. The default constructor is
`construct 0`. -/
def construct (totalSize : Nat) : LiniarAllocator :=
  { mTotalSize := totalSize, mUsed := 0, mPeak := 0, mMemoryBuffer := 0, mOffset := 0 }

/-- Accessor `TotalSize()`. -/
def TotalSize (self : LiniarAllocator) : Nat := self.mTotalSize

/-- Accessor `Used()`. -/
def Used (self : LiniarAllocator) : Nat := self.mUsed

/-- Accessor `Peak()`. -/
def Peak (self : LiniarAllocator) : Nat := self.mPeak

/-- `Init()`: `mMemoryBuffer = malloc(mTotalSize)`; `block` is what `malloc` returned.
No other member is written. -/
def Init (self : LiniarAllocator) (block : Nat) : LiniarAllocator :=
  { self with mMemoryBuffer := block }

/-- `Reset()`: `mOffset = 0; mUsed = 0; mPeak = 0;`. -/
def Reset (self : LiniarAllocator) : LiniarAllocator :=
  { self with mOffset := 0, mUsed := 0, mPeak := 0 }

/-- `Allocate(size, alignment)`. Returns the pointer (0 for `nullptr`) and the state
after the call. -/
def Allocate (self : LiniarAllocator) (size alignment : Nat) :
    Except Fault (Nat × LiniarAllocator) :=
  if size = 0 then .error .assertion
  else
    let currentAddress := addSz self.mMemoryBuffer self.mOffset
    let padding : Except Fault Nat :=
      if alignment > 0 ∧ self.mOffset % alignment ≠ 0 then
        CalculateMemoryPadding currentAddress alignment
      else .ok 0
    match padding with
    | .error f => .error f
    | .ok padding =>
      if addSz (addSz self.mOffset padding) size > self.mTotalSize then
        .ok (0, self)
      else
        let nextAvailableAddress := addSz currentAddress padding
        let mOffset := addSz self.mOffset (addSz size padding)
        let mUsed := mOffset
        let mPeak := max self.mPeak mUsed
        .ok (nextAvailableAddress,
          { self with mOffset := mOffset, mUsed := mUsed, mPeak := mPeak })

/-- `Free(ptr)`: `assert(false && "Use Reset() method")`. -/
def Free (_self : LiniarAllocator) (_ptr : Nat) : Except Fault LiniarAllocator :=
  .error .assertion

end LiniarAllocator

/-- What `malloc(total)` may return: the null pointer, or the start of a block of
`total` bytes that lies inside the address space. -/
def MallocResult (total block : Nat) : Prop :=
  block < SIZE_MOD ∧ (block ≠ 0 → block + total ≤ SIZE_MOD)

instance (total block : Nat) : Decidable (MallocResult total block) := by
  unfold MallocResult; infer_instance

/-- States an allocator object can be in: constructed, then any interleaving of
`Init`, returning `Allocate` calls (granted or refused) and `Reset`, with
`std::size_t` arguments. -/
inductive Reachable : LiniarAllocator → Prop where
  | ctor (totalSize : Nat) (h : totalSize < SIZE_MOD) :
      Reachable (LiniarAllocator.construct totalSize)
  | init {s : LiniarAllocator} (block : Nat) (hs : Reachable s)
      (hb : MallocResult s.mTotalSize block) : Reachable (s.Init block)
  | alloc {s s1 : LiniarAllocator} (size alignment p : Nat) (hs : Reachable s)
      (hsize : size < SIZE_MOD) (hal : alignment < SIZE_MOD)
      (h : s.Allocate size alignment = .ok (p, s1)) : Reachable s1
  | reset {s : LiniarAllocator} (hs : Reachable s) : Reachable s.Reset

/-- Client loop over `Allocate`: issues the requests `(size, alignment)` in order and
collects the returned pointers. -/
def allocateAll (s : LiniarAllocator) :
    List (Nat × Nat) → Except Fault (List Nat × LiniarAllocator)
  | [] => .ok ([], s)
  | (size, alignment) :: rest =>
    match s.Allocate size alignment with
    | .error f => .error f
    | .ok (p, s1) =>
      match allocateAll s1 rest with
      | .error f => .error f
      | .ok (ps, s2) => .ok (p :: ps, s2)

/-- Ranges `(address, size)` granted by a run of the client loop: the requests whose
call returned a non-null pointer, in call order. -/
def grantedRanges (ps : List Nat) (reqs : List (Nat × Nat)) : List (Nat × Nat) :=
  ((ps.zip reqs).filter (fun x => x.1 != 0)).map (fun x => (x.1, x.2.1))

/-- The value the local `padding` of `Allocate` holds in state `s` when the space check
is reached, for a `std::size_t` alignment (see `Allocate_eq`). -/
def appliedPadding (s : LiniarAllocator) (alignment : Nat) : Nat :=
  if alignment > 0 ∧ s.mOffset % alignment ≠ 0 then
    alignment - addSz s.mMemoryBuffer s.mOffset % alignment
  else 0

/-- Facts about the members that hold in every reachable state. -/
structure WellFormed (s : LiniarAllocator) : Prop where
  total_lt : s.mTotalSize < SIZE_MOD
  buffer_lt : s.mMemoryBuffer < SIZE_MOD
  block_fits : s.mMemoryBuffer ≠ 0 → s.mMemoryBuffer + s.mTotalSize ≤ SIZE_MOD
  offset_le : s.mOffset ≤ s.mTotalSize
  used_eq : s.mUsed = s.mOffset
  used_le_peak : s.mUsed ≤ s.mPeak
  peak_le : s.mPeak ≤ s.mTotalSize

/-- Bytes consumed by the granted calls of a run of the client loop: the sum, over the
calls that returned a non-null pointer, of `size + padding` with the padding that call
applied. -/
def grantedBytes (s : LiniarAllocator) : List (Nat × Nat) → Nat
  | [] => 0
  | (size, alignment) :: rest =>
    match s.Allocate size alignment with
    | .error _ => 0
    | .ok (p, s1) =>
      (if p = 0 then 0 else size + appliedPadding s alignment) + grantedBytes s1 rest

/-- The loop of `MemoryBenchmark::SingleAllocation`: `count` calls
`allocatorPtr->Allocate(size, alignment)` whose results are discarded. -/
def allocateRepeat (s : LiniarAllocator) (size alignment : Nat) :
    Nat → Except Fault LiniarAllocator
  | 0 => .ok s
  | count + 1 =>
    match s.Allocate size alignment with
    | .error f => .error f
    | .ok (_, s1) => allocateRepeat s1 size alignment count

/-- `MemoryBenchmark::SingleAllocation` (MemoryBenchmark.cpp) on a non-null
`allocatorPtr`: `Init()` (with `block` returned by `malloc`), then `mOperationCount`
calls of `Allocate(size, alignment)`. The timer is left out; the result is the
allocator whose `Peak()` is handed to `CollectResults`. -/
def SingleAllocation (mOperationCount : Nat) (allocator : LiniarAllocator) (block : Nat)
    (size alignment : Nat) : Except Fault LiniarAllocator :=
  allocateRepeat (allocator.Init block) size alignment mOperationCount

/-! ### Sort.hpp

`BubbleSort` and `SelectionSort` reach the vector only through `Size()`, `operator[]`
and `SDA::Swap` on two of its elements, so a `Vector<int>` is represented by the list
of its elements `0 .. Size() - 1`. An `int` is only compared and moved, never computed
with; it is an `Int`. Indices stay below `Size()`, so no index arithmetic wraps. -/

/-- The comparators of Sort.hpp: the base `Comparator` (always `false`), `Greater`
(`val1 > val2`) and `Less` (`val1 < val2`). -/
inductive Comparator where
  | base
  | Greater
  | Less
  deriving DecidableEq, Repr

/-- Call operator `comp(val1, val2)`. -/
def Comparator.call : Comparator → Int → Int → Bool
  | .base, _, _ => false
  | .Greater, val1, val2 => decide (val1 > val2)
  | .Less, val1, val2 => decide (val1 < val2)

/-- `Vector<int>::operator[](index)`: `assert(index < mSize); return mBuffer[index];`. -/
def Vector.At (vec : List Int) (index : Nat) : Except Fault Int :=
  if h : index < vec.length then .ok (vec.get ⟨index, h⟩) else .error .assertion

/-- `SDA::Swap(vec[i], vec[j])` (Utility.hpp): both `operator[]` calls assert their
index, then `tmp = vec[i]; vec[i] = vec[j]; vec[j] = tmp;`. -/
def Vector.SwapAt (vec : List Int) (i j : Nat) : Except Fault (List Int) :=
  match Vector.At vec i, Vector.At vec j with
  | .ok t1, .ok t2 => .ok ((vec.set i t2).set j t1)
  | .error f, _ => .error f
  | .ok _, .error f => .error f

/-- Counting loop `for (size_t k = first; k < first + count; ++k) body`, threading the
state the body updates; a fault in the body stops the loop. -/
def forLoop {σ : Type} (body : Nat → σ → Except Fault σ) : Nat → Nat → σ → Except Fault σ
  | _, 0, st => .ok st
  | first, count + 1, st =>
    match body first st with
    | .error f => .error f
    | .ok st1 => forLoop body (first + 1) count st1

/-- Body of the inner loop of `BubbleSort`:
`if ((i != j) && comp(vec[i], vec[j])) SDA::Swap(vec[i], vec[j]);`. -/
def bubbleBody (comp : Comparator) (i j : Nat) (vec : List Int) : Except Fault (List Int) :=
  if i ≠ j then
    match Vector.At vec i, Vector.At vec j with
    | .ok a, .ok b => if comp.call a b then Vector.SwapAt vec i j else .ok vec
    | .error f, _ => .error f
    | .ok _, .error f => .error f
  else .ok vec

/-- `BubbleSort(vec, comp)` (Sort.hpp): `assert(vec.Size() >= 2)`, then for every `i` in
`0 .. Size()-1` and every `j` in `0 .. Size()-1` the body above. -/
def BubbleSort (vec : List Int) (comp : Comparator) : Except Fault (List Int) :=
  if vec.length ≥ 2 then
    forLoop (fun i v => forLoop (bubbleBody comp i) 0 v.length v) 0 vec.length vec
  else .error .assertion

/-- Body of the inner loop of `SelectionSort` on the local `toSwapIdx`:
`if (comp(vec[j], vec[toSwapIdx])) toSwapIdx = j;`. -/
def selectBody (comp : Comparator) (vec : List Int) (j toSwapIdx : Nat) : Except Fault Nat :=
  match Vector.At vec j, Vector.At vec toSwapIdx with
  | .ok a, .ok b => .ok (if comp.call a b then j else toSwapIdx)
  | .error f, _ => .error f
  | .ok _, .error f => .error f

/-- Body of the outer loop of `SelectionSort`: `toSwapIdx = i`, the inner loop over
`j` in `i+1 .. Size()-1`, then `if (toSwapIdx != i) SDA::Swap(vec[toSwapIdx], vec[i]);`. -/
def selectionBody (comp : Comparator) (i : Nat) (vec : List Int) : Except Fault (List Int) :=
  match forLoop (selectBody comp vec) (i + 1) (vec.length - (i + 1)) i with
  | .error f => .error f
  | .ok toSwapIdx => if toSwapIdx ≠ i then Vector.SwapAt vec toSwapIdx i else .ok vec

/-- `SelectionSort(vec, comp)` (Sort.hpp): `assert(vec.Size() >= 2)`, then the body
above for every `i` in `0 .. Size()-2`. -/
def SelectionSort (vec : List Int) (comp : Comparator) : Except Fault (List Int) :=
  if vec.length ≥ 2 then
    forLoop (selectionBody comp) 0 (vec.length - 1) vec
  else .error .assertion

/-- Order induced by a comparator: `a` may stand before `b` when `comp(b, a)` is
false. -/
def Comparator.mayPrecede (comp : Comparator) (a b : Int) : Prop := comp.call b a = false

/-- Exchange of the elements at `i` and `j` (the effect of `Vector.SwapAt` when both
indices are in range). -/
def swapElems (vec : List Int) (i j : Nat) : List Int :=
  (vec.set i (vec.getD j 0)).set j (vec.getD i 0)

/-- The elements at the indices below `bound` are in order: each may stand before
every later one. -/
def SortedBelow (comp : Comparator) (vec : List Int) (bound : Nat) : Prop :=
  ∀ k l, k ≤ l → l < bound → comp.mayPrecede (vec.getD k 0) (vec.getD l 0)

/-! ### Vector.hpp, FixedStack.hpp, FixedQueue.hpp

A buffer `new T[n]` is a list of `n` cells; a cell is `none` while it holds an
indeterminate value. An access outside the `n` cells has no defined behaviour.
`std::move` of a cell is modelled for the trivially copyable element types of the tests
(`int`, `char`, `float`): it copies the cell, and `~T()` does nothing. -/

/-- Read of `buffer[i]`. -/
def readCell {T : Type} (buf : List (Option T)) (i : Nat) : Except Fault (Option T) :=
  if h : i < buf.length then .ok (buf.get ⟨i, h⟩) else .error .outOfBounds

/-- Write `buffer[i] = v`. -/
def writeCell {T : Type} (buf : List (Option T)) (i : Nat) (v : Option T) :
    Except Fault (List (Option T)) :=
  if i < buf.length then .ok (buf.set i v) else .error .outOfBounds

/-- Assignment `buffer[dst] = std::move(buffer[src])`. -/
def moveCell {T : Type} (buf : List (Option T)) (dst src : Nat) :
    Except Fault (List (Option T)) :=
  match readCell buf src with
  | .error f => .error f
  | .ok v => writeCell buf dst v

/-- Counting loop `for (size_t k = first; ...; --k) body` that runs `count` times, for
`k = first, first - 1, ...`. -/
def forLoopDown {σ : Type} (body : Nat → σ → Except Fault σ) :
    Nat → Nat → σ → Except Fault σ
  | _, 0, st => .ok st
  | first, count + 1, st =>
    match body first st with
    | .error f => .error f
    | .ok st1 => forLoopDown body (first - 1) count st1

/-- Data members of `Vector<T>`. -/
structure Vector (T : Type) where
  mBuffer : List (Option T)
  mCapacity : Nat
  mSize : Nat
  deriving DecidableEq, Repr

/-- `Vector<T>::Reserve(capacity)`: when `capacity > mCapacity`, a new buffer of
`capacity` cells receives the `mSize` elements and replaces the old one. -/
def Vector.Reserve {T : Type} (self : Vector T) (capacity : Nat) : Except Fault (Vector T) :=
  if capacity > self.mCapacity then
    match forLoop (fun i newBuffer =>
        match readCell self.mBuffer i with
        | .error f => .error f
        | .ok v => writeCell newBuffer i v) 0 self.mSize (List.replicate capacity none) with
    | .error f => .error f
    | .ok newBuffer => .ok { mBuffer := newBuffer, mCapacity := capacity, mSize := self.mSize }
  else .ok self

/-- `Vector<T>::Insert(index, val)`: `assert(index < mSize)`; `Reserve(mCapacity * 2)`
when `mSize + 1 > mCapacity`; for `index == 0` the loop
`for (i = mSize - 1; i > 0; --i) mBuffer[i + 1] = std::move(mBuffer[i])`, for
`index == mSize - 1` nothing, otherwise the loop
`for (i = mSize - index; i > index; --i) mBuffer[i + 1] = std::move(mBuffer[i])`; then
`mBuffer[index] = val; ++mSize;`. -/
def Vector.Insert {T : Type} (self : Vector T) (index : Nat) (val : T) :
    Except Fault (Vector T) :=
  if index < self.mSize then
    match (if addSz self.mSize 1 > self.mCapacity
            then self.Reserve (mulSz self.mCapacity 2) else .ok self) with
    | .error f => .error f
    | .ok v =>
      match (if index = 0 then
              forLoopDown (fun i buf => moveCell buf (i + 1) i)
                (v.mSize - 1) (v.mSize - 1) v.mBuffer
            else if index = v.mSize - 1 then .ok v.mBuffer
            else
              forLoopDown (fun i buf => moveCell buf (i + 1) i)
                (v.mSize - index) (v.mSize - index - index) v.mBuffer) with
      | .error f => .error f
      | .ok buf =>
        match writeCell buf index (some val) with
        | .error f => .error f
        | .ok buf1 => .ok { v with mBuffer := buf1, mSize := addSz v.mSize 1 }
  else .error .assertion

/-- `Vector<T>::Erase(index)`: `assert(index < mSize)`; for `index == 0` the loop
`for (i = 0; i < mSize; ++i) mBuffer[i] = std::move(mBuffer[i + 1])`, for
`index == mSize - 1` nothing, otherwise the loop
`for (i = index; i < mSize - index; ++i) mBuffer[i] = std::move(mBuffer[i + 1])`; then
`--mSize;`. -/
def Vector.Erase {T : Type} (self : Vector T) (index : Nat) : Except Fault (Vector T) :=
  if index < self.mSize then
    match (if index = 0 then
            forLoop (fun i buf => moveCell buf i (i + 1)) 0 self.mSize self.mBuffer
          else if index = self.mSize - 1 then .ok self.mBuffer
          else
            forLoop (fun i buf => moveCell buf i (i + 1))
              index (self.mSize - index - index) self.mBuffer) with
    | .error f => .error f
    | .ok buf => .ok { self with mBuffer := buf, mSize := subSz self.mSize 1 }
  else .error .assertion

/-- `Vector<T>::Swap(vec)`: the three statements of the body are commented out in the
source, so the call leaves `*this` and `vec` as they are. The result is the pair
(`*this`, `vec`) after the call. -/
def Vector.Swap {T : Type} (self vec : Vector T) : Vector T × Vector T :=
  (self, vec)

/-- The elements `0 .. Size() - 1` of a vector. -/
def Vector.elements {T : Type} (self : Vector T) : List (Option T) :=
  self.mBuffer.take self.mSize

/-- Data members of `FixedStack<T>`. -/
structure FixedStack (T : Type) where
  mBuffer : List (Option T)
  mCapacity : Nat
  mSize : Nat
  deriving DecidableEq, Repr

namespace FixedStack

/-- Constructor `FixedStack(capacity)`: `mBuffer = new T[mCapacity]`, `mSize = 0`; the
default constructor is `construct 100`. -/
def construct {T : Type} (capacity : Nat) : FixedStack T :=
  { mBuffer := List.replicate capacity none, mCapacity := capacity, mSize := 0 }

/-- `IsEmpty()`. -/
def IsEmpty {T : Type} (self : FixedStack T) : Bool := self.mSize == 0

/-- `IsFull()`. -/
def IsFull {T : Type} (self : FixedStack T) : Bool := self.mSize == self.mCapacity

/-- `Capacity()`. -/
def Capacity {T : Type} (self : FixedStack T) : Nat := self.mCapacity

/-- `Size()`. -/
def Size {T : Type} (self : FixedStack T) : Nat := self.mSize

/-- `Top()`: `assert(mSize > 0); return mBuffer[mSize - 1];`. -/
def Top {T : Type} (self : FixedStack T) : Except Fault (Option T) :=
  if self.mSize > 0 then readCell self.mBuffer (self.mSize - 1) else .error .assertion

/-- `Push(val)`: `if (false == IsFull()) mBuffer[mSize++] = val;`. -/
def Push {T : Type} (self : FixedStack T) (val : T) : Except Fault (FixedStack T) :=
  if self.IsFull = false then
    match writeCell self.mBuffer self.mSize (some val) with
    | .error f => .error f
    | .ok buf => .ok { self with mBuffer := buf, mSize := addSz self.mSize 1 }
  else .ok self

/-- `Pop()`: `if (false == IsEmpty()) { mBuffer[mSize - 1].~T(); --mSize; }`. -/
def Pop {T : Type} (self : FixedStack T) : FixedStack T :=
  if self.IsEmpty = false then { self with mSize := subSz self.mSize 1 } else self

/-- Pushes of a list of values, first element first. -/
def pushAll {T : Type} (self : FixedStack T) : List T → Except Fault (FixedStack T)
  | [] => .ok self
  | x :: xs =>
    match self.Push x with
    | .error f => .error f
    | .ok s1 => pushAll s1 xs

/-- `count` times: read `Top()`, then `Pop()` (the loop of `operator <<`); the values
read, in reading order, and the stack left. -/
def drain {T : Type} (self : FixedStack T) : Nat → Except Fault (List (Option T) × FixedStack T)
  | 0 => .ok ([], self)
  | count + 1 =>
    match self.Top with
    | .error f => .error f
    | .ok v =>
      match drain self.Pop count with
      | .error f => .error f
      | .ok (vs, s1) => .ok (v :: vs, s1)

end FixedStack

/-- Consistency of the members of a stack: the buffer has `mCapacity` cells, the size
does not exceed the capacity, the capacity is a `std::size_t`. -/
def FixedStack.Valid {T : Type} (self : FixedStack T) : Prop :=
  self.mBuffer.length = self.mCapacity ∧ self.mSize ≤ self.mCapacity ∧
    self.mCapacity < SIZE_MOD

/-- The cells `0 .. Size() - 1` of a stack, bottom first. -/
def FixedStack.contents {T : Type} (self : FixedStack T) : List (Option T) :=
  self.mBuffer.take self.mSize

/-- Data members of `FixedQueue<T>`. -/
structure FixedQueue (T : Type) where
  mBuffer : List (Option T)
  mCapacity : Nat
  mSize : Nat
  deriving DecidableEq, Repr

namespace FixedQueue

/-- Constructor `FixedQueue(capacity)`: `mBuffer = new T[mCapacity]`, `mSize = 0`; the
default constructor is `construct 100`. -/
def construct {T : Type} (capacity : Nat) : FixedQueue T :=
  { mBuffer := List.replicate capacity none, mCapacity := capacity, mSize := 0 }

/-- `IsEmpty()`. -/
def IsEmpty {T : Type} (self : FixedQueue T) : Bool := self.mSize == 0

/-- `IsFull()`. -/
def IsFull {T : Type} (self : FixedQueue T) : Bool := self.mSize == self.mCapacity

/-- `Capacity()`. -/
def Capacity {T : Type} (self : FixedQueue T) : Nat := self.mCapacity

/-- `Size()`. -/
def Size {T : Type} (self : FixedQueue T) : Nat := self.mSize

/-- `Front()`: `assert(mSize > 0); return mBuffer[0];`. -/
def Front {T : Type} (self : FixedQueue T) : Except Fault (Option T) :=
  if self.mSize > 0 then readCell self.mBuffer 0 else .error .assertion

/-- `PushBack(val)`: `if (false == IsFull()) mBuffer[mSize++] = val;`. -/
def PushBack {T : Type} (self : FixedQueue T) (val : T) : Except Fault (FixedQueue T) :=
  if self.IsFull = false then
    match writeCell self.mBuffer self.mSize (some val) with
    | .error f => .error f
    | .ok buf => .ok { self with mBuffer := buf, mSize := addSz self.mSize 1 }
  else .ok self

/-- `PopFront()`: when not empty, `mBuffer[0].~T()`, the loop
`for (i = 0; i < mSize; ++i) mBuffer[i] = std::move(mBuffer[i + 1])`, then `--mSize`. -/
def PopFront {T : Type} (self : FixedQueue T) : Except Fault (FixedQueue T) :=
  if self.IsEmpty = false then
    match forLoop (fun i buf => moveCell buf i (i + 1)) 0 self.mSize self.mBuffer with
    | .error f => .error f
    | .ok buf => .ok { self with mBuffer := buf, mSize := subSz self.mSize 1 }
  else .ok self

/-- Calls of `PushBack` for a list of values, first element first. -/
def pushAll {T : Type} (self : FixedQueue T) : List T → Except Fault (FixedQueue T)
  | [] => .ok self
  | x :: xs =>
    match self.PushBack x with
    | .error f => .error f
    | .ok s1 => pushAll s1 xs

/-- `count` times: read `Front()`, then `PopFront()` (the loop of `operator <<`); the
values read, in reading order, and the queue left. -/
def drain {T : Type} (self : FixedQueue T) : Nat → Except Fault (List (Option T) × FixedQueue T)
  | 0 => .ok ([], self)
  | count + 1 =>
    match self.Front with
    | .error f => .error f
    | .ok v =>
      match self.PopFront with
      | .error f => .error f
      | .ok s1 =>
        match drain s1 count with
        | .error f => .error f
        | .ok (vs, s2) => .ok (v :: vs, s2)

end FixedQueue

/-- Consistency of the members of a queue: the buffer has `mCapacity` cells, the size
does not exceed the capacity, the capacity is a `std::size_t`. -/
def FixedQueue.Valid {T : Type} (self : FixedQueue T) : Prop :=
  self.mBuffer.length = self.mCapacity ∧ self.mSize ≤ self.mCapacity ∧
    self.mCapacity < SIZE_MOD

/-- The cells `0 .. Size() - 1` of a queue, front first. -/
def FixedQueue.contents {T : Type} (self : FixedQueue T) : List (Option T) :=
  self.mBuffer.take self.mSize

/-! ### Search.hpp -/

/-- `BinarySearch(container, val, startIdx, endIdx)` (Search.hpp) on a `Vector<int>`
given by its elements. The four assertions come first; then
`halfIdx = (endIdx - startIdx + 1) / 2` and the three-way comparison, with the recursive
calls on `(startIdx, halfIdx)` and `(halfIdx, endIdx)`. The first argument bounds the
depth of the recursion; `none` means that the bound was reached. For `int` the third
test `val > container[halfIdx]` is the only case left after the first two. -/
def BinarySearch : Nat → List Int → Int → Nat → Nat → Option (Except Fault Nat)
  | 0, _, _, _, _ => none
  | fuel + 1, container, val, startIdx, endIdx =>
    if startIdx < container.length ∧ endIdx < container.length ∧ container.length ≥ 2 then
      match Vector.At container 1, Vector.At container 0 with
      | .ok c1, .ok c0 =>
        if c1 > c0 then
          let halfIdx := addSz (subSz endIdx startIdx) 1 / 2
          match Vector.At container halfIdx with
          | .error f => some (.error f)
          | .ok mid =>
            if mid = val then some (.ok halfIdx)
            else if val < mid then BinarySearch fuel container val startIdx halfIdx
            else BinarySearch fuel container val halfIdx endIdx
        else some (.error .assertion)
      | .error f, _ => some (.error f)
      | .ok _, .error f => some (.error f)
    else some (.error .assertion)

/-! ### Sort.hpp, the functions with `int` indices

An `int` is a 32-bit two's complement integer: a value is an `Int` between `INT_MIN`
and `INT_MAX`, and an operation whose result leaves that range has no defined
behaviour. -/

/-- Largest `int`. -/
def INT_MAX : Int := 2147483647

/-- Smallest `int`. -/
def INT_MIN : Int := -2147483648

/-- Result of an `int` operation with the mathematical result `x`: the operation has no
defined behaviour when `x` is outside the range of `int`. -/
def checkInt (x : Int) : Except Fault Int :=
  if x < INT_MIN ∨ INT_MAX < x then .error .signedOverflow else .ok x

/-- Conversion of an `int` to `std::size_t` (reduction modulo `2 ^ 64`). -/
def intToSize (x : Int) : Nat := (x % (SIZE_MOD : Int)).toNat

/-- Conversion of a `std::size_t` to `int` (reduction modulo `2 ^ 32` into the range of
`int`). -/
def sizeToInt (n : Nat) : Int :=
  if n % 4294967296 < 2147483648 then ((n % 4294967296 : Nat) : Int)
  else ((n % 4294967296 : Nat) : Int) - 4294967296

/-- Assignment `vec[index] = val`: `operator[]` asserts the index. -/
def Vector.SetAt (vec : List Int) (index : Nat) (val : Int) : Except Fault (List Int) :=
  if index < vec.length then .ok (vec.set index val) else .error .assertion

/-- The `while` loop of `InsertionSort`, entered with the local `j` (here the first
argument): `while (j > 0 && comp(crr, vec[j - 1])) { vec[j] = vec[j - 1]; j = j - 1; }`.
The result is the final `j` and the vector. -/
def insertShift (comp : Comparator) (crr : Int) : Nat → List Int → Except Fault (Nat × List Int)
  | 0, vec => .ok (0, vec)
  | j + 1, vec =>
    match Vector.At vec j with
    | .error f => .error f
    | .ok prev =>
      if comp.call crr prev then
        match Vector.SetAt vec (j + 1) prev with
        | .error f => .error f
        | .ok vec1 => insertShift comp crr j vec1
      else .ok (j + 1, vec)

/-- Body of the `for` loop of `InsertionSort` for the `int` index `i >= 0`, followed by
its increment `++i`: `crr = vec[i]; j = i;`, the `while` loop, `vec[j] = crr;`. -/
def insertionBody (comp : Comparator) (i : Nat) (vec : List Int) : Except Fault (List Int) :=
  match Vector.At vec i with
  | .error f => .error f
  | .ok crr =>
    match insertShift comp crr i vec with
    | .error f => .error f
    | .ok (j, vec1) =>
      match Vector.SetAt vec1 j crr with
      | .error f => .error f
      | .ok vec2 =>
        match checkInt ((i : Int) + 1) with
        | .error f => .error f
        | .ok _ => .ok vec2

/-- `InsertionSort(vec, comp)` (Sort.hpp): `assert(vec.Size() >= 2)`, then
`for (int i = 0; i < vec.Size(); ++i)` with the body above; `i` never is negative, so
the comparison with `Size()` is the one of the values. -/
def InsertionSort (vec : List Int) (comp : Comparator) : Except Fault (List Int) :=
  if vec.length ≥ 2 then forLoop (insertionBody comp) 0 vec.length vec
  else .error .assertion

/-- Body of the loop of `Partition` on the locals `i` and `vec`:
`if (comp(vec[j], pivot)) { i++; if (i != j) SDA::Swap(vec[i], vec[j]); }`. The `int i`
is converted to `size_t` for the comparison with `j` and for `operator[]`. -/
def partitionBody (comp : Comparator) (pivot : Int) (j : Nat) (st : Int × List Int) :
    Except Fault (Int × List Int) :=
  match Vector.At st.2 j with
  | .error f => .error f
  | .ok x =>
    if comp.call x pivot then
      match checkInt (st.1 + 1) with
      | .error f => .error f
      | .ok i1 =>
        if intToSize i1 ≠ j then
          match Vector.SwapAt st.2 (intToSize i1) j with
          | .error f => .error f
          | .ok vec1 => .ok (i1, vec1)
        else .ok (i1, st.2)
    else .ok st

/-- Loop `for (size_t j = low; j <= high - 1; ++j)` of `Partition`: `high - 1` is
computed in `int` and converted to `size_t` for the comparison, `++j` is the increment of
a `size_t`. The first argument bounds the number of condition tests. -/
def partitionLoop (comp : Comparator) (pivot high : Int) :
    Nat → Nat → Int × List Int → Option (Except Fault (Int × List Int))
  | 0, _, _ => none
  | fuel + 1, j, st =>
    match checkInt (high - 1) with
    | .error f => some (.error f)
    | .ok last =>
      if j ≤ intToSize last then
        match partitionBody comp pivot j st with
        | .error f => some (.error f)
        | .ok st1 => partitionLoop comp pivot high fuel (addSz j 1) st1
      else some (.ok st)

/-- `Partition(vec, low, high, comp)` (Sort.hpp): `pivot = vec[high]`, `i = low - 1`, the
loop above, `SDA::Swap(vec[i + 1], vec[high])`, and the result `i + 1` converted to the
return type `size_t`. -/
def Partition (fuel : Nat) (vec : List Int) (low high : Int) (comp : Comparator) :
    Option (Except Fault (Nat × List Int)) :=
  match Vector.At vec (intToSize high) with
  | .error f => some (.error f)
  | .ok pivot =>
    match checkInt (low - 1) with
    | .error f => some (.error f)
    | .ok i0 =>
      match partitionLoop comp pivot high fuel (intToSize low) (i0, vec) with
      | none => none
      | some (.error f) => some (.error f)
      | some (.ok (i, vec1)) =>
        match checkInt (i + 1) with
        | .error f => some (.error f)
        | .ok p =>
          match Vector.SwapAt vec1 (intToSize p) (intToSize high) with
          | .error f => some (.error f)
          | .ok vec2 => some (.ok (intToSize p, vec2))

/-- `QuickSort(vec, low, high, comp)` (Sort.hpp): `assert(vec.Size() >= 2)`, and when
`low < high`: `int pi = Partition(vec, low, high, comp)` (the `size_t` result converted
to `int`), `QuickSort(vec, low, pi - 1, comp)`, `QuickSort(vec, pi + 1, high, comp)`. The
first argument bounds the depth of the calls and the condition tests of each loop; `none`
is a run that exceeds it. -/
def QuickSort : Nat → List Int → Int → Int → Comparator → Option (Except Fault (List Int))
  | 0, _, _, _, _ => none
  | fuel + 1, vec, low, high, comp =>
    if vec.length ≥ 2 then
      if low < high then
        match Partition fuel vec low high comp with
        | none => none
        | some (.error f) => some (.error f)
        | some (.ok (p, vec1)) =>
          match checkInt (sizeToInt p - 1) with
          | .error f => some (.error f)
          | .ok high1 =>
            match QuickSort fuel vec1 low high1 comp with
            | none => none
            | some (.error f) => some (.error f)
            | some (.ok vec2) =>
              match checkInt (sizeToInt p + 1) with
              | .error f => some (.error f)
              | .ok low2 => QuickSort fuel vec2 low2 high comp
      else some (.ok vec)
    else some (.error .assertion)

/-- State of the loop of `Partition` on the segment `lo .. hi` of a vector that started as
`v0`, before the iteration `j`, with `p = i + 1`: the elements at `lo .. p-1` satisfy
`comp(x, pivot)`, those at `p .. j-1` do not, the pivot is still at `hi`, and only the
segment has been rearranged. -/
structure PartitionInv (comp : Comparator) (pivot : Int) (v0 : List Int)
    (lo hi p j : Nat) (v : List Int) : Prop where
  lo_le : lo ≤ p
  p_le : p ≤ j
  length_eq : v.length = v0.length
  perm : v.Perm v0
  pivot_eq : v.getD hi 0 = pivot
  left : ∀ k, lo ≤ k → k < p → comp.call (v.getD k 0) pivot = true
  right : ∀ k, p ≤ k → k < j → comp.call (v.getD k 0) pivot = false
  outside : ∀ k, k < lo ∨ hi < k → v.getD k 0 = v0.getD k 0
  from_segment : ∀ k, lo ≤ k → k ≤ hi → ∃ k2, lo ≤ k2 ∧ k2 ≤ hi ∧ v.getD k 0 = v0.getD k2 0

/-! ### RefCountedPtr.hpp

The heap holds the `RefCounter` objects and the objects of type `T` created so far, each
at its own address; a deleted one stays in the list, marked as no longer alive, and any
access to it has no defined behaviour. Without moves `mRefCounterPtr` is never null, so
an instance stores the address of its counter; `mDataPtr` is `none` for `nullptr`. -/

/-- `RefCounter` object on the heap; `live` is false once it has been deleted. -/
structure RefCounter where
  mRefCount : Nat
  live : Bool
  deriving DecidableEq, Repr

/-- `RefCountedPtr<T>`: the addresses of the counter and of the object. -/
structure RefCountedPtr where
  mRefCounterPtr : Nat
  mDataPtr : Option Nat
  deriving DecidableEq, Repr

/-- Heap and variables of a program that uses `RefCountedPtr<T>`: the counters and the
objects by address (an object is `true` while alive), and the instances declared so far
(`none` once destroyed). -/
structure PtrState where
  counters : List RefCounter
  objects : List Bool
  instances : List (Option RefCountedPtr)
  deriving DecidableEq, Repr

/-- State of a program before its first declaration. -/
def PtrState.empty : PtrState := ⟨[], [], []⟩

/-- Access to the counter at address `p`. -/
def PtrState.counterAt (s : PtrState) (p : Nat) : Except Fault RefCounter :=
  match s.counters.getD p ⟨0, false⟩ with
  | ⟨n, true⟩ => .ok ⟨n, true⟩
  | ⟨_, false⟩ => .error .useAfterFree

/-- `mRefCounterPtr->AddRefCount()`: `return ++mRefCount;` on a `size_t`. -/
def AddRefCount (s : PtrState) (p : Nat) : Except Fault (Nat × PtrState) :=
  match s.counterAt p with
  | .error f => .error f
  | .ok c =>
    .ok (addSz c.mRefCount 1,
      { s with counters := s.counters.set p ⟨addSz c.mRefCount 1, true⟩ })

/-- `mRefCounterPtr->DecRefCount()`: `return --mRefCount;` on a `size_t`. -/
def DecRefCount (s : PtrState) (p : Nat) : Except Fault (Nat × PtrState) :=
  match s.counterAt p with
  | .error f => .error f
  | .ok c =>
    .ok (subSz c.mRefCount 1,
      { s with counters := s.counters.set p ⟨subSz c.mRefCount 1, true⟩ })

/-- `new RefCounter()`: a counter with `mRefCount(0)` at a new address. -/
def newRefCounter (s : PtrState) : Nat × PtrState :=
  (s.counters.length, { s with counters := s.counters ++ [⟨0, true⟩] })

/-- `new T()`: an object at a new address. -/
def newObject (s : PtrState) : Nat × PtrState :=
  (s.objects.length, { s with objects := s.objects ++ [true] })

/-- `delete mDataPtr`. -/
def deleteObject (s : PtrState) (o : Nat) : Except Fault PtrState :=
  if s.objects.getD o false then .ok { s with objects := s.objects.set o false }
  else .error .useAfterFree

/-- `delete mRefCounterPtr`. -/
def deleteCounter (s : PtrState) (p : Nat) : Except Fault PtrState :=
  match s.counterAt p with
  | .error f => .error f
  | .ok c => .ok { s with counters := s.counters.set p ⟨c.mRefCount, false⟩ }

/-- `RefCountedPtr<T>::GetRefCount()`: `return mRefCounterPtr->GetRefCount();`. -/
def RefCountedPtr.GetRefCount (self : RefCountedPtr) (s : PtrState) : Except Fault Nat :=
  match s.counterAt self.mRefCounterPtr with
  | .error f => .error f
  | .ok c => .ok c.mRefCount

/-- `RefCountedPtr<T>::RefCountedPtr()`:
`mRefCounterPtr(new RefCounter()), mDataPtr(nullptr)` and an empty body. -/
def RefCountedPtr.construct (s : PtrState) : RefCountedPtr × PtrState :=
  (⟨(newRefCounter s).1, none⟩, (newRefCounter s).2)

/-- `RefCountedPtr<T>::RefCountedPtr(T* dataPtr)`:
`mRefCounterPtr(new RefCounter()), mDataPtr(dataPtr)`, then `AddRefCount();`. -/
def RefCountedPtr.constructFrom (s : PtrState) (dataPtr : Option Nat) :
    Except Fault (RefCountedPtr × PtrState) :=
  match AddRefCount (newRefCounter s).2 (newRefCounter s).1 with
  | .error f => .error f
  | .ok (_, s1) => .ok (⟨(newRefCounter s).1, dataPtr⟩, s1)

/-- `RefCountedPtr<T>::Copy(refCntPtr)` in the copy constructor of a new instance:
`refCntPtr.mRefCounterPtr->AddRefCount();` and the two pointers are copied. -/
def RefCountedPtr.Copy (s : PtrState) (refCntPtr : RefCountedPtr) :
    Except Fault (RefCountedPtr × PtrState) :=
  match AddRefCount s refCntPtr.mRefCounterPtr with
  | .error f => .error f
  | .ok (_, s1) => .ok (⟨refCntPtr.mRefCounterPtr, refCntPtr.mDataPtr⟩, s1)

/-- `RefCountedPtr<T>::Release()`, the body of the destructor:
`if (DecRefCount() == 0) { if (mDataPtr) delete mDataPtr; delete mRefCounterPtr; }`. -/
def RefCountedPtr.Release (s : PtrState) (self : RefCountedPtr) : Except Fault PtrState :=
  match DecRefCount s self.mRefCounterPtr with
  | .error f => .error f
  | .ok (n, s1) =>
    if n = 0 then
      match self.mDataPtr with
      | some o =>
        match deleteObject s1 o with
        | .error f => .error f
        | .ok s2 => deleteCounter s2 self.mRefCounterPtr
      | none => deleteCounter s1 self.mRefCounterPtr
    else .ok s1

/-- Statements of a program on its `RefCountedPtr<T>` variables, which are numbered in
the order of their declarations. -/
inductive PtrOp where
  /-- Declaration `RefCountedPtr<T> x(new T());`. -/
  | declRaw
  /-- Declaration `RefCountedPtr<T> x;`. -/
  | declDefault
  /-- Declaration `RefCountedPtr<T> x(src);`. -/
  | declCopy (src : Nat)
  /-- Assignment `dst = src;`. -/
  | assign (dst src : Nat)
  /-- Call `v.Reset();`. -/
  | reset (v : Nat)
  /-- Call `v.Reset(new T());`. -/
  | resetRaw (v : Nat)
  /-- End of the lifetime of `v`. -/
  | destroy (v : Nat)
  deriving DecidableEq, Repr

/-- The instance number `v`, when it has been declared and not destroyed. -/
def PtrState.getInstance (s : PtrState) (v : Nat) : Option RefCountedPtr :=
  s.instances.getD v none

/-- A new variable that holds `x`. -/
def PtrState.declare (s : PtrState) (x : RefCountedPtr) : PtrState :=
  { s with instances := s.instances ++ [some x] }

/-- `temp.Swap(*this);` on a temporary followed by the destructor of the temporary, the
body of `operator =`, `Reset()` and `Reset(dataPtr)`: the instance `v` receives the
pointers of the temporary, and the temporary is released with the pointers `old` that
`v` had. -/
def swapAndRelease (s : PtrState) (v : Nat) (old temp : RefCountedPtr) :
    Except Fault PtrState :=
  RefCountedPtr.Release { s with instances := s.instances.set v (some temp) } old

/-- One statement. A statement that names a variable that is not alive is not part of a
program and leaves the state as it is. -/
def PtrState.step (s : PtrState) : PtrOp → Except Fault PtrState
  | .declRaw =>
    match RefCountedPtr.constructFrom (newObject s).2 (some (newObject s).1) with
    | .error f => .error f
    | .ok (x, s1) => .ok (s1.declare x)
  | .declDefault => .ok ((RefCountedPtr.construct s).2.declare (RefCountedPtr.construct s).1)
  | .declCopy src =>
    match s.getInstance src with
    | none => .ok s
    | some r =>
      match RefCountedPtr.Copy s r with
      | .error f => .error f
      | .ok (x, s1) => .ok (s1.declare x)
  | .assign dst src =>
    match s.getInstance dst, s.getInstance src with
    | some d, some r =>
      match RefCountedPtr.Copy s r with
      | .error f => .error f
      | .ok (temp, s1) => swapAndRelease s1 dst d temp
    | _, _ => .ok s
  | .reset v =>
    match s.getInstance v with
    | none => .ok s
    | some d =>
      swapAndRelease (RefCountedPtr.construct s).2 v d (RefCountedPtr.construct s).1
  | .resetRaw v =>
    match s.getInstance v with
    | none => .ok s
    | some d =>
      match RefCountedPtr.constructFrom (newObject s).2 (some (newObject s).1) with
      | .error f => .error f
      | .ok (temp, s1) => swapAndRelease s1 v d temp
  | .destroy v =>
    match s.getInstance v with
    | none => .ok s
    | some d =>
      match RefCountedPtr.Release s d with
      | .error f => .error f
      | .ok s1 => .ok { s1 with instances := s1.instances.set v none }

/-- The statements of a program in order; the run stops at the first fault. -/
def PtrState.run (s : PtrState) : List PtrOp → Except Fault PtrState
  | [] => .ok s
  | op :: ops =>
    match s.step op with
    | .error f => .error f
    | .ok s1 => s1.run ops

/-- Value of `v.GetRefCount()` for every variable that is alive after the program `ops`,
in the order of the declarations. -/
def refCounts (ops : List PtrOp) : Except Fault (List (Option (Except Fault Nat))) :=
  match PtrState.empty.run ops with
  | .error f => .error f
  | .ok s => .ok (s.instances.map (fun x => x.map (fun i => i.GetRefCount s)))

/-- Instances that are alive in the state `s`. -/
def PtrState.live (s : PtrState) : List RefCountedPtr := s.instances.reduceOption

/-- Number of the holders in `H` that share the object `o`. -/
def sharing (H : List RefCountedPtr) (o : Nat) : Nat :=
  H.countP (fun i => i.mDataPtr == some o)

/-- Consistency of a heap with the list `H` of the instances that exist (variables and
temporaries): every holder of an object points to a counter that is alive and whose count
is the number of holders of that object, exactly the holders of the object point to that
counter, an object that is held is alive, and an object that is alive is held. -/
structure HeapInv (counters : List RefCounter) (objects : List Bool)
    (H : List RefCountedPtr) : Prop where
  counter_lt : ∀ i ∈ H, i.mRefCounterPtr < counters.length
  object_live : ∀ i ∈ H, ∀ o, i.mDataPtr = some o → objects.getD o false = true
  count_eq : ∀ i ∈ H, ∀ o, i.mDataPtr = some o →
    counters.getD i.mRefCounterPtr ⟨0, false⟩ = ⟨sharing H o, true⟩
  paired : ∀ i ∈ H, ∀ j ∈ H, ∀ o, i.mDataPtr = some o →
    (j.mRefCounterPtr = i.mRefCounterPtr ↔ j.mDataPtr = some o)
  held : ∀ o, objects.getD o false = true → 0 < sharing H o

/-! ### The call site of the padding calculator -/

/-- Argument `baseAddress` of the call `CalculateMemoryPadding(currentAddress, alignment)`
that `Allocate(size, alignment)` makes in state `s`, `none` when the guard
`(alignment > 0) && (mOffset % alignment != 0)` skips the call. -/
def paddingCallAddress (s : LiniarAllocator) (alignment : Nat) : Option Nat :=
  if alignment > 0 ∧ s.mOffset % alignment ≠ 0 then some (addSz s.mMemoryBuffer s.mOffset)
  else none

/-- States an allocator object can be in when no call of `Allocate` had a sum
`offset + padding + size` beyond the range of `std::size_t`: constructed, then any
interleaving of `Init`, returning `Allocate` calls (granted or refused) whose sum is
below `2 ^ 64`, and `Reset`. -/
inductive ReachableNoOverflow : LiniarAllocator → Prop where
  | ctor (totalSize : Nat) (h : totalSize < SIZE_MOD) :
      ReachableNoOverflow (LiniarAllocator.construct totalSize)
  | init {s : LiniarAllocator} (block : Nat) (hs : ReachableNoOverflow s)
      (hb : MallocResult s.mTotalSize block) : ReachableNoOverflow (s.Init block)
  | alloc {s s1 : LiniarAllocator} (size alignment p : Nat) (hs : ReachableNoOverflow s)
      (hsize : size < SIZE_MOD) (hal : alignment < SIZE_MOD)
      (hsum : s.mOffset + appliedPadding s alignment + size < SIZE_MOD)
      (h : s.Allocate size alignment = .ok (p, s1)) : ReachableNoOverflow s1
  | reset {s : LiniarAllocator} (hs : ReachableNoOverflow s) : ReachableNoOverflow s.Reset

/-! ## Arithmetic of `std::size_t` -/

theorem SIZE_MOD_eq : SIZE_MOD = 18446744073709551616 := by
  norm_num [SIZE_MOD]

theorem addSz_of_lt {a b : Nat} (h : a + b < SIZE_MOD) : addSz a b = a + b := by
  unfold addSz; exact Nat.mod_eq_of_lt h

/-- For `std::size_t` arguments and a positive alignment the padding calculator
returns `alignment - baseAddress % alignment`, wrap-around included. -/
theorem CalculateMemoryPadding_eq (b a : Nat) (ha : a < SIZE_MOD)
    (hpos : 0 < a) : CalculateMemoryPadding b a = .ok (a - b % a) := by
  have hne : a ≠ 0 := by omega
  have hr : b % a < a := Nat.mod_lt _ hpos
  have hX : (b / a + 1) * a = b + (a - b % a) := by
    have := Nat.div_add_mod b a
    have h2 : (b / a + 1) * a = a * (b / a) + a := by ring
    omega
  have hmul : ((b / a + 1) % SIZE_MOD * a) % SIZE_MOD = ((b / a + 1) * a) % SIZE_MOD := by
    rw [Nat.mul_mod, Nat.mod_mod, ← Nat.mul_mod]
  simp only [CalculateMemoryPadding, if_neg hne, addSz, mulSz, subSz]
  rw [hmul, hX]
  congr 1
  rw [SIZE_MOD_eq] at *
  omega

/-- The address after the padding is a multiple of the alignment. -/
theorem add_padding_mod (b a : Nat) (hpos : 0 < a) : (b + (a - b % a)) % a = 0 := by
  have hr : b % a < a := Nat.mod_lt _ hpos
  have h1 : b + (a - b % a) = a * (b / a + 1) := by
    have := Nat.div_add_mod b a
    have h2 : a * (b / a + 1) = a * (b / a) + a := by ring
    omega
  rw [h1]
  exact Nat.mul_mod_right _ _

/-! ## The two outcomes of `Allocate` -/

/-- A returning `Allocate` either refuses (null pointer, state untouched) or grants
(pointer after the padding, counters advanced), decided by the wrapped sum. -/
theorem Allocate_eq (s : LiniarAllocator) (size alignment : Nat) (hsize : size ≠ 0)
    (hal : alignment < SIZE_MOD) :
    s.Allocate size alignment =
      if addSz (addSz s.mOffset (appliedPadding s alignment)) size > s.mTotalSize then
        .ok (0, s)
      else
        .ok (addSz (addSz s.mMemoryBuffer s.mOffset) (appliedPadding s alignment),
          { s with
            mOffset := addSz s.mOffset (addSz size (appliedPadding s alignment)),
            mUsed := addSz s.mOffset (addSz size (appliedPadding s alignment)),
            mPeak := max s.mPeak
              (addSz s.mOffset (addSz size (appliedPadding s alignment))) }) := by
  unfold LiniarAllocator.Allocate appliedPadding
  rw [if_neg hsize]
  by_cases hc : alignment > 0 ∧ s.mOffset % alignment ≠ 0
  · simp only [if_pos hc, CalculateMemoryPadding_eq _ alignment hal hc.1]
  · simp only [if_neg hc]

theorem addSz_assoc_swap (a b c : Nat) : addSz a (addSz b c) = addSz (addSz a c) b := by
  unfold addSz
  rw [SIZE_MOD_eq]
  omega

/-- Every reachable state is well formed. -/
theorem Reachable.wellFormed {s : LiniarAllocator} (h : Reachable s) : WellFormed s := by
  induction h with
  | ctor totalSize ht =>
    exact ⟨ht, by simp [LiniarAllocator.construct, SIZE_MOD], by simp [LiniarAllocator.construct],
      Nat.zero_le _, rfl, Nat.le_refl _, Nat.zero_le _⟩
  | init block hs hb ih =>
    exact ⟨ih.total_lt, hb.1, hb.2, ih.offset_le, ih.used_eq, ih.used_le_peak, ih.peak_le⟩
  | @alloc s s1 size alignment p hs hsize hal h ih =>
    by_cases hz : size = 0
    · simp [LiniarAllocator.Allocate, hz] at h
    rw [Allocate_eq s size alignment hz hal] at h
    split at h
    · injection h with h
      injection h with _ h
      subst h
      exact ih
    · rename_i hfit
      injection h with h
      injection h with _ h
      subst h
      rw [addSz_assoc_swap] at *
      have hle := Nat.le_of_not_gt hfit
      exact ⟨ih.total_lt, ih.buffer_lt, ih.block_fits, hle, rfl,
        le_max_right _ _, max_le ih.peak_le hle⟩
  | reset hs ih =>
    exact ⟨ih.total_lt, ih.buffer_lt, ih.block_fits, Nat.zero_le _, rfl,
      Nat.le_refl _, Nat.zero_le _⟩

/-- A returning `Allocate` never writes the capacity or the block pointer. -/
theorem Allocate_frame {s s1 : LiniarAllocator} {size alignment p : Nat}
    (h : s.Allocate size alignment = .ok (p, s1)) :
    s1.mTotalSize = s.mTotalSize ∧ s1.mMemoryBuffer = s.mMemoryBuffer := by
  unfold LiniarAllocator.Allocate at h
  split at h
  · cases h
  · dsimp only at h
    split at h
    · cases h
    · split at h
      · cases h
        exact ⟨rfl, rfl⟩
      · cases h
        exact ⟨rfl, rfl⟩

theorem allocateAll_cons_of_ok {s s1 s2 : LiniarAllocator} {size alignment p : Nat}
    {rest : List (Nat × Nat)} {ps : List Nat}
    (hA : s.Allocate size alignment = .ok (p, s1))
    (hR : allocateAll s1 rest = .ok (ps, s2)) :
    allocateAll s ((size, alignment) :: rest) = .ok (p :: ps, s2) := by
  simp only [allocateAll, hA, hR]

theorem allocateAll_cons_inv {s s2 : LiniarAllocator} {size alignment : Nat}
    {rest : List (Nat × Nat)} {ps : List Nat}
    (h : allocateAll s ((size, alignment) :: rest) = .ok (ps, s2)) :
    ∃ p s1 ps1, s.Allocate size alignment = .ok (p, s1) ∧
      allocateAll s1 rest = .ok (ps1, s2) ∧ ps = p :: ps1 := by
  simp only [allocateAll] at h
  cases hA : s.Allocate size alignment with
  | error f =>
    simp only [hA] at h
    cases h
  | ok v =>
    obtain ⟨p, s1⟩ := v
    simp only [hA] at h
    cases hR : allocateAll s1 rest with
    | error f =>
      simp only [hR] at h
      cases h
    | ok w =>
      obtain ⟨ps1, s3⟩ := w
      simp only [hR] at h
      cases h
      exact ⟨p, s1, ps1, rfl, hR, rfl⟩

/-- The client loop never writes the capacity or the block pointer. -/
theorem allocateAll_frame (reqs : List (Nat × Nat)) :
    ∀ (s s1 : LiniarAllocator) (ps : List Nat), allocateAll s reqs = .ok (ps, s1) →
      s1.mTotalSize = s.mTotalSize ∧ s1.mMemoryBuffer = s.mMemoryBuffer := by
  induction reqs with
  | nil =>
    intro s s1 ps h
    simp only [allocateAll] at h
    cases h
    exact ⟨rfl, rfl⟩
  | cons r rest ih =>
    intro s s1 ps h
    obtain ⟨size, alignment⟩ := r
    obtain ⟨p, s2, ps2, hA, hR, _⟩ := allocateAll_cons_inv h
    have h1 := Allocate_frame hA
    have h2 := ih s2 s1 ps2 hR
    exact ⟨h2.1.trans h1.1, h2.2.trans h1.2⟩

/-- With positive sizes and `std::size_t` alignments every call of the client loop
returns. -/
theorem allocateAll_returns (reqs : List (Nat × Nat))
    (hreqs : ∀ r ∈ reqs, 0 < r.1 ∧ r.1 < SIZE_MOD ∧ r.2 < SIZE_MOD) :
    ∀ s : LiniarAllocator, ∃ ps s1, allocateAll s reqs = .ok (ps, s1) := by
  induction reqs with
  | nil => intro s; exact ⟨[], s, rfl⟩
  | cons r rest ih =>
    intro s
    obtain ⟨size, alignment⟩ := r
    have hr := hreqs (size, alignment) (List.mem_cons_self _ _)
    have hrest : ∀ r ∈ rest, 0 < r.1 ∧ r.1 < SIZE_MOD ∧ r.2 < SIZE_MOD :=
      fun r hm => hreqs r (List.mem_cons_of_mem _ hm)
    have hA := Allocate_eq s size alignment (by have := hr.1; omega) hr.2.2
    by_cases hc : addSz (addSz s.mOffset (appliedPadding s alignment)) size > s.mTotalSize
    · rw [if_pos hc] at hA
      obtain ⟨ps, s1, h⟩ := ih hrest s
      exact ⟨0 :: ps, s1, allocateAll_cons_of_ok hA h⟩
    · rw [if_neg hc] at hA
      obtain ⟨ps, s1, h⟩ := ih hrest _
      exact ⟨_ :: ps, s1, allocateAll_cons_of_ok hA h⟩

/-- From offset 0 the first non-null pointer the client loop receives is the block
start. -/
theorem first_grant_at_offset_zero (reqs : List (Nat × Nat))
    (hreqs : ∀ r ∈ reqs, 0 < r.1 ∧ r.1 < SIZE_MOD ∧ r.2 < SIZE_MOD) :
    ∀ s : LiniarAllocator, s.mOffset = 0 → 0 < s.mMemoryBuffer →
      s.mMemoryBuffer < SIZE_MOD →
      ∃ ps s1, allocateAll s reqs = .ok (ps, s1) ∧
        ∀ a, ps.find? (fun p => p != 0) = some a → a = s.mMemoryBuffer := by
  induction reqs with
  | nil =>
    intro s _ _ _
    exact ⟨[], s, rfl, by simp⟩
  | cons r rest ih =>
    intro s h0 hpos hlt
    obtain ⟨size, alignment⟩ := r
    have hr := hreqs (size, alignment) (List.mem_cons_self _ _)
    have hrest : ∀ r ∈ rest, 0 < r.1 ∧ r.1 < SIZE_MOD ∧ r.2 < SIZE_MOD :=
      fun r hm => hreqs r (List.mem_cons_of_mem _ hm)
    have hpad : appliedPadding s alignment = 0 := by
      unfold appliedPadding
      rw [h0]
      simp
    have hcur : addSz (addSz s.mMemoryBuffer s.mOffset) 0 = s.mMemoryBuffer := by
      rw [h0]
      unfold addSz
      simp only [Nat.add_zero, Nat.mod_mod]
      exact Nat.mod_eq_of_lt hlt
    have hA := Allocate_eq s size alignment (by have := hr.1; omega) hr.2.2
    rw [hpad, hcur] at hA
    by_cases hc : addSz (addSz s.mOffset 0) size > s.mTotalSize
    · rw [if_pos hc] at hA
      obtain ⟨ps, s1, h, hfirst⟩ := ih hrest s h0 hpos hlt
      refine ⟨0 :: ps, s1, allocateAll_cons_of_ok hA h, ?_⟩
      intro a ha
      rw [List.find?_cons_of_neg _ (by simp)] at ha
      exact hfirst a ha
    · rw [if_neg hc] at hA
      obtain ⟨ps, s1, h⟩ := allocateAll_returns rest hrest
        { s with
          mOffset := addSz s.mOffset (addSz size 0),
          mUsed := addSz s.mOffset (addSz size 0),
          mPeak := max s.mPeak (addSz s.mOffset (addSz size 0)) }
      refine ⟨s.mMemoryBuffer :: ps, s1, allocateAll_cons_of_ok hA h, ?_⟩
      intro a ha
      rw [List.find?_cons_of_pos _ (by simp; omega)] at ha
      cases ha
      rfl

theorem appliedPadding_le (s : LiniarAllocator) (alignment : Nat) :
    appliedPadding s alignment ≤ alignment := by
  unfold appliedPadding
  split <;> omega

theorem grantedRanges_cons_null (ps : List Nat) (r : Nat × Nat) (reqs : List (Nat × Nat)) :
    grantedRanges (0 :: ps) (r :: reqs) = grantedRanges ps reqs := by
  simp [grantedRanges]

theorem grantedRanges_cons_grant (p : Nat) (hp : p ≠ 0) (ps : List Nat) (r : Nat × Nat)
    (reqs : List (Nat × Nat)) :
    grantedRanges (p :: ps) (r :: reqs) = (p, r.1) :: grantedRanges ps reqs := by
  simp [grantedRanges, hp]

/-- As long as `totalSize + alignment + size` stays below `2 ^ 64` for every request
(so that no sum in `Allocate` can wrap), the ranges granted from a reachable state with
a non-null block start at or after the current cursor, end inside the block, and each
ends before the next one starts. -/
theorem granted_ranges_ordered_of_no_wrap (reqs : List (Nat × Nat)) :
    ∀ s : LiniarAllocator, Reachable s → s.mMemoryBuffer ≠ 0 →
      (∀ r ∈ reqs, 0 < r.1 ∧ s.mTotalSize + r.2 + r.1 < SIZE_MOD) →
      ∃ ps s1, allocateAll s reqs = .ok (ps, s1) ∧
        (∀ r ∈ grantedRanges ps reqs,
          s.mMemoryBuffer + s.mOffset ≤ r.1 ∧
          r.1 + r.2 ≤ s.mMemoryBuffer + s.mTotalSize) ∧
        (grantedRanges ps reqs).Pairwise (fun x y => x.1 + x.2 ≤ y.1) := by
  induction reqs with
  | nil =>
    intro s _ _ _
    exact ⟨[], s, rfl, by simp [grantedRanges], by simp [grantedRanges]⟩
  | cons r rest ih =>
    intro s hs hbuf hreqs
    obtain ⟨size, alignment⟩ := r
    have hr := hreqs (size, alignment) (List.mem_cons_self _ _)
    have hrest : ∀ r ∈ rest, 0 < r.1 ∧ s.mTotalSize + r.2 + r.1 < SIZE_MOD :=
      fun r hm => hreqs r (List.mem_cons_of_mem _ hm)
    have hpos : 0 < size := hr.1
    have hbound : s.mTotalSize + alignment + size < SIZE_MOD := hr.2
    have wf := hs.wellFormed
    have hoff := wf.offset_le
    have hfits := wf.block_fits hbuf
    have hpadle := appliedPadding_le s alignment
    have hal : alignment < SIZE_MOD := by omega
    have hA := Allocate_eq s size alignment (by omega) hal
    have hsum : addSz (addSz s.mOffset (appliedPadding s alignment)) size
        = s.mOffset + appliedPadding s alignment + size := by
      rw [addSz_of_lt (a := s.mOffset) (by omega)]
      exact addSz_of_lt (by omega)
    rw [hsum] at hA
    by_cases hc : s.mOffset + appliedPadding s alignment + size > s.mTotalSize
    · rw [if_pos hc] at hA
      obtain ⟨ps, s1, h, hin, hpw⟩ := ih s hs hbuf hrest
      refine ⟨0 :: ps, s1, allocateAll_cons_of_ok hA h, ?_, ?_⟩
      · rw [grantedRanges_cons_null]
        exact hin
      · rw [grantedRanges_cons_null]
        exact hpw
    · rw [if_neg hc] at hA
      have hle : s.mOffset + appliedPadding s alignment + size ≤ s.mTotalSize :=
        Nat.le_of_not_gt hc
      have hcur : addSz (addSz s.mMemoryBuffer s.mOffset) (appliedPadding s alignment)
          = s.mMemoryBuffer + s.mOffset + appliedPadding s alignment := by
        rw [addSz_of_lt (a := s.mMemoryBuffer) (by omega)]
        exact addSz_of_lt (by omega)
      have hnew : addSz s.mOffset (addSz size (appliedPadding s alignment))
          = s.mOffset + (size + appliedPadding s alignment) := by
        rw [addSz_of_lt (a := size) (by omega)]
        exact addSz_of_lt (by omega)
      rw [hcur, hnew] at hA
      have hs1 : Reachable
          { s with
            mOffset := s.mOffset + (size + appliedPadding s alignment),
            mUsed := s.mOffset + (size + appliedPadding s alignment),
            mPeak := max s.mPeak (s.mOffset + (size + appliedPadding s alignment)) } :=
        Reachable.alloc size alignment _ hs (by omega) hal hA
      obtain ⟨ps, s1, h, hin, hpw⟩ := ih _ hs1 hbuf hrest
      dsimp only at hin
      have hp0 : s.mMemoryBuffer + s.mOffset + appliedPadding s alignment ≠ 0 := by omega
      refine ⟨_ :: ps, s1, allocateAll_cons_of_ok hA h, ?_, ?_⟩
      · rw [grantedRanges_cons_grant _ hp0]
        intro x hx
        rcases List.mem_cons.mp hx with hx | hx
        · subst hx
          dsimp only
          omega
        · have := hin x hx
          omega
      · rw [grantedRanges_cons_grant _ hp0]
        refine List.pairwise_cons.mpr ⟨?_, hpw⟩
        intro x hx
        have := hin x hx
        dsimp only
        omega

/-! ## Padding calculator -/

/-- C5: for `std::size_t` arguments with `alignment > 0` and
`baseAddress % alignment != 0`, `CalculateMemoryPadding` returns a padding with
`(baseAddress + padding) % alignment == 0` and `0 < padding < alignment`. -/
theorem C5_padding_aligns_misaligned (baseAddress alignment : Nat)
    (ha : alignment < SIZE_MOD) (hpos : 0 < alignment)
    (hmis : baseAddress % alignment ≠ 0) :
    ∃ padding, CalculateMemoryPadding baseAddress alignment = .ok padding ∧
      (baseAddress + padding) % alignment = 0 ∧ 0 < padding ∧ padding < alignment := by
  refine ⟨alignment - baseAddress % alignment,
    CalculateMemoryPadding_eq baseAddress alignment ha hpos,
    add_padding_mod baseAddress alignment hpos, ?_, ?_⟩
  · have := Nat.mod_lt baseAddress hpos
    omega
  · omega

/-- C5 at `baseAddress = 13`, `alignment = 8`. -/
theorem C5_padding_aligns_misaligned_witness :
    ∃ padding, CalculateMemoryPadding 13 8 = .ok padding ∧
      (13 + padding) % 8 = 0 ∧ 0 < padding ∧ padding < 8 :=
  C5_padding_aligns_misaligned 13 8 (by decide) (by decide) (by decide)

/-- C6, concrete input: at the aligned address 8 with alignment 8 the calculator
returns 8, although the padding 0 already gives `(8 + 0) % 8 == 0`; the result is not
the smallest non-negative padding. -/
theorem C6_aligned_not_smallest :
    CalculateMemoryPadding 8 8 = .ok 8 ∧ (8 + 0) % 8 = 0 ∧ (0 : Nat) < 8 := by
  decide

/-- C6, amended: for every `baseAddress` and every `std::size_t` alignment > 0,
`CalculateMemoryPadding` returns the smallest strictly positive padding such that
`(baseAddress + padding) % alignment == 0`. -/
theorem C6_smallest_positive_padding (baseAddress alignment : Nat)
    (ha : alignment < SIZE_MOD) (hpos : 0 < alignment) :
    ∃ padding, CalculateMemoryPadding baseAddress alignment = .ok padding ∧
      0 < padding ∧ (baseAddress + padding) % alignment = 0 ∧
      ∀ q, 0 < q → (baseAddress + q) % alignment = 0 → padding ≤ q := by
  have hr : baseAddress % alignment < alignment := Nat.mod_lt _ hpos
  refine ⟨alignment - baseAddress % alignment,
    CalculateMemoryPadding_eq baseAddress alignment ha hpos, by omega,
    add_padding_mod baseAddress alignment hpos, ?_⟩
  intro q hq hmod
  by_contra hlt
  have hq2 : q < alignment - baseAddress % alignment := by omega
  have h1 : (baseAddress % alignment + q) % alignment = 0 := by
    rw [Nat.add_mod] at hmod
    rw [Nat.add_mod, Nat.mod_mod]
    exact hmod
  rw [Nat.mod_eq_of_lt (by omega)] at h1
  omega

/-- C6 amended, at `baseAddress = 8`, `alignment = 8` and at `13`, `8`. -/
theorem C6_smallest_positive_padding_witness :
    (∃ padding, CalculateMemoryPadding 8 8 = .ok padding ∧
      0 < padding ∧ (8 + padding) % 8 = 0 ∧
      ∀ q, 0 < q → (8 + q) % 8 = 0 → padding ≤ q) ∧
    CalculateMemoryPadding 13 8 = .ok 3 :=
  ⟨C6_smallest_positive_padding 8 8 (by decide) (by decide), by decide⟩

/-! ## Reset -/

/-- C7, concrete input: on a block of 100 bytes at address 4096, `Allocate(10, 0)`
leaves `Peak() == 10`; `Reset()` then leaves `Peak() == 0`, not 10. -/
theorem C7_reset_clears_peak_example :
    ((LiniarAllocator.construct 100).Init 4096).Allocate 10 0 =
      .ok (4096, { mTotalSize := 100, mUsed := 10, mPeak := 10,
                   mMemoryBuffer := 4096, mOffset := 10 }) ∧
    LiniarAllocator.Peak { mTotalSize := 100, mUsed := 10, mPeak := 10,
                           mMemoryBuffer := 4096, mOffset := 10 } = 10 ∧
    (LiniarAllocator.Reset { mTotalSize := 100, mUsed := 10, mPeak := 10,
                             mMemoryBuffer := 4096, mOffset := 10 }).Peak = 0 := by
  decide

/-- C7, amended: in every state `Reset()` sets the peak to 0 together with the offset
and the used count; `Peak()` after `Reset()` equals `Peak()` before it exactly when
that was already 0. -/
theorem C7_reset_sets_peak_zero (s : LiniarAllocator) :
    s.Reset.Peak = 0 ∧ (s.Reset.Peak = s.Peak ↔ s.Peak = 0) := by
  refine ⟨rfl, ?_⟩
  show (0 = s.mPeak ↔ s.mPeak = 0)
  exact eq_comm

/-- C8: after `Reset()` the offset is 0 and `Used()` is 0, while `TotalSize()` and the
backing block are those before the call. -/
theorem C8_reset_zeroes_offset_used (s : LiniarAllocator) :
    s.Reset.mOffset = 0 ∧ s.Reset.Used = 0 ∧
      s.Reset.TotalSize = s.TotalSize ∧ s.Reset.mMemoryBuffer = s.mMemoryBuffer :=
  ⟨rfl, rfl, rfl, rfl⟩

/-! ## Allocate -/

/-- When the sum `offset + padding + size`, as the source computes it, exceeds the
capacity, the call returns the null pointer and the state it was called on. -/
theorem Allocate_refuses_wrapped_sum (s : LiniarAllocator) (size alignment : Nat)
    (hpos : 0 < size) (hal : alignment < SIZE_MOD)
    (h : addSz (addSz s.mOffset (appliedPadding s alignment)) size > s.mTotalSize) :
    s.Allocate size alignment = .ok (0, s) := by
  rw [Allocate_eq s size alignment (by omega) hal, if_pos h]

/-- C1, failing input: on a block of 100 bytes at address 4096, after
`Allocate(10, 0)` the request `Allocate(2^64 - 5, 0)` has
`offset + padding + size = 10 + 0 + (2^64 - 5) > 100`, yet the call returns the
non-null pointer 4106 and moves the offset from 10 to 5 and `used` from 10 to 5. -/
theorem C1_oversized_request_is_granted :
    ((LiniarAllocator.construct 100).Init 4096).Allocate 10 0 =
      .ok (4096, { mTotalSize := 100, mUsed := 10, mPeak := 10,
                   mMemoryBuffer := 4096, mOffset := 10 }) ∧
    10 + 0 + (2 ^ 64 - 5) > 100 ∧
    LiniarAllocator.Allocate { mTotalSize := 100, mUsed := 10, mPeak := 10,
                               mMemoryBuffer := 4096, mOffset := 10 } (2 ^ 64 - 5) 0 =
      .ok (4106, { mTotalSize := 100, mUsed := 5, mPeak := 10,
                   mMemoryBuffer := 4096, mOffset := 5 }) := by
  decide

/-- C3, failing input: on a freshly initialised block of 100 bytes at address 4096 the
calls `Allocate(10, 0)` and `Allocate(2^64 - 5, 0)` both return non-null pointers; the
second returns 4106 for a request of `2^64 - 5` bytes, and `[4106, 4106 + 2^64 - 5)`
does not lie inside `[4096, 4196)`. -/
theorem C3_granted_range_leaves_block :
    allocateAll ((LiniarAllocator.construct 100).Init 4096)
        [(10, 0), (2 ^ 64 - 5, 0)] =
      .ok ([4096, 4106], { mTotalSize := 100, mUsed := 5, mPeak := 10,
                           mMemoryBuffer := 4096, mOffset := 5 }) ∧
    (4106 : Nat) ≠ 0 ∧
    ¬ (4096 ≤ 4106 ∧ 4106 + (2 ^ 64 - 5) ≤ 4096 + 100) := by
  decide

/-- C4, failing input: with no `Reset` in between, on a block of 100 bytes at address
4096 the calls `Allocate(10, 0)`, `Allocate(2^64 - 5, 0)`, `Allocate(3, 0)` return
4096, 4106 and 4101; the third range `[4101, 4104)` lies inside the first range
`[4096, 4106)`. -/
theorem C4_later_grant_overlaps_earlier :
    allocateAll ((LiniarAllocator.construct 100).Init 4096)
        [(10, 0), (2 ^ 64 - 5, 0), (3, 0)] =
      .ok ([4096, 4106, 4101], { mTotalSize := 100, mUsed := 8, mPeak := 10,
                                 mMemoryBuffer := 4096, mOffset := 8 }) ∧
    (4096 ≤ 4101 ∧ 4101 + 3 ≤ 4096 + 10) := by
  decide

/-- C2: in every reachable state, for `size > 0` and a `std::size_t` alignment, the
padding is 0 when `alignment == 0` or `offset % alignment == 0` and
`CalculateMemoryPadding(blockStart + offset, alignment)` otherwise (it always has a
value); when `offset + padding + size <= totalSize` the call returns
`blockStart + offset + padding` (non-null when the block is non-null), the offset has
advanced by exactly `size + padding`, `used` is the new offset, `peak` is
`max(old peak, new used)`, and capacity and block are untouched. -/
theorem C2_allocate_grants (s : LiniarAllocator) (size alignment : Nat)
    (hs : Reachable s) (hpos : 0 < size) (hal : alignment < SIZE_MOD) :
    (∃ padding,
      (if alignment = 0 ∨ s.mOffset % alignment = 0 then Except.ok 0
        else CalculateMemoryPadding (s.mMemoryBuffer + s.mOffset) alignment)
        = Except.ok padding) ∧
    ∀ padding,
      (if alignment = 0 ∨ s.mOffset % alignment = 0 then Except.ok 0
        else CalculateMemoryPadding (s.mMemoryBuffer + s.mOffset) alignment)
        = Except.ok padding →
      s.mOffset + padding + size ≤ s.mTotalSize →
      ∃ s1, s.Allocate size alignment
            = .ok (s.mMemoryBuffer + s.mOffset + padding, s1) ∧
        (s.mMemoryBuffer ≠ 0 → s.mMemoryBuffer + s.mOffset + padding ≠ 0) ∧
        s1.mOffset = s.mOffset + (size + padding) ∧
        s1.Used = s1.mOffset ∧
        s1.Peak = max s.Peak s1.Used ∧
        s1.TotalSize = s.TotalSize ∧ s1.mMemoryBuffer = s.mMemoryBuffer := by
  have wf := hs.wellFormed
  have htot := wf.total_lt
  have hbuf := wf.buffer_lt
  have hfits := wf.block_fits
  constructor
  · by_cases hc : alignment = 0 ∨ s.mOffset % alignment = 0
    · exact ⟨0, by rw [if_pos hc]⟩
    · have hne : 0 < alignment := by
        rcases Nat.eq_zero_or_pos alignment with h | h
        · exact absurd (Or.inl h) hc
        · exact h
      exact ⟨_, by rw [if_neg hc]; exact CalculateMemoryPadding_eq _ alignment hal hne⟩
  · intro padding hp hfit
    have hcur : addSz s.mMemoryBuffer s.mOffset = s.mMemoryBuffer + s.mOffset := by
      apply addSz_of_lt
      by_cases hb0 : s.mMemoryBuffer = 0
      · omega
      · have := hfits hb0
        omega
    have hpad : appliedPadding s alignment = padding := by
      unfold appliedPadding
      by_cases hc : alignment = 0 ∨ s.mOffset % alignment = 0
      · rw [if_pos hc] at hp
        have hp0 : 0 = padding := by injection hp
        have hnc : ¬ (alignment > 0 ∧ s.mOffset % alignment ≠ 0) := by
          rcases hc with h | h
          · omega
          · exact fun hh => hh.2 h
        rw [if_neg hnc]
        exact hp0
      · rw [if_neg hc] at hp
        have hne : 0 < alignment := by
          rcases Nat.eq_zero_or_pos alignment with h | h
          · exact absurd (Or.inl h) hc
          · exact h
        rw [CalculateMemoryPadding_eq _ alignment hal hne] at hp
        have hp0 : alignment - (s.mMemoryBuffer + s.mOffset) % alignment = padding := by
          injection hp
        have hcc : alignment > 0 ∧ s.mOffset % alignment ≠ 0 :=
          ⟨hne, fun h => hc (Or.inr h)⟩
        rw [if_pos hcc, hcur]
        exact hp0
    have h1 : addSz (addSz s.mOffset padding) size = s.mOffset + padding + size := by
      rw [addSz_of_lt (a := s.mOffset) (b := padding) (by omega)]
      exact addSz_of_lt (by omega)
    have h2 : addSz s.mOffset (addSz size padding) = s.mOffset + (size + padding) := by
      rw [addSz_of_lt (a := size) (b := padding) (by omega)]
      exact addSz_of_lt (by omega)
    have h3 : addSz (s.mMemoryBuffer + s.mOffset) padding
        = s.mMemoryBuffer + s.mOffset + padding := by
      apply addSz_of_lt
      by_cases hb0 : s.mMemoryBuffer = 0
      · omega
      · have := hfits hb0
        omega
    rw [Allocate_eq s size alignment (by omega) hal, hpad, h1, hcur, h2, h3,
      if_neg (by omega)]
    exact ⟨_, rfl, by omega, rfl, rfl, rfl, rfl, rfl⟩

/-- C2 on a block of 100 bytes at address 4099 with offset 10: `Allocate(20, 8)` uses
the padding `CalculateMemoryPadding(4109, 8) = 3` and returns 4112. -/
theorem C2_allocate_grants_witness :
    (∃ padding,
      (if (8 : Nat) = 0 ∨ 10 % 8 = 0 then Except.ok 0
        else CalculateMemoryPadding (4099 + 10) 8) = Except.ok padding) ∧
    ∃ s1, LiniarAllocator.Allocate
          { mTotalSize := 100, mUsed := 10, mPeak := 10,
            mMemoryBuffer := 4099, mOffset := 10 } 20 8
          = .ok (4099 + 10 + 3, s1) ∧
      ((4099 : Nat) ≠ 0 → 4099 + 10 + 3 ≠ 0) ∧
      s1.mOffset = 10 + (20 + 3) ∧
      s1.Used = s1.mOffset ∧
      s1.Peak = max 10 s1.Used ∧
      s1.TotalSize = 100 ∧ s1.mMemoryBuffer = 4099 :=
  have hr : Reachable { mTotalSize := 100, mUsed := 10, mPeak := 10,
                        mMemoryBuffer := 4099, mOffset := 10 } :=
    Reachable.alloc 10 0 4099
      (Reachable.init 4099 (Reachable.ctor 100 (by decide)) (by decide))
      (by decide) (by decide) (by decide)
  have h := C2_allocate_grants _ 20 8 hr (by decide) (by decide)
  ⟨h.1, h.2 3 (by decide) (by decide)⟩

/-- C9: on a block at a non-null address, whatever `Allocate` calls were made after
`Init()`, the first non-null pointer returned after `Init()` is the block start, and
after a `Reset()` the first non-null pointer returned is the block start again, for
all sizes and alignments requested; all the calls return. -/
theorem C9_first_grant_after_reset_is_block_start (C block : Nat)
    (hblock : 0 < block) (hlt : block < SIZE_MOD)
    (pre reqs : List (Nat × Nat))
    (hpre : ∀ r ∈ pre, 0 < r.1 ∧ r.1 < SIZE_MOD ∧ r.2 < SIZE_MOD)
    (hreqs : ∀ r ∈ reqs, 0 < r.1 ∧ r.1 < SIZE_MOD ∧ r.2 < SIZE_MOD) :
    ∃ ps0 s, allocateAll ((LiniarAllocator.construct C).Init block) pre = .ok (ps0, s) ∧
      (∀ a, ps0.find? (fun p => p != 0) = some a → a = block) ∧
      ∃ ps s1, allocateAll s.Reset reqs = .ok (ps, s1) ∧
        ∀ a, ps.find? (fun p => p != 0) = some a → a = block := by
  obtain ⟨ps0, s, hrun, hfirst⟩ :=
    first_grant_at_offset_zero pre hpre ((LiniarAllocator.construct C).Init block)
      rfl hblock hlt
  have hbuf : s.mMemoryBuffer = block := (allocateAll_frame pre _ s ps0 hrun).2
  have hbuf2 : s.Reset.mMemoryBuffer = block := hbuf
  obtain ⟨ps, s1, hrun2, hfirst2⟩ :=
    first_grant_at_offset_zero reqs hreqs s.Reset rfl (by rw [hbuf2]; exact hblock)
      (by rw [hbuf2]; exact hlt)
  rw [hbuf2] at hfirst2
  exact ⟨ps0, s, hrun, hfirst, ps, s1, hrun2, hfirst2⟩

/-- C9 on a block of 100 bytes at address 4096: after `Allocate(10, 0)` and a refused
`Allocate(200, 8)`, then `Reset()`, the requests `Allocate(500, 8)` (refused) and
`Allocate(20, 16)` are made. -/
theorem C9_first_grant_after_reset_is_block_start_witness :
    ∃ ps0 s, allocateAll ((LiniarAllocator.construct 100).Init 4096)
        [(10, 0), (200, 8)] = .ok (ps0, s) ∧
      (∀ a, ps0.find? (fun p => p != 0) = some a → a = 4096) ∧
      ∃ ps s1, allocateAll s.Reset [(500, 8), (20, 16)] = .ok (ps, s1) ∧
        ∀ a, ps.find? (fun p => p != 0) = some a → a = 4096 :=
  C9_first_grant_after_reset_is_block_start 100 4096 (by decide) (by decide)
    [(10, 0), (200, 8)] [(500, 8), (20, 16)] (by decide) (by decide)

/-! ## Usage errors -/

/-- C11: in every state and for every pointer argument, `Free(ptr)` stops at its
assertion; it never returns, so no call of it yields a state with other counters. -/
theorem C11_free_always_asserts (s : LiniarAllocator) (ptr : Nat) :
    s.Free ptr = .error .assertion ∧ ∀ s1, s.Free ptr ≠ .ok s1 := by
  refine ⟨rfl, ?_⟩
  intro s1 h
  cases h

/-- C12: in every state and for every alignment, `Allocate(0, alignment)` stops at the
assertion `size > 0`, whatever capacity remains; it returns no address and no state
with other counters. -/
theorem C12_zero_size_asserts (s : LiniarAllocator) (alignment : Nat) :
    s.Allocate 0 alignment = .error .assertion ∧
      ∀ p s1, s.Allocate 0 alignment ≠ .ok (p, s1) := by
  have h : s.Allocate 0 alignment = .error .assertion := by
    unfold LiniarAllocator.Allocate
    rw [if_pos rfl]
  refine ⟨h, ?_⟩
  intro p s1 h1
  rw [h] at h1
  cases h1

/-! ## Scenario of the specification -/

/-- C13: with `totalSize = 4096` and a block at an 8-byte aligned address,
`Allocate(100, 8)` is granted at the block start with padding 0 and leaves offset 100;
`Allocate(4000, 8)` then is refused (padding 4, `100 + 4 + 4000 > 4096`) and leaves
offset 100; after `Reset()`, `Allocate(4000, 8)` is granted and leaves offset 4000. -/
theorem C13_scenario_4096 (block : Nat) (haligned : block % 8 = 0)
    (hfits : block + 4096 ≤ SIZE_MOD) :
    appliedPadding ((LiniarAllocator.construct 4096).Init block) 8 = 0 ∧
    ((LiniarAllocator.construct 4096).Init block).Allocate 100 8 =
      .ok (block, { mTotalSize := 4096, mUsed := 100, mPeak := 100,
                    mMemoryBuffer := block, mOffset := 100 }) ∧
    100 + appliedPadding { mTotalSize := 4096, mUsed := 100, mPeak := 100,
                           mMemoryBuffer := block, mOffset := 100 } 8 + 4000 > 4096 ∧
    LiniarAllocator.Allocate { mTotalSize := 4096, mUsed := 100, mPeak := 100,
                               mMemoryBuffer := block, mOffset := 100 } 4000 8 =
      .ok (0, { mTotalSize := 4096, mUsed := 100, mPeak := 100,
                mMemoryBuffer := block, mOffset := 100 }) ∧
    (LiniarAllocator.Reset { mTotalSize := 4096, mUsed := 100, mPeak := 100,
                             mMemoryBuffer := block, mOffset := 100 }).Allocate 4000 8 =
      .ok (block, { mTotalSize := 4096, mUsed := 4000, mPeak := 4000,
                    mMemoryBuffer := block, mOffset := 4000 }) := by
  have hN := SIZE_MOD_eq
  have h8 : (8 : Nat) < SIZE_MOD := by omega
  have hb0 : addSz block 0 = block := addSz_of_lt (by omega)
  have hb100 : addSz block 100 = block + 100 := addSz_of_lt (by omega)
  have hpad0 : appliedPadding ((LiniarAllocator.construct 4096).Init block) 8 = 0 := by
    simp [appliedPadding, LiniarAllocator.construct, LiniarAllocator.Init]
  have hpad1 : appliedPadding { mTotalSize := 4096, mUsed := 100, mPeak := 100,
                                mMemoryBuffer := block, mOffset := 100 } 8 = 4 := by
    simp only [appliedPadding, hb100]
    rw [if_pos (by decide)]
    omega
  have hpad2 : appliedPadding
      (LiniarAllocator.Reset { mTotalSize := 4096, mUsed := 100, mPeak := 100,
                               mMemoryBuffer := block, mOffset := 100 }) 8 = 0 := by
    simp [appliedPadding, LiniarAllocator.Reset]
  refine ⟨hpad0, ?_, ?_, ?_, ?_⟩
  · rw [Allocate_eq _ 100 8 (by decide) h8, hpad0]
    simp only [LiniarAllocator.construct, LiniarAllocator.Init, hb0]
    rw [if_neg (by decide)]
    rfl
  · rw [hpad1]
    decide
  · rw [Allocate_eq _ 4000 8 (by decide) h8, hpad1]
    rw [if_pos (by show addSz (addSz 100 4) 4000 > 4096; decide)]
  · rw [Allocate_eq _ 4000 8 (by decide) h8, hpad2]
    simp only [LiniarAllocator.Reset, hb0]
    rw [if_neg (by decide)]
    rfl

/-- C13 with the block at address 4096. -/
theorem C13_scenario_4096_witness :
    ((LiniarAllocator.construct 4096).Init 4096).Allocate 100 8 =
      .ok (4096, { mTotalSize := 4096, mUsed := 100, mPeak := 100,
                   mMemoryBuffer := 4096, mOffset := 100 }) ∧
    LiniarAllocator.Allocate { mTotalSize := 4096, mUsed := 100, mPeak := 100,
                               mMemoryBuffer := 4096, mOffset := 100 } 4000 8 =
      .ok (0, { mTotalSize := 4096, mUsed := 100, mPeak := 100,
                mMemoryBuffer := 4096, mOffset := 100 }) ∧
    (LiniarAllocator.Reset { mTotalSize := 4096, mUsed := 100, mPeak := 100,
                             mMemoryBuffer := 4096, mOffset := 100 }).Allocate 4000 8 =
      .ok (4096, { mTotalSize := 4096, mUsed := 4000, mPeak := 4000,
                   mMemoryBuffer := 4096, mOffset := 4000 }) :=
  have h := C13_scenario_4096 4096 (by decide) (by decide)
  ⟨h.2.1, h.2.2.2.1, h.2.2.2.2⟩

/-! ## Alignment 0, retry after `Reset`, re-`Init` -/

/-- With alignment 0 the padding is 0 and the padding calculator is not reached: in a
reachable state `Allocate(size, 0)` with `size > 0` always returns; it is granted at
`blockStart + offset` and advances the offset by `size` when `offset + size` is at
most the capacity, and it is refused when `offset + size` exceeds the capacity without
reaching `2 ^ 64`. -/
theorem Allocate_alignment_zero (s : LiniarAllocator) (size : Nat) (hs : Reachable s)
    (hpos : 0 < size) :
    appliedPadding s 0 = 0 ∧
    (∃ p s1, s.Allocate size 0 = .ok (p, s1)) ∧
    (s.mOffset + size ≤ s.mTotalSize →
      s.Allocate size 0 = .ok (s.mMemoryBuffer + s.mOffset,
        { s with mOffset := s.mOffset + size, mUsed := s.mOffset + size,
                 mPeak := max s.mPeak (s.mOffset + size) })) ∧
    (s.mTotalSize < s.mOffset + size → s.mOffset + size < SIZE_MOD →
      s.Allocate size 0 = .ok (0, s)) := by
  have wf := hs.wellFormed
  have htot := wf.total_lt
  have hbuf := wf.buffer_lt
  have hfits := wf.block_fits
  have hN := SIZE_MOD_eq
  have hpad : appliedPadding s 0 = 0 := by simp [appliedPadding]
  have hA := Allocate_eq s size 0 (by omega) (by omega)
  rw [hpad] at hA
  have h0 : addSz s.mOffset 0 = s.mOffset := addSz_of_lt (by have := wf.offset_le; omega)
  rw [h0] at hA
  refine ⟨hpad, ?_, ?_, ?_⟩
  · by_cases hc : addSz s.mOffset size > s.mTotalSize
    · rw [if_pos hc] at hA
      exact ⟨_, _, hA⟩
    · rw [if_neg hc] at hA
      exact ⟨_, _, hA⟩
  · intro hle
    have h1 : addSz s.mOffset size = s.mOffset + size := addSz_of_lt (by omega)
    have h2 : addSz size 0 = size := addSz_of_lt (by omega)
    have h3 : addSz s.mMemoryBuffer s.mOffset = s.mMemoryBuffer + s.mOffset := by
      apply addSz_of_lt
      by_cases hb0 : s.mMemoryBuffer = 0
      · omega
      · have := hfits hb0
        omega
    have h4 : addSz (s.mMemoryBuffer + s.mOffset) 0 = s.mMemoryBuffer + s.mOffset := by
      apply addSz_of_lt
      by_cases hb0 : s.mMemoryBuffer = 0
      · omega
      · have := hfits hb0
        omega
    rw [h2, h1, h3, h4, if_neg (by omega)] at hA
    exact hA
  · intro hgt hlt
    have h1 : addSz s.mOffset size = s.mOffset + size := addSz_of_lt hlt
    rw [h1, if_pos hgt] at hA
    exact hA

/-- C14, failing input: on a block of 100 bytes at address 4096 with offset 10,
`Allocate(2^64 - 5, 0)` is granted (pointer 4106) although
`offset + size = 10 + (2^64 - 5) > 100`, and the offset goes from 10 to 5 instead of
advancing by `size`. -/
theorem C14_alignment_zero_oversized_granted :
    Reachable { mTotalSize := 100, mUsed := 10, mPeak := 10,
                mMemoryBuffer := 4096, mOffset := 10 } ∧
    ¬ (10 + (2 ^ 64 - 5) ≤ 100) ∧
    LiniarAllocator.Allocate { mTotalSize := 100, mUsed := 10, mPeak := 10,
                               mMemoryBuffer := 4096, mOffset := 10 } (2 ^ 64 - 5) 0 =
      .ok (4106, { mTotalSize := 100, mUsed := 5, mPeak := 10,
                   mMemoryBuffer := 4096, mOffset := 5 }) ∧
    (5 : Nat) ≠ 10 + (2 ^ 64 - 5) :=
  ⟨Reachable.alloc 10 0 4096
      (Reachable.init 4096 (Reachable.ctor 100 (by decide)) (by decide))
      (by decide) (by decide) (by decide),
    by decide, by decide, by decide⟩

/-- C16: in every reachable state, for `size > 0` and any `std::size_t` alignment, the
call made immediately after `Reset()` returns; when `size <= totalSize` it is granted
at the block start and leaves offset and `used` equal to `size`, otherwise it is
refused with the reset state untouched; for a non-null block the pointer is non-null
exactly when `size <= totalSize`. -/
theorem C16_allocate_after_reset (s : LiniarAllocator) (size alignment : Nat)
    (hs : Reachable s) (hpos : 0 < size) (hsize : size < SIZE_MOD)
    (hal : alignment < SIZE_MOD) :
    ∃ p s1, s.Reset.Allocate size alignment = .ok (p, s1) ∧
      (size ≤ s.TotalSize → p = s.mMemoryBuffer ∧ s1.mOffset = size ∧ s1.Used = size) ∧
      (¬ size ≤ s.TotalSize → p = 0 ∧ s1 = s.Reset) ∧
      (s.mMemoryBuffer ≠ 0 → (p ≠ 0 ↔ size ≤ s.TotalSize)) := by
  have wf := hs.wellFormed
  have hbuf := wf.buffer_lt
  have hpad : appliedPadding s.Reset alignment = 0 := by
    simp [appliedPadding, LiniarAllocator.Reset]
  have hA := Allocate_eq s.Reset size alignment (by omega) hal
  rw [hpad] at hA
  have e1 : addSz (addSz s.Reset.mOffset 0) size = size := by
    show addSz (addSz 0 0) size = size
    rw [addSz_of_lt (a := 0) (b := 0) (by rw [SIZE_MOD_eq]; omega)]
    exact (addSz_of_lt (by omega)).trans (by omega)
  have e2 : addSz (addSz s.Reset.mMemoryBuffer s.Reset.mOffset) 0 = s.mMemoryBuffer := by
    show addSz (addSz s.mMemoryBuffer 0) 0 = s.mMemoryBuffer
    rw [addSz_of_lt (a := s.mMemoryBuffer) (b := 0) (by omega)]
    exact addSz_of_lt (by omega)
  have e3 : addSz s.Reset.mOffset (addSz size 0) = size := by
    show addSz 0 (addSz size 0) = size
    rw [addSz_of_lt (a := size) (b := 0) (by omega)]
    exact (addSz_of_lt (by omega)).trans (by omega)
  rw [e1, e2, e3] at hA
  by_cases hc : size > s.Reset.mTotalSize
  · rw [if_pos hc] at hA
    have hc2 : ¬ size ≤ s.TotalSize := by
      show ¬ size ≤ s.mTotalSize
      exact Nat.not_le_of_gt hc
    exact ⟨_, _, hA, fun h => absurd h hc2, fun _ => ⟨rfl, rfl⟩,
      fun _ => ⟨fun h => absurd rfl h, fun h => absurd h hc2⟩⟩
  · rw [if_neg hc] at hA
    have hc2 : size ≤ s.TotalSize := Nat.le_of_not_gt hc
    exact ⟨_, _, hA, fun _ => ⟨rfl, rfl, rfl⟩, fun h => absurd hc2 h,
      fun hb => ⟨fun _ => hc2, fun _ => hb⟩⟩

/-- C16 on a block of 100 bytes at address 4096 after `Allocate(10, 0)`:
`Allocate(95, 8)`, which does not fit behind offset 10, is retried after `Reset()`. -/
theorem C16_allocate_after_reset_witness :
    LiniarAllocator.Allocate { mTotalSize := 100, mUsed := 10, mPeak := 10,
                               mMemoryBuffer := 4096, mOffset := 10 } 95 8 =
      .ok (0, { mTotalSize := 100, mUsed := 10, mPeak := 10,
                mMemoryBuffer := 4096, mOffset := 10 }) ∧
    ∃ p s1, (LiniarAllocator.Reset { mTotalSize := 100, mUsed := 10, mPeak := 10,
                                     mMemoryBuffer := 4096, mOffset := 10 }).Allocate 95 8
          = .ok (p, s1) ∧
      ((95 : Nat) ≤ 100 → p = 4096 ∧ s1.mOffset = 95 ∧ s1.Used = 95) ∧
      (¬ (95 : Nat) ≤ 100 → p = 0 ∧
        s1 = LiniarAllocator.Reset { mTotalSize := 100, mUsed := 10, mPeak := 10,
                                     mMemoryBuffer := 4096, mOffset := 10 }) ∧
      ((4096 : Nat) ≠ 0 → (p ≠ 0 ↔ (95 : Nat) ≤ 100)) :=
  ⟨by decide,
    C16_allocate_after_reset
      { mTotalSize := 100, mUsed := 10, mPeak := 10, mMemoryBuffer := 4096, mOffset := 10 }
      95 8
      (Reachable.alloc 10 0 4096
        (Reachable.init 4096 (Reachable.ctor 100 (by decide)) (by decide))
        (by decide) (by decide) (by decide))
      (by decide) (by decide) (by decide)⟩

/-- C17, concrete input: after `Init()` (block at 4096) and `Allocate(10, 0)` on a
capacity of 100, a second `Init()` (block at 8192) leaves offset 10 and `Used()` 10,
not 0. -/
theorem C17_reinit_keeps_offset :
    ((LiniarAllocator.construct 100).Init 4096).Allocate 10 0 =
      .ok (4096, { mTotalSize := 100, mUsed := 10, mPeak := 10,
                   mMemoryBuffer := 4096, mOffset := 10 }) ∧
    (LiniarAllocator.Init { mTotalSize := 100, mUsed := 10, mPeak := 10,
                            mMemoryBuffer := 4096, mOffset := 10 } 8192).mOffset = 10 ∧
    (LiniarAllocator.Init { mTotalSize := 100, mUsed := 10, mPeak := 10,
                            mMemoryBuffer := 4096, mOffset := 10 } 8192).Used = 10 := by
  decide

/-- C17, amended: `Init()` only stores the block it acquired; offset, `Used()`,
`Peak()` and `TotalSize()` are those before the call. On a freshly constructed
allocator this gives offset 0 and `Used()` 0; on an allocator that has served
allocations the new block is carved from the old offset. -/
theorem C17_init_writes_only_block (s : LiniarAllocator) (totalSize block : Nat) :
    (s.Init block).mMemoryBuffer = block ∧
    (s.Init block).mOffset = s.mOffset ∧ (s.Init block).Used = s.Used ∧
    (s.Init block).Peak = s.Peak ∧ (s.Init block).TotalSize = s.TotalSize ∧
    ((LiniarAllocator.construct totalSize).Init block).mOffset = 0 ∧
    ((LiniarAllocator.construct totalSize).Init block).Used = 0 :=
  ⟨rfl, rfl, rfl, rfl, rfl, rfl, rfl⟩

/-! ## Offset as a sum, benchmark -/

/-- As long as `totalSize + alignment + size` stays below `2 ^ 64` for every request,
the offset after a run from a reachable state with a non-null block is the offset
before it plus the bytes consumed by the granted calls. -/
theorem offset_eq_sum_of_no_wrap (reqs : List (Nat × Nat)) :
    ∀ s : LiniarAllocator, Reachable s → s.mMemoryBuffer ≠ 0 →
      (∀ r ∈ reqs, 0 < r.1 ∧ s.mTotalSize + r.2 + r.1 < SIZE_MOD) →
      ∃ ps s1, allocateAll s reqs = .ok (ps, s1) ∧
        s1.mOffset = s.mOffset + grantedBytes s reqs := by
  induction reqs with
  | nil =>
    intro s _ _ _
    exact ⟨[], s, rfl, rfl⟩
  | cons r rest ih =>
    intro s hs hbuf hreqs
    obtain ⟨size, alignment⟩ := r
    have hr := hreqs (size, alignment) (List.mem_cons_self _ _)
    have hrest : ∀ r ∈ rest, 0 < r.1 ∧ s.mTotalSize + r.2 + r.1 < SIZE_MOD :=
      fun r hm => hreqs r (List.mem_cons_of_mem _ hm)
    have hpos : 0 < size := hr.1
    have hbound : s.mTotalSize + alignment + size < SIZE_MOD := hr.2
    have wf := hs.wellFormed
    have hoff := wf.offset_le
    have hfits := wf.block_fits hbuf
    have hpadle := appliedPadding_le s alignment
    have hal : alignment < SIZE_MOD := by omega
    have hA := Allocate_eq s size alignment (by omega) hal
    have hsum : addSz (addSz s.mOffset (appliedPadding s alignment)) size
        = s.mOffset + appliedPadding s alignment + size := by
      rw [addSz_of_lt (a := s.mOffset) (by omega)]
      exact addSz_of_lt (by omega)
    rw [hsum] at hA
    by_cases hc : s.mOffset + appliedPadding s alignment + size > s.mTotalSize
    · rw [if_pos hc] at hA
      obtain ⟨ps, s1, h, hoffset⟩ := ih s hs hbuf hrest
      refine ⟨0 :: ps, s1, allocateAll_cons_of_ok hA h, ?_⟩
      simp only [grantedBytes, hA]
      rw [hoffset]
      simp
    · rw [if_neg hc] at hA
      have hle : s.mOffset + appliedPadding s alignment + size ≤ s.mTotalSize :=
        Nat.le_of_not_gt hc
      have hcur : addSz (addSz s.mMemoryBuffer s.mOffset) (appliedPadding s alignment)
          = s.mMemoryBuffer + s.mOffset + appliedPadding s alignment := by
        rw [addSz_of_lt (a := s.mMemoryBuffer) (by omega)]
        exact addSz_of_lt (by omega)
      have hnew : addSz s.mOffset (addSz size (appliedPadding s alignment))
          = s.mOffset + (size + appliedPadding s alignment) := by
        rw [addSz_of_lt (a := size) (by omega)]
        exact addSz_of_lt (by omega)
      rw [hcur, hnew] at hA
      have hs1 : Reachable
          { s with
            mOffset := s.mOffset + (size + appliedPadding s alignment),
            mUsed := s.mOffset + (size + appliedPadding s alignment),
            mPeak := max s.mPeak (s.mOffset + (size + appliedPadding s alignment)) } :=
        Reachable.alloc size alignment _ hs (by omega) hal hA
      obtain ⟨ps, s1, h, hoffset⟩ := ih _ hs1 hbuf hrest
      dsimp only at hoffset
      have hp0 : s.mMemoryBuffer + s.mOffset + appliedPadding s alignment ≠ 0 := by omega
      refine ⟨_ :: ps, s1, allocateAll_cons_of_ok hA h, ?_⟩
      simp only [grantedBytes, hA, if_neg hp0]
      rw [hoffset]
      omega

/-- C15, failing input: on a freshly initialised block of 100 bytes at address 4096
the calls `Allocate(10, 0)` and `Allocate(2^64 - 5, 0)` are both granted with padding
0; the sum of `size + padding` is `10 + (2^64 - 5)`, the offset after the two calls
is 5. -/
theorem C15_offset_is_not_the_sum :
    allocateAll ((LiniarAllocator.construct 100).Init 4096)
        [(10, 0), (2 ^ 64 - 5, 0)] =
      .ok ([4096, 4106], { mTotalSize := 100, mUsed := 5, mPeak := 10,
                           mMemoryBuffer := 4096, mOffset := 5 }) ∧
    grantedBytes ((LiniarAllocator.construct 100).Init 4096)
        [(10, 0), (2 ^ 64 - 5, 0)] = (10 + 0) + ((2 ^ 64 - 5) + 0) ∧
    (5 : Nat) ≠ (10 + 0) + ((2 ^ 64 - 5) + 0) := by
  decide

/-- The benchmark loop from a state whose three counters are `size * k`: when the
alignment is 0 or divides `size` and `totalSize + size` stays below `2 ^ 64`, after
`count` more calls the three counters are `size * min (k + count) (totalSize / size)`
and the capacity and the block are untouched. -/
theorem allocateRepeat_counters (size alignment : Nat) (hpos : 0 < size)
    (hal : alignment < SIZE_MOD) (hdiv : alignment = 0 ∨ size % alignment = 0)
    (count : Nat) :
    ∀ (s : LiniarAllocator) (k : Nat), s.mOffset = size * k → s.mUsed = size * k →
      s.mPeak = size * k → size * k ≤ s.mTotalSize →
      s.mTotalSize + size < SIZE_MOD → s.mMemoryBuffer < SIZE_MOD →
      (s.mMemoryBuffer ≠ 0 → s.mMemoryBuffer + s.mTotalSize ≤ SIZE_MOD) →
      ∃ s1, allocateRepeat s size alignment count = .ok s1 ∧
        s1.mOffset = size * min (k + count) (s.mTotalSize / size) ∧
        s1.mUsed = size * min (k + count) (s.mTotalSize / size) ∧
        s1.mPeak = size * min (k + count) (s.mTotalSize / size) ∧
        s1.mTotalSize = s.mTotalSize ∧ s1.mMemoryBuffer = s.mMemoryBuffer := by
  induction count with
  | zero =>
    intro s k ho hu hp hle _ _ _
    have hk : k ≤ s.mTotalSize / size := (Nat.le_div_iff_mul_le hpos).mpr (by
      rw [Nat.mul_comm]; exact hle)
    refine ⟨s, rfl, ?_, ?_, ?_, rfl, rfl⟩
    · rw [Nat.add_zero, Nat.min_eq_left hk]; exact ho
    · rw [Nat.add_zero, Nat.min_eq_left hk]; exact hu
    · rw [Nat.add_zero, Nat.min_eq_left hk]; exact hp
  | succ n ih =>
    intro s k ho hu hp hle hbound hbuf hfits
    have hk : k ≤ s.mTotalSize / size := (Nat.le_div_iff_mul_le hpos).mpr (by
      rw [Nat.mul_comm]; exact hle)
    have hpad : appliedPadding s alignment = 0 := by
      unfold appliedPadding
      rw [if_neg]
      rintro ⟨h0, hne⟩
      rcases hdiv with h | h
      · omega
      · apply hne
        rw [ho]
        exact Nat.mod_eq_zero_of_dvd
          (Dvd.dvd.mul_right (Nat.dvd_of_mod_eq_zero h) k)
    have hA := Allocate_eq s size alignment (by omega) hal
    rw [hpad] at hA
    have e1 : addSz (addSz s.mOffset 0) size = size * (k + 1) := by
      rw [addSz_of_lt (a := s.mOffset) (b := 0) (by omega)]
      rw [addSz_of_lt (by omega), ho]
      ring
    have e3 : addSz s.mOffset (addSz size 0) = size * (k + 1) := by
      rw [addSz_of_lt (a := size) (b := 0) (by omega)]
      rw [addSz_of_lt (by omega), ho]
      ring
    rw [e1, e3] at hA
    by_cases hc : size * (k + 1) > s.mTotalSize
    · rw [if_pos hc] at hA
      obtain ⟨s1, hrun, h1, h2, h3, h4, h5⟩ := ih s k ho hu hp hle hbound hbuf hfits
      have hkeq : k = s.mTotalSize / size := by
        apply Nat.le_antisymm hk
        by_contra hlt
        have : k + 1 ≤ s.mTotalSize / size := by omega
        have := (Nat.le_div_iff_mul_le hpos).mp this
        rw [Nat.mul_comm] at this
        omega
      have hmin : min (k + (n + 1)) (s.mTotalSize / size) = min (k + n) (s.mTotalSize / size) := by
        rw [Nat.min_eq_right (by omega), Nat.min_eq_right (by omega)]
      refine ⟨s1, ?_, ?_, ?_, ?_, h4, h5⟩
      · simp only [allocateRepeat, hA]
        exact hrun
      · rw [hmin]; exact h1
      · rw [hmin]; exact h2
      · rw [hmin]; exact h3
    · rw [if_neg hc] at hA
      have hle1 : size * (k + 1) ≤ s.mTotalSize := Nat.le_of_not_gt hc
      have hmax : max s.mPeak (size * (k + 1)) = size * (k + 1) := by
        rw [hp]
        exact Nat.max_eq_right (Nat.mul_le_mul_left size (Nat.le_succ k))
      rw [hmax] at hA
      obtain ⟨s1, hrun, h1, h2, h3, h4, h5⟩ :=
        ih { s with mOffset := size * (k + 1), mUsed := size * (k + 1),
                    mPeak := size * (k + 1) } (k + 1) rfl rfl rfl hle1 hbound hbuf hfits
      have hidx : k + 1 + n = k + (n + 1) := by omega
      rw [hidx] at h1 h2 h3
      refine ⟨s1, ?_, h1, h2, h3, h4, h5⟩
      simp only [allocateRepeat, hA]
      exact hrun

/-- Peak reported by the benchmark when `C + size` stays below `2 ^ 64`: for a freshly
constructed allocator of capacity `C`, `size > 0` and an alignment that is 0 or
divides `size`, `SingleAllocation` ends with
`Peak() = Used() = size * min(n, C / size)`. -/
theorem SingleAllocation_peak_of_no_wrap (n C block size alignment : Nat)
    (hpos : 0 < size) (hal : alignment < SIZE_MOD)
    (hdiv : alignment = 0 ∨ size % alignment = 0)
    (hbound : C + size < SIZE_MOD) (hblock : MallocResult C block) :
    ∃ s1, SingleAllocation n (LiniarAllocator.construct C) block size alignment = .ok s1 ∧
      s1.Peak = size * min n (C / size) ∧ s1.Used = size * min n (C / size) := by
  obtain ⟨s1, hrun, _, h2, h3, _, _⟩ :=
    allocateRepeat_counters size alignment hpos hal hdiv n
      ((LiniarAllocator.construct C).Init block) 0 rfl rfl rfl (Nat.zero_le _)
      hbound hblock.1 hblock.2
  rw [Nat.zero_add] at h2 h3
  exact ⟨s1, hrun, h3, h2⟩

/-- The run of the repository's test: capacity `10^9`, 10 operations, size 4096,
alignment 8. Whatever `malloc` returned, the reported peak is 40960. -/
theorem SingleAllocation_repository_test (block : Nat)
    (hblock : MallocResult 1000000000 block) :
    ∃ s1, SingleAllocation 10 (LiniarAllocator.construct 1000000000) block 4096 8 = .ok s1 ∧
      s1.Peak = 40960 ∧ s1.Used = 40960 := by
  obtain ⟨s1, hrun, hp, hu⟩ :=
    SingleAllocation_peak_of_no_wrap 10 1000000000 block 4096 8 (by decide) (by decide)
      (Or.inr (by decide)) (by decide) hblock
  exact ⟨s1, hrun, hp, hu⟩

/-- C18, failing input: capacity `C = 2^63 + 2^62`, `malloc` returning the null
pointer, `n = 2`, `size = 2^63`, alignment 0. The second call wraps the offset from
`2^63` to 0, so the benchmark ends with `Used() = 0` and `Peak() = 2^63`, while
`size * min(n, C / size) = 2^63`. -/
theorem C18_benchmark_used_differs_from_peak :
    SingleAllocation 2 (LiniarAllocator.construct (2 ^ 63 + 2 ^ 62)) 0 (2 ^ 63) 0 =
      .ok { mTotalSize := 2 ^ 63 + 2 ^ 62, mUsed := 0, mPeak := 2 ^ 63,
            mMemoryBuffer := 0, mOffset := 0 } ∧
    2 ^ 63 * min 2 ((2 ^ 63 + 2 ^ 62) / 2 ^ 63) = 2 ^ 63 ∧
    LiniarAllocator.Used { mTotalSize := 2 ^ 63 + 2 ^ 62, mUsed := 0, mPeak := 2 ^ 63,
                           mMemoryBuffer := 0, mOffset := 0 } ≠ 2 ^ 63 := by
  decide

/-! ## Counters -/

/-- C10: in every state reachable from a constructed allocator by `Init`, `Allocate`
(granted or refused) and `Reset`, `0 <= Used() <= Peak() <= TotalSize()`. -/
theorem C10_used_le_peak_le_total (s : LiniarAllocator) (h : Reachable s) :
    0 ≤ s.Used ∧ s.Used ≤ s.Peak ∧ s.Peak ≤ s.TotalSize :=
  ⟨Nat.zero_le _, h.wellFormed.used_le_peak, h.wellFormed.peak_le⟩

/-- C10 in the state after `Init` and `Allocate(10, 0)` on a block of 100 bytes. -/
theorem C10_used_le_peak_le_total_witness :
    Reachable { mTotalSize := 100, mUsed := 10, mPeak := 10,
                mMemoryBuffer := 4096, mOffset := 10 } ∧
    (0 ≤ LiniarAllocator.Used { mTotalSize := 100, mUsed := 10, mPeak := 10,
                                 mMemoryBuffer := 4096, mOffset := 10 } ∧
     LiniarAllocator.Used { mTotalSize := 100, mUsed := 10, mPeak := 10,
                            mMemoryBuffer := 4096, mOffset := 10 } ≤
       LiniarAllocator.Peak { mTotalSize := 100, mUsed := 10, mPeak := 10,
                              mMemoryBuffer := 4096, mOffset := 10 } ∧
     LiniarAllocator.Peak { mTotalSize := 100, mUsed := 10, mPeak := 10,
                            mMemoryBuffer := 4096, mOffset := 10 } ≤
       LiniarAllocator.TotalSize { mTotalSize := 100, mUsed := 10, mPeak := 10,
                                   mMemoryBuffer := 4096, mOffset := 10 }) :=
  have hr : Reachable { mTotalSize := 100, mUsed := 10, mPeak := 10,
                        mMemoryBuffer := 4096, mOffset := 10 } :=
    Reachable.alloc 10 0 4096
      (Reachable.init 4096 (Reachable.ctor 100 (by decide)) (by decide))
      (by decide) (by decide) (by decide)
  ⟨hr, C10_used_le_peak_le_total _ hr⟩

/-! ## Sorting -/

theorem Vector.At_of_lt {vec : List Int} {index : Nat} (h : index < vec.length) :
    Vector.At vec index = .ok (vec.getD index 0) := by
  unfold Vector.At
  rw [dif_pos h, List.getD_eq_getElem _ _ h]
  rfl

theorem Vector.SwapAt_of_lt {vec : List Int} {i j : Nat} (hi : i < vec.length)
    (hj : j < vec.length) : Vector.SwapAt vec i j = .ok (swapElems vec i j) := by
  unfold Vector.SwapAt
  rw [Vector.At_of_lt hi, Vector.At_of_lt hj]
  rfl

theorem swapElems_length (vec : List Int) (i j : Nat) :
    (swapElems vec i j).length = vec.length := by
  simp [swapElems]

theorem getD_set_eq (vec : List Int) (i k : Nat) (a : Int) (hi : i < vec.length) :
    (vec.set i a).getD k 0 = if k = i then a else vec.getD k 0 := by
  by_cases h : k = i
  · subst h
    rw [if_pos rfl, List.getD_eq_getElem _ _ (by simpa using hi)]
    simp
  · rw [if_neg h]
    simp only [List.getD_eq_getElem?_getD]
    rw [List.getElem?_set_ne (fun e => h e.symm)]

theorem swapElems_getD (vec : List Int) (i j k : Nat) (hi : i < vec.length)
    (hj : j < vec.length) :
    (swapElems vec i j).getD k 0 =
      if k = j then vec.getD i 0 else if k = i then vec.getD j 0 else vec.getD k 0 := by
  unfold swapElems
  rw [getD_set_eq _ j k _ (by simpa using hj), getD_set_eq _ i k _ hi]

theorem count_set_getD (vec : List Int) (i : Nat) (a x : Int) (hi : i < vec.length) :
    (vec.set i a).count x + (if vec.getD i 0 = x then 1 else 0)
      = vec.count x + (if a = x then 1 else 0) := by
  induction vec generalizing i with
  | nil => simp at hi
  | cons y ys ih =>
    cases i with
    | zero =>
      simp only [List.set_cons_zero, List.count_cons, List.getD_cons_zero, beq_iff_eq]
      omega
    | succ n =>
      have hn : n < ys.length := by simpa using hi
      have := ih n hn
      simp only [List.set_cons_succ, List.count_cons, List.getD_cons_succ]
      omega

theorem swapElems_perm (vec : List Int) (i j : Nat) (hi : i < vec.length)
    (hj : j < vec.length) : (swapElems vec i j).Perm vec := by
  rw [List.perm_iff_count]
  intro x
  unfold swapElems
  have h1 := count_set_getD vec i (vec.getD j 0) x hi
  have h2 := count_set_getD (vec.set i (vec.getD j 0)) j (vec.getD i 0) x
    (by simpa using hj)
  rw [getD_set_eq vec i j _ hi] at h2
  by_cases hji : j = i
  · subst hji
    rw [if_pos rfl] at h2
    omega
  · rw [if_neg hji] at h2
    omega

theorem Comparator.mayPrecede_refl (comp : Comparator) (a : Int) :
    comp.mayPrecede a a := by
  cases comp <;> simp [Comparator.mayPrecede, Comparator.call]

theorem Comparator.mayPrecede_of_call (comp : Comparator) {a b : Int}
    (h : comp.call a b = true) : comp.mayPrecede a b := by
  cases comp <;> simp [Comparator.mayPrecede, Comparator.call] at h ⊢ <;> omega

theorem Comparator.mayPrecede_trans (comp : Comparator) {a b c : Int}
    (h1 : comp.mayPrecede a b) (h2 : comp.mayPrecede b c) : comp.mayPrecede a c := by
  cases comp <;> simp [Comparator.mayPrecede, Comparator.call] at h1 h2 ⊢ <;> omega

theorem bubbleBody_eq (comp : Comparator) {i j : Nat} {vec : List Int}
    (hi : i < vec.length) (hj : j < vec.length) :
    bubbleBody comp i j vec =
      .ok (if i ≠ j ∧ comp.call (vec.getD i 0) (vec.getD j 0) = true
            then swapElems vec i j else vec) := by
  unfold bubbleBody
  by_cases hij : i ≠ j
  · rw [if_pos hij, Vector.At_of_lt hi, Vector.At_of_lt hj]
    dsimp only
    by_cases hc : comp.call (vec.getD i 0) (vec.getD j 0) = true
    · rw [if_pos hc, if_pos ⟨hij, hc⟩, Vector.SwapAt_of_lt hi hj]
    · rw [if_neg hc, if_neg (fun h => hc h.2)]
  · rw [if_neg hij, if_neg (fun h => hij h.1)]

/-- Inner loop of `BubbleSort` for a fixed `i`: it returns, keeps the elements, keeps
the part below `i` in order and leaves at index `i` an element every other one may
precede. -/
theorem bubbleInner_spec (comp : Comparator) (i n : Nat) (hi : i < n) :
    ∀ (count j : Nat) (v : List Int), j + count = n → v.length = n →
      SortedBelow comp v i →
      (∀ k, k < j → comp.mayPrecede (v.getD k 0) (v.getD i 0)) →
      ∃ w, forLoop (bubbleBody comp i) j count v = .ok w ∧ w.length = n ∧ w.Perm v ∧
        SortedBelow comp w i ∧
        ∀ k, k < n → comp.mayPrecede (w.getD k 0) (w.getD i 0) := by
  intro count
  induction count with
  | zero =>
    intro j v hj hlen hsorted hbefore
    exact ⟨v, rfl, hlen, List.Perm.refl _, hsorted,
      fun k hk => hbefore k (by omega)⟩
  | succ c ih =>
    intro j v hj hlen hsorted hbefore
    have hjn : j < n := by omega
    have hil : i < v.length := by omega
    have hjl : j < v.length := by omega
    have hbody := bubbleBody_eq comp hil hjl
    by_cases hsw : i ≠ j ∧ comp.call (v.getD i 0) (v.getD j 0) = true
    · rw [if_pos hsw] at hbody
      obtain ⟨hij, hc⟩ := hsw
      have hlt := Comparator.mayPrecede_of_call comp hc
      have hget := fun k => swapElems_getD v i j k hil hjl
      have hsorted1 : SortedBelow comp (swapElems v i j) i := by
        intro k l hkl hl
        rw [hget k, hget l]
        have hki : k ≠ i := by omega
        have hli : l ≠ i := by omega
        by_cases hkj : k = j
        · by_cases hlj : l = j
          · rw [if_pos hkj, if_pos hlj]
            exact Comparator.mayPrecede_refl comp _
          · rw [if_pos hkj, if_neg hlj, if_neg hli]
            exact Comparator.mayPrecede_trans comp hlt
              (hsorted j l (by omega) hl)
        · by_cases hlj : l = j
          · rw [if_neg hkj, if_neg hki, if_pos hlj]
            exact hbefore k (by omega)
          · rw [if_neg hkj, if_neg hki, if_neg hlj, if_neg hli]
            exact hsorted k l hkl hl
      have hbefore1 : ∀ k, k < j + 1 →
          comp.mayPrecede ((swapElems v i j).getD k 0) ((swapElems v i j).getD i 0) := by
        intro k hk
        rw [hget k, hget i, if_neg hij, if_pos rfl]
        by_cases hkj : k = j
        · rw [if_pos hkj]
          exact hlt
        · rw [if_neg hkj]
          by_cases hki : k = i
          · rw [if_pos hki]
            exact Comparator.mayPrecede_refl comp _
          · rw [if_neg hki]
            by_cases hji : j < i
            · exact hsorted k j (by omega) hji
            · exact Comparator.mayPrecede_trans comp (hbefore k (by omega)) hlt
      obtain ⟨w, hrun, hwlen, hperm, hws, hwb⟩ :=
        ih (j + 1) (swapElems v i j) (by omega)
          ((swapElems_length v i j).trans hlen) hsorted1 hbefore1
      refine ⟨w, ?_, hwlen, hperm.trans (swapElems_perm v i j hil hjl), hws, hwb⟩
      simp only [forLoop, hbody]
      exact hrun
    · rw [if_neg hsw] at hbody
      have hbefore1 : ∀ k, k < j + 1 →
          comp.mayPrecede (v.getD k 0) (v.getD i 0) := by
        intro k hk
        by_cases hkj : k = j
        · subst hkj
          by_cases hik : i = k
          · rw [← hik]
            exact Comparator.mayPrecede_refl comp _
          · have hc : ¬ comp.call (v.getD i 0) (v.getD k 0) = true :=
              fun h => hsw ⟨hik, h⟩
            show comp.call (v.getD i 0) (v.getD k 0) = false
            simpa using hc
        · exact hbefore k (by omega)
      obtain ⟨w, hrun, hwlen, hperm, hws, hwb⟩ :=
        ih (j + 1) v (by omega) hlen hsorted hbefore1
      refine ⟨w, ?_, hwlen, hperm, hws, hwb⟩
      simp only [forLoop, hbody]
      exact hrun

/-- Outer loop of `BubbleSort`: started with the part below `i` in order, it returns
with all `n` elements in order, and keeps the elements. -/
theorem bubbleOuter_spec (comp : Comparator) (n : Nat) :
    ∀ (count i : Nat) (v : List Int), i + count = n → v.length = n →
      SortedBelow comp v i →
      ∃ w, forLoop (fun i v => forLoop (bubbleBody comp i) 0 v.length v) i count v = .ok w ∧
        w.length = n ∧ w.Perm v ∧ SortedBelow comp w n := by
  intro count
  induction count with
  | zero =>
    intro i v hi hlen hsorted
    have : i = n := by omega
    subst this
    exact ⟨v, rfl, hlen, List.Perm.refl _, hsorted⟩
  | succ c ih =>
    intro i v hi hlen hsorted
    obtain ⟨w1, hrun1, hlen1, hperm1, hs1, hb1⟩ :=
      bubbleInner_spec comp i n (by omega) n 0 v (by omega) hlen hsorted
        (fun k hk => absurd hk (Nat.not_lt_zero k))
    have hsorted1 : SortedBelow comp w1 (i + 1) := by
      intro k l hkl hl
      by_cases hli : l = i
      · subst hli
        exact hb1 k (by omega)
      · exact hs1 k l hkl (by omega)
    obtain ⟨w, hrun, hwlen, hperm, hws⟩ := ih (i + 1) w1 (by omega) hlen1 hsorted1
    refine ⟨w, ?_, hwlen, hperm.trans hperm1, hws⟩
    simp only [forLoop, hlen, hrun1]
    exact hrun

/-- Elements in order below the length form a list in which every element may precede
every later one. -/
theorem SortedBelow.pairwise {comp : Comparator} {vec : List Int}
    (h : SortedBelow comp vec vec.length) : vec.Pairwise comp.mayPrecede := by
  rw [List.pairwise_iff_getElem]
  intro i j hi hj hij
  have := h i j (by omega) hj
  rw [List.getD_eq_getElem _ _ hi, List.getD_eq_getElem _ _ hj] at this
  exact this

theorem sorted_forms {comp : Comparator} {out : List Int}
    (h : out.Pairwise comp.mayPrecede) :
    List.Chain' (fun a b => comp.call b a = false) out ∧
      (comp = .Less → out.Sorted (fun a b => a ≤ b)) ∧
      (comp = .Greater → out.Sorted (fun a b => a ≥ b)) := by
  refine ⟨List.Pairwise.chain' h, ?_, ?_⟩
  · intro hc
    subst hc
    exact List.Pairwise.imp (fun {a b} hab => by
      simp [Comparator.mayPrecede, Comparator.call] at hab
      exact hab) h
  · intro hc
    subst hc
    exact List.Pairwise.imp (fun {a b} hab => by
      simp [Comparator.mayPrecede, Comparator.call] at hab
      exact hab) h

/-- C19: for every vector of `int` with `Size() >= 2` and every comparator of Sort.hpp
(`Less` and `Greater` among them), `BubbleSort(vec, comp)` returns with `vec` a
permutation of its input in which no adjacent pair `vec[k], vec[k+1]` has
`comp(vec[k+1], vec[k])`: non-decreasing for `Less`, non-increasing for `Greater`. -/
theorem C19_bubble_sort_sorts (vec : List Int) (comp : Comparator)
    (hsize : 2 ≤ vec.length) :
    ∃ out, BubbleSort vec comp = .ok out ∧ out.Perm vec ∧
      List.Chain' (fun a b => comp.call b a = false) out ∧
      (comp = .Less → out.Sorted (fun a b => a ≤ b)) ∧
      (comp = .Greater → out.Sorted (fun a b => a ≥ b)) := by
  obtain ⟨out, hrun, hlen, hperm, hsorted⟩ :=
    bubbleOuter_spec comp vec.length vec.length 0 vec (by omega) rfl
      (fun k l _ hl => absurd hl (Nat.not_lt_zero l))
  refine ⟨out, ?_, hperm, sorted_forms (SortedBelow.pairwise (hlen ▸ hsorted))⟩
  unfold BubbleSort
  rw [if_pos hsize]
  exact hrun

/-- C19 on the vector of the search test, `[-2, 0, 14, -1, 4, 3]` with `Less`. -/
theorem C19_bubble_sort_sorts_witness :
    BubbleSort [-2, 0, 14, -1, 4, 3] .Less = .ok [-2, -1, 0, 3, 4, 14] ∧
    ∃ out, BubbleSort [-2, 0, 14, -1, 4, 3] .Less = .ok out ∧
      out.Perm [-2, 0, 14, -1, 4, 3] ∧
      List.Chain' (fun a b => Comparator.Less.call b a = false) out ∧
      (Comparator.Less = .Less → out.Sorted (fun a b => a ≤ b)) ∧
      (Comparator.Less = .Greater → out.Sorted (fun a b => a ≥ b)) :=
  ⟨by decide, C19_bubble_sort_sorts [-2, 0, 14, -1, 4, 3] .Less (by decide)⟩

theorem selectBody_eq (comp : Comparator) {vec : List Int} {j t : Nat}
    (hj : j < vec.length) (ht : t < vec.length) :
    selectBody comp vec j t =
      .ok (if comp.call (vec.getD j 0) (vec.getD t 0) then j else t) := by
  unfold selectBody
  rw [Vector.At_of_lt hj, Vector.At_of_lt ht]

/-- Inner loop of `SelectionSort`: it returns an index in `i .. n-1` whose element may
precede every element from index `i` on. -/
theorem selectInner_spec (comp : Comparator) (vec : List Int) (i n : Nat)
    (hlen : vec.length = n) :
    ∀ (count j t : Nat), j + count = n → i ≤ t → t < j →
      (∀ k, i ≤ k → k < j → comp.mayPrecede (vec.getD t 0) (vec.getD k 0)) →
      ∃ t1, forLoop (selectBody comp vec) j count t = .ok t1 ∧ i ≤ t1 ∧ t1 < n ∧
        ∀ k, i ≤ k → k < n → comp.mayPrecede (vec.getD t1 0) (vec.getD k 0) := by
  intro count
  induction count with
  | zero =>
    intro j t hj hit htj hmin
    exact ⟨t, rfl, hit, by omega, fun k hik hk => hmin k hik (by omega)⟩
  | succ c ih =>
    intro j t hj hit htj hmin
    have hjl : j < vec.length := by omega
    have htl : t < vec.length := by omega
    have hbody := selectBody_eq comp hjl htl
    by_cases hc : comp.call (vec.getD j 0) (vec.getD t 0) = true
    · rw [if_pos hc] at hbody
      have hlt := Comparator.mayPrecede_of_call comp hc
      obtain ⟨t1, hrun, h1, h2, h3⟩ := ih (j + 1) j (by omega) (by omega) (by omega)
        (fun k hik hk => by
          by_cases hkj : k = j
          · subst hkj
            exact Comparator.mayPrecede_refl comp _
          · exact Comparator.mayPrecede_trans comp hlt (hmin k hik (by omega)))
      refine ⟨t1, ?_, h1, h2, h3⟩
      simp only [forLoop, hbody]
      exact hrun
    · rw [if_neg hc] at hbody
      obtain ⟨t1, hrun, h1, h2, h3⟩ := ih (j + 1) t (by omega) hit (by omega)
        (fun k hik hk => by
          by_cases hkj : k = j
          · subst hkj
            show comp.call (vec.getD k 0) (vec.getD t 0) = false
            simpa using hc
          · exact hmin k hik (by omega))
      refine ⟨t1, ?_, h1, h2, h3⟩
      simp only [forLoop, hbody]
      exact hrun

/-- One pass of the outer loop of `SelectionSort`: with the part below `i` in order and
each of its elements allowed before every later element, the same holds below
`i + 1` afterwards, and the elements are kept. -/
theorem selectionBody_spec (comp : Comparator) (i n : Nat) (v : List Int)
    (hi : i + 1 ≤ n) (hlen : v.length = n) (hsorted : SortedBelow comp v i)
    (hsplit : ∀ k l, k < i → i ≤ l → l < n → comp.mayPrecede (v.getD k 0) (v.getD l 0)) :
    ∃ w, selectionBody comp i v = .ok w ∧ w.length = n ∧ w.Perm v ∧
      SortedBelow comp w (i + 1) ∧
      ∀ k l, k < i + 1 → i + 1 ≤ l → l < n →
        comp.mayPrecede (w.getD k 0) (w.getD l 0) := by
  obtain ⟨t, hrun, hit, htn, hmin⟩ :=
    selectInner_spec comp v i n hlen (n - (i + 1)) (i + 1) i (by omega)
      (Nat.le_refl i) (by omega)
      (fun k hik hk => by
        have : k = i := by omega
        subst this
        exact Comparator.mayPrecede_refl comp _)
  have hil : i < v.length := by omega
  have htl : t < v.length := by omega
  have hfinal : ∃ w, selectionBody comp i v = .ok w ∧ w.length = n ∧ w.Perm v ∧
      ∀ k, w.getD k 0 =
        if k = i then v.getD t 0 else if k = t then v.getD i 0 else v.getD k 0 := by
    unfold selectionBody
    rw [hlen, hrun]
    dsimp only
    by_cases hti : t ≠ i
    · rw [if_pos hti, Vector.SwapAt_of_lt htl hil]
      exact ⟨_, rfl, (swapElems_length v t i).trans hlen, swapElems_perm v t i htl hil,
        fun k => swapElems_getD v t i k htl hil⟩
    · rw [if_neg hti]
      have hti2 : t = i := by omega
      refine ⟨v, rfl, hlen, List.Perm.refl _, ?_⟩
      intro k
      by_cases hk : k = i
      · rw [if_pos hk, hk, hti2]
      · rw [if_neg hk, if_neg (by omega)]
  obtain ⟨w, hw, hwlen, hperm, hget⟩ := hfinal
  refine ⟨w, hw, hwlen, hperm, ?_, ?_⟩
  · intro k l hkl hl
    rw [hget k, hget l]
    by_cases hli : l = i
    · rw [if_pos hli]
      by_cases hki : k = i
      · rw [if_pos hki]
        exact Comparator.mayPrecede_refl comp _
      · have hkt : ¬ k = t := by omega
        rw [if_neg hki, if_neg hkt]
        exact hsplit k t (by omega) hit htn
    · have hki : ¬ k = i := by omega
      have hkt : ¬ k = t := by omega
      have hlt : ¬ l = t := by omega
      rw [if_neg hli, if_neg hlt, if_neg hki, if_neg hkt]
      exact hsorted k l hkl (by omega)
  · intro k l hk hl hln
    have hli : ¬ l = i := by omega
    rw [hget k, hget l, if_neg hli]
    by_cases hki : k = i
    · rw [if_pos hki]
      by_cases hlt : l = t
      · rw [if_pos hlt]
        exact hmin i (Nat.le_refl i) (by omega)
      · rw [if_neg hlt]
        exact hmin l (by omega) hln
    · have hkt : ¬ k = t := by omega
      rw [if_neg hki, if_neg hkt]
      by_cases hlt : l = t
      · rw [if_pos hlt]
        exact hsplit k i (by omega) (Nat.le_refl i) (by omega)
      · rw [if_neg hlt]
        exact hsplit k l (by omega) (by omega) hln

/-- Outer loop of `SelectionSort`, run up to index `n - 2`. -/
theorem selectionOuter_spec (comp : Comparator) (n : Nat) (hn : 1 ≤ n) :
    ∀ (count i : Nat) (v : List Int), i + count = n - 1 → v.length = n →
      SortedBelow comp v i →
      (∀ k l, k < i → i ≤ l → l < n → comp.mayPrecede (v.getD k 0) (v.getD l 0)) →
      ∃ w, forLoop (selectionBody comp) i count v = .ok w ∧ w.length = n ∧ w.Perm v ∧
        SortedBelow comp w (n - 1) ∧
        ∀ k l, k < n - 1 → n - 1 ≤ l → l < n →
          comp.mayPrecede (w.getD k 0) (w.getD l 0) := by
  intro count
  induction count with
  | zero =>
    intro i v hi hlen hsorted hsplit
    have : i = n - 1 := by omega
    subst this
    exact ⟨v, rfl, hlen, List.Perm.refl _, hsorted, hsplit⟩
  | succ c ih =>
    intro i v hi hlen hsorted hsplit
    obtain ⟨w1, hrun1, hlen1, hperm1, hs1, hsp1⟩ :=
      selectionBody_spec comp i n v (by omega) hlen hsorted hsplit
    obtain ⟨w, hrun, hwlen, hperm, hws, hwsp⟩ :=
      ih (i + 1) w1 (by omega) hlen1 hs1 hsp1
    refine ⟨w, ?_, hwlen, hperm.trans hperm1, hws, hwsp⟩
    simp only [forLoop, hrun1]
    exact hrun

/-- C20: for every vector of `int` with `Size() >= 2` and every comparator of Sort.hpp
(`Less` and `Greater` among them), `SelectionSort(vec, comp)` returns with `vec` a
permutation of its input in which no adjacent pair `vec[k], vec[k+1]` has
`comp(vec[k+1], vec[k])`: non-decreasing for `Less`, non-increasing for `Greater`. -/
theorem C20_selection_sort_sorts (vec : List Int) (comp : Comparator)
    (hsize : 2 ≤ vec.length) :
    ∃ out, SelectionSort vec comp = .ok out ∧ out.Perm vec ∧
      List.Chain' (fun a b => comp.call b a = false) out ∧
      (comp = .Less → out.Sorted (fun a b => a ≤ b)) ∧
      (comp = .Greater → out.Sorted (fun a b => a ≥ b)) := by
  obtain ⟨out, hrun, hlen, hperm, hsorted, hsplit⟩ :=
    selectionOuter_spec comp vec.length (by omega) (vec.length - 1) 0 vec (by omega) rfl
      (fun k l _ hl => absurd hl (Nat.not_lt_zero l))
      (fun k l hk _ _ => absurd hk (Nat.not_lt_zero k))
  have hall : SortedBelow comp out out.length := by
    intro k l hkl hl
    rw [hlen] at hl
    by_cases hlast : l < vec.length - 1
    · exact hsorted k l hkl hlast
    · by_cases hkl2 : k = l
      · rw [hkl2]
        exact Comparator.mayPrecede_refl comp _
      · exact hsplit k l (by omega) (by omega) hl
  refine ⟨out, ?_, hperm, sorted_forms (SortedBelow.pairwise hall)⟩
  unfold SelectionSort
  rw [if_pos hsize]
  exact hrun

/-- C20 on the vector of the sort test, `[-12, 4, 35, 19, -7]`, with `Greater`. -/
theorem C20_selection_sort_sorts_witness :
    SelectionSort [-12, 4, 35, 19, -7] .Greater = .ok [35, 19, 4, -7, -12] ∧
    SelectionSort [-12, 4, 35, 19, -7] .Less = .ok [-12, -7, 4, 19, 35] ∧
    ∃ out, SelectionSort [-12, 4, 35, 19, -7] .Greater = .ok out ∧
      out.Perm [-12, 4, 35, 19, -7] ∧
      List.Chain' (fun a b => Comparator.Greater.call b a = false) out ∧
      (Comparator.Greater = .Less → out.Sorted (fun a b => a ≤ b)) ∧
      (Comparator.Greater = .Greater → out.Sorted (fun a b => a ≥ b)) :=
  ⟨by decide, by decide,
    C20_selection_sort_sorts [-12, 4, 35, 19, -7] .Greater (by decide)⟩

/-! ## Padding calculator, closed form -/

/-- C30: for every `baseAddress` and every `std::size_t` alignment > 0,
`CalculateMemoryPadding` returns `alignment - baseAddress % alignment`;
`baseAddress + padding` is the least multiple of the alignment strictly greater than
`baseAddress`; for an aligned `baseAddress` the padding is the alignment itself, and it
is never 0. -/
theorem C30_padding_closed_form (baseAddress alignment : Nat)
    (ha : alignment < SIZE_MOD) (hpos : 0 < alignment) :
    CalculateMemoryPadding baseAddress alignment
      = .ok (alignment - baseAddress % alignment) ∧
    (baseAddress + (alignment - baseAddress % alignment)) % alignment = 0 ∧
    baseAddress < baseAddress + (alignment - baseAddress % alignment) ∧
    (∀ m, baseAddress < m → m % alignment = 0 →
      baseAddress + (alignment - baseAddress % alignment) ≤ m) ∧
    (baseAddress % alignment = 0 →
      alignment - baseAddress % alignment = alignment) ∧
    alignment - baseAddress % alignment ≠ 0 := by
  have hr : baseAddress % alignment < alignment := Nat.mod_lt _ hpos
  refine ⟨CalculateMemoryPadding_eq baseAddress alignment ha hpos,
    add_padding_mod baseAddress alignment hpos, by omega, ?_, by omega, by omega⟩
  intro m hm hmod
  obtain ⟨q, hq⟩ := Nat.dvd_of_mod_eq_zero hmod
  have hdiv := Nat.div_add_mod baseAddress alignment
  have hlt : baseAddress / alignment < q := by
    by_contra hge
    have hge2 : q ≤ baseAddress / alignment := Nat.le_of_not_gt hge
    have : alignment * q ≤ alignment * (baseAddress / alignment) :=
      Nat.mul_le_mul_left _ hge2
    omega
  have : alignment * (baseAddress / alignment + 1) ≤ alignment * q :=
    Nat.mul_le_mul_left _ hlt
  have h2 : alignment * (baseAddress / alignment + 1)
      = alignment * (baseAddress / alignment) + alignment := by ring
  omega

/-- C30 at the aligned address 8 with alignment 8 (padding 8) and at 13 with
alignment 8 (padding 3). -/
theorem C30_padding_closed_form_witness :
    CalculateMemoryPadding 8 8 = .ok 8 ∧ CalculateMemoryPadding 13 8 = .ok 3 ∧
    (CalculateMemoryPadding 8 8 = .ok (8 - 8 % 8) ∧
      (8 + (8 - 8 % 8)) % 8 = 0 ∧
      8 < 8 + (8 - 8 % 8) ∧
      (∀ m, 8 < m → m % 8 = 0 → 8 + (8 - 8 % 8) ≤ m) ∧
      (8 % 8 = 0 → 8 - 8 % 8 = 8) ∧
      8 - 8 % 8 ≠ 0) :=
  ⟨by decide, by decide, C30_padding_closed_form 8 8 (by decide) (by decide)⟩

/-! ## Vector: Insert, Erase, Swap -/

/-- C24, failing input: on the vector `1, 2, 3` (capacity 6), `Insert(0, 9)` leaves
`9, 2, 2, 3`: the size has grown and index 0 holds 9, but the element 1 formerly at
position 0 is not at position 1; it is lost and 2 stands twice. -/
theorem C24_insert_front_loses_first :
    Vector.Insert (T := Int)
        { mBuffer := [some 1, some 2, some 3, none, none, none],
          mCapacity := 6, mSize := 3 } 0 9 =
      .ok { mBuffer := [some 9, some 2, some 2, some 3, none, none],
            mCapacity := 6, mSize := 4 } ∧
    Vector.elements (T := Int)
        { mBuffer := [some 9, some 2, some 2, some 3, none, none],
          mCapacity := 6, mSize := 4 } = [some 9, some 2, some 2, some 3] ∧
    [some 9, some 2, some 2, some 3] ≠ [some 9, some (1 : Int), some 2, some 3] := by
  decide

/-- C25, failing input: on the vector `1, 2, 3, 4, 5` (capacity 6), `Erase(2)` leaves
`1, 2, 4, 4`: the element 5 formerly at position 4 is not at position 3; it is lost
and 4 stands twice. -/
theorem C25_erase_middle_loses_last :
    Vector.Erase (T := Int)
        { mBuffer := [some 1, some 2, some 3, some 4, some 5, none],
          mCapacity := 6, mSize := 5 } 2 =
      .ok { mBuffer := [some 1, some 2, some 4, some 4, some 5, none],
            mCapacity := 6, mSize := 4 } ∧
    Vector.elements (T := Int)
        { mBuffer := [some 1, some 2, some 4, some 4, some 5, none],
          mCapacity := 6, mSize := 4 } = [some 1, some 2, some 4, some 4] ∧
    [some 1, some 2, some 4, some 4] ≠ [some 1, some 2, some 4, some (5 : Int)] := by
  decide

/-- C26, failing input: for `vec4` holding four `i` and `vec3` holding `a, b, c, d`
(both of capacity 8), `vec4.Swap(vec3)` leaves `vec4` with four `i` and `vec3` with
`a, b, c, d`; in general `Swap` changes neither vector. -/
theorem C26_swap_changes_nothing :
    Vector.Swap (T := Char)
        { mBuffer := [some 'i', some 'i', some 'i', some 'i', none, none, none, none],
          mCapacity := 8, mSize := 4 }
        { mBuffer := [some 'a', some 'b', some 'c', some 'd', none, none, none, none],
          mCapacity := 8, mSize := 4 } =
      ({ mBuffer := [some 'i', some 'i', some 'i', some 'i', none, none, none, none],
         mCapacity := 8, mSize := 4 },
       { mBuffer := [some 'a', some 'b', some 'c', some 'd', none, none, none, none],
         mCapacity := 8, mSize := 4 }) ∧
    ∀ a b : Vector Char, Vector.Swap a b = (a, b) :=
  ⟨rfl, fun _ _ => rfl⟩


/-! ## FixedStack -/

theorem readCell_of_lt {T : Type} {buf : List (Option T)} {i : Nat} (h : i < buf.length) :
    readCell buf i = .ok (buf.get ⟨i, h⟩) := by
  unfold readCell
  rw [dif_pos h]

theorem writeCell_of_lt {T : Type} {buf : List (Option T)} {i : Nat} (v : Option T)
    (h : i < buf.length) : writeCell buf i v = .ok (buf.set i v) := by
  unfold writeCell
  rw [if_pos h]

theorem take_succ_set {α : Type} (l : List α) (m : Nat) (x : α) (h : m < l.length) :
    (l.set m x).take (m + 1) = l.take m ++ [x] := by
  induction l generalizing m with
  | nil => simp at h
  | cons y ys ih =>
    cases m with
    | zero => simp
    | succ n =>
      have hn : n < ys.length := by simpa using h
      simp [ih n hn]

theorem take_succ_eq_append {α : Type} (l : List α) (n : Nat) (c : List α) (x : α)
    (h : n < l.length) (hc : l.take (n + 1) = c ++ [x]) :
    l.get ⟨n, h⟩ = x ∧ l.take n = c := by
  rw [List.take_succ, List.getElem?_eq_getElem h] at hc
  have hlen : (l.take n).length = c.length := by
    have := congrArg List.length hc
    simp at this
    simp
    omega
  have := List.append_inj hc hlen
  refine ⟨?_, this.1⟩
  have h2 := this.2
  simp at h2
  exact h2

theorem FixedStack.construct_valid {T : Type} (capacity : Nat) (h : capacity < SIZE_MOD) :
    (FixedStack.construct capacity : FixedStack T).Valid := by
  simp [FixedStack.Valid, FixedStack.construct, h]

theorem FixedStack.Push_spec {T : Type} (s : FixedStack T) (v : T) (hv : s.Valid)
    (hlt : s.mSize < s.mCapacity) :
    ∃ s1, s.Push v = .ok s1 ∧ s1.Valid ∧ s1.mSize = s.mSize + 1 ∧
      s1.mCapacity = s.mCapacity ∧ s1.contents = s.contents ++ [some v] := by
  obtain ⟨hlen, hle, hcap⟩ := hv
  have hfull : s.IsFull = false := by
    simp [FixedStack.IsFull]
    omega
  have hidx : s.mSize < s.mBuffer.length := by omega
  have hadd : addSz s.mSize 1 = s.mSize + 1 := addSz_of_lt (by omega)
  refine ⟨{ s with mBuffer := s.mBuffer.set s.mSize (some v), mSize := s.mSize + 1 },
    ?_, ?_, rfl, rfl, ?_⟩
  · unfold FixedStack.Push
    rw [if_pos hfull, writeCell_of_lt _ hidx, hadd]
  · refine ⟨?_, ?_, hcap⟩
    · simp [hlen]
    · show s.mSize + 1 ≤ s.mCapacity
      omega
  · exact take_succ_set s.mBuffer s.mSize (some v) hidx

theorem FixedStack.Top_spec {T : Type} (s : FixedStack T) (c : List (Option T))
    (x : Option T) (hv : s.Valid) (hc : s.contents = c ++ [x]) :
    0 < s.mSize ∧ s.Top = .ok x ∧ s.Pop.Valid ∧ s.Pop.contents = c ∧
      s.Pop.mSize = s.mSize - 1 ∧ s.Pop.mCapacity = s.mCapacity ∧
      s.Pop.mBuffer = s.mBuffer := by
  obtain ⟨hlen, hle, hcap⟩ := hv
  have hpos : 0 < s.mSize := by
    by_contra h0
    have h00 : s.mSize = 0 := by omega
    simp [FixedStack.contents, h00] at hc
  have hidx : s.mSize - 1 < s.mBuffer.length := by omega
  have hsucc : s.mSize - 1 + 1 = s.mSize := by omega
  have hc2 : s.mBuffer.take (s.mSize - 1 + 1) = c ++ [x] := by
    rw [hsucc]
    exact hc
  obtain ⟨hget, htake⟩ := take_succ_eq_append s.mBuffer (s.mSize - 1) c x hidx hc2
  have hempty : s.IsEmpty = false := by
    simp [FixedStack.IsEmpty]
    omega
  have hsub : subSz s.mSize 1 = s.mSize - 1 := by
    unfold subSz
    rw [SIZE_MOD_eq] at *
    omega
  have hpop : s.Pop = { s with mSize := s.mSize - 1 } := by
    unfold FixedStack.Pop
    rw [if_pos hempty, hsub]
  refine ⟨hpos, ?_, ?_, ?_, ?_, ?_, ?_⟩
  · unfold FixedStack.Top
    rw [if_pos hpos, readCell_of_lt hidx, hget]
  · rw [hpop]
    exact ⟨hlen, by show s.mSize - 1 ≤ s.mCapacity; omega, hcap⟩
  · rw [hpop]
    exact htake
  · rw [hpop]
  · rw [hpop]
  · rw [hpop]

theorem FixedStack.pushAll_spec {T : Type} (xs : List T) :
    ∀ s : FixedStack T, s.Valid → s.mSize + xs.length ≤ s.mCapacity →
      ∃ s1, s.pushAll xs = .ok s1 ∧ s1.Valid ∧ s1.mSize = s.mSize + xs.length ∧
        s1.mCapacity = s.mCapacity ∧ s1.contents = s.contents ++ xs.map some := by
  induction xs with
  | nil =>
    intro s hv _
    exact ⟨s, rfl, hv, rfl, rfl, by simp⟩
  | cons x rest ih =>
    intro s hv hle
    have hle1 : s.mSize + (rest.length + 1) ≤ s.mCapacity := by simpa using hle
    obtain ⟨s1, hpush, hv1, hsize1, hcap1, hc1⟩ := FixedStack.Push_spec s x hv (by omega)
    obtain ⟨s2, hrun, hv2, hsize2, hcap2, hc2⟩ := ih s1 hv1 (by omega)
    refine ⟨s2, ?_, hv2, ?_, by omega, ?_⟩
    · simp only [FixedStack.pushAll, hpush]
      exact hrun
    · simp only [List.length_cons]
      omega
    · rw [hc2, hc1]
      simp

theorem FixedStack.drain_spec {T : Type} (n : Nat) :
    ∀ (s : FixedStack T) (c ys : List (Option T)), s.Valid → ys.length = n →
      s.contents = c ++ ys →
      ∃ s1, s.drain n = .ok (ys.reverse, s1) ∧ s1.contents = c ∧
        s1.mSize = s.mSize - n ∧ s1.mCapacity = s.mCapacity := by
  induction n with
  | zero =>
    intro s c ys hv hlen hc
    have : ys = [] := List.length_eq_zero.mp hlen
    subst this
    exact ⟨s, rfl, by simpa using hc, rfl, rfl⟩
  | succ m ih =>
    intro s c ys hv hlen hc
    rcases List.eq_nil_or_concat ys with hnil | ⟨ys1, y, hys⟩
    · subst hnil
      simp at hlen
    · subst hys
      have hlen1 : ys1.length = m := by simpa using hlen
      have hc2 : s.contents = (c ++ ys1) ++ [y] := by
        rw [hc]
        simp
      obtain ⟨_, htop, hvp, hcp, hsp, hcapp, _⟩ :=
        FixedStack.Top_spec s (c ++ ys1) y hv hc2
      obtain ⟨s1, hrun, hc1, hs1, hcap1⟩ := ih s.Pop c ys1 hvp hlen1 hcp
      refine ⟨s1, ?_, hc1, by omega, by omega⟩
      simp only [FixedStack.drain, htop, hrun]
      simp

/-- C27: for every stack whose members are consistent, (1) when `Size() < Capacity()`,
`Push(v)` grows `Size()` by 1 and `Top()` then is `v`, and a following `Pop()` gives
back the previous `Size()` and the previous contents; (2) when `xs` fits in the free
capacity, pushing `xs` and then reading `Top()` and calling `Pop()` `xs.length` times
yields `xs` reversed and leaves the previous `Size()` and contents. -/
theorem C27_fixed_stack_lifo {T : Type} (s : FixedStack T) (hv : s.Valid) :
    (∀ v : T, s.Size < s.Capacity →
      ∃ s1, s.Push v = .ok s1 ∧ s1.Size = s.Size + 1 ∧ s1.Top = .ok (some v) ∧
        s1.Pop.Size = s.Size ∧ s1.Pop.contents = s.contents) ∧
    (∀ xs : List T, s.Size + xs.length ≤ s.Capacity →
      ∃ s1 s2, s.pushAll xs = .ok s1 ∧
        s1.drain xs.length = .ok (xs.reverse.map some, s2) ∧
        s2.Size = s.Size ∧ s2.contents = s.contents) := by
  constructor
  · intro v hlt
    obtain ⟨s1, hpush, hv1, hsize1, _, hc1⟩ := FixedStack.Push_spec s v hv hlt
    obtain ⟨_, htop, _, hcp, hsp, _, _⟩ :=
      FixedStack.Top_spec s1 s.contents (some v) hv1 hc1
    refine ⟨s1, hpush, hsize1, htop, ?_, hcp⟩
    show s1.Pop.mSize = s.mSize
    omega
  · intro xs hle
    obtain ⟨s1, hrun, hv1, hsize1, _, hc1⟩ := FixedStack.pushAll_spec xs s hv hle
    obtain ⟨s2, hdrain, hc2, hs2, _⟩ :=
      FixedStack.drain_spec xs.length s1 s.contents (xs.map some) hv1 (by simp) hc1
    refine ⟨s1, s2, hrun, ?_, ?_, hc2⟩
    · rw [hdrain, List.map_reverse]
    · show s2.mSize = s.mSize
      omega

/-- C27 with the values of the test, evaluated on a stack of capacity 3: after
`Push 11.2`, `Push 34.5`, `Pop` the stack holds 11.2; pushing 123.04 and -0.12 and
reading three times gives -0.12, 123.04, 11.2. The theorem itself is applied to the
default-constructed stack of capacity 100. -/
theorem C27_fixed_stack_lifo_witness :
    FixedStack.pushAll (FixedStack.construct 3 : FixedStack ℚ) [11.2, 34.5] =
      .ok { mBuffer := [some 11.2, some 34.5, none], mCapacity := 3, mSize := 2 } ∧
    FixedStack.pushAll
        (FixedStack.Pop ({ mBuffer := [some 11.2, some 34.5, none],
                           mCapacity := 3, mSize := 2 } : FixedStack ℚ))
        [123.04, -0.12] =
      .ok { mBuffer := [some 11.2, some 123.04, some (-0.12)],
            mCapacity := 3, mSize := 3 } ∧
    FixedStack.drain ({ mBuffer := [some 11.2, some 123.04, some (-0.12)],
                        mCapacity := 3, mSize := 3 } : FixedStack ℚ) 3 =
      .ok ([some (-0.12), some 123.04, some 11.2],
           { mBuffer := [some 11.2, some 123.04, some (-0.12)],
             mCapacity := 3, mSize := 0 }) ∧
    ((∀ v : ℚ, (FixedStack.construct 100 : FixedStack ℚ).Size
          < (FixedStack.construct 100 : FixedStack ℚ).Capacity →
      ∃ s1, (FixedStack.construct 100 : FixedStack ℚ).Push v = .ok s1 ∧
        s1.Size = (FixedStack.construct 100 : FixedStack ℚ).Size + 1 ∧
        s1.Top = .ok (some v) ∧
        s1.Pop.Size = (FixedStack.construct 100 : FixedStack ℚ).Size ∧
        s1.Pop.contents = (FixedStack.construct 100 : FixedStack ℚ).contents) ∧
    (∀ xs : List ℚ, (FixedStack.construct 100 : FixedStack ℚ).Size + xs.length
          ≤ (FixedStack.construct 100 : FixedStack ℚ).Capacity →
      ∃ s1 s2, (FixedStack.construct 100 : FixedStack ℚ).pushAll xs = .ok s1 ∧
        s1.drain xs.length = .ok (xs.reverse.map some, s2) ∧
        s2.Size = (FixedStack.construct 100 : FixedStack ℚ).Size ∧
        s2.contents = (FixedStack.construct 100 : FixedStack ℚ).contents)) :=
  ⟨rfl, rfl, rfl,
    C27_fixed_stack_lifo (FixedStack.construct 100)
      (FixedStack.construct_valid 100 (by decide))⟩

/-! ## FixedQueue -/

/-- The shifting loop of `PopFront` over the first `m` cells of a buffer with more than
`m` cells: afterwards cell `j` holds what cell `j + 1` held, for every `j < m`. -/
theorem shiftLeft_spec {T : Type} (b : List (Option T)) (m : Nat) (hm : m < b.length) :
    ∀ (count k : Nat) (B : List (Option T)), k + count = m → B.length = b.length →
      (∀ j, B[j]? = if j < k then b[j + 1]? else b[j]?) →
      ∃ B1, forLoop (fun i buf => moveCell buf i (i + 1)) k count B = .ok B1 ∧
        B1.length = b.length ∧
        ∀ j, B1[j]? = if j < m then b[j + 1]? else b[j]? := by
  intro count
  induction count with
  | zero =>
    intro k B hk hlen hB
    have : k = m := by omega
    subst this
    exact ⟨B, rfl, hlen, hB⟩
  | succ c ih =>
    intro k B hk hlen hB
    have hk1 : k + 1 < B.length := by omega
    have hk0 : k < B.length := by omega
    have hread : B[k + 1]? = b[k + 1]? := by
      rw [hB (k + 1), if_neg (by omega)]
    have hstep : moveCell B k (k + 1) = .ok (B.set k (B.get ⟨k + 1, hk1⟩)) := by
      unfold moveCell
      rw [readCell_of_lt hk1]
      exact writeCell_of_lt _ hk0
    have hB1 : ∀ j, (B.set k (B.get ⟨k + 1, hk1⟩))[j]?
        = if j < k + 1 then b[j + 1]? else b[j]? := by
      intro j
      rw [List.getElem?_set]
      by_cases hjk : k = j
      · subst hjk
        rw [if_pos rfl, if_pos hk0, if_pos (by omega), ← hread,
          List.getElem?_eq_getElem hk1]
        rfl
      · rw [if_neg hjk, hB j]
        by_cases hlt : j < k
        · rw [if_pos hlt, if_pos (by omega)]
        · rw [if_neg hlt, if_neg (by omega)]
    obtain ⟨B1, hrun, hlen1, hfin⟩ :=
      ih (k + 1) (B.set k (B.get ⟨k + 1, hk1⟩)) (by omega) (by simpa using hlen) hB1
    refine ⟨B1, ?_, hlen1, hfin⟩
    simp only [forLoop, hstep]
    exact hrun

theorem FixedQueue.queue_construct_valid {T : Type} (capacity : Nat) (h : capacity < SIZE_MOD) :
    (FixedQueue.construct capacity : FixedQueue T).Valid := by
  simp [FixedQueue.Valid, FixedQueue.construct, h]

theorem FixedQueue.PushBack_spec {T : Type} (s : FixedQueue T) (v : T) (hv : s.Valid)
    (hlt : s.mSize < s.mCapacity) :
    ∃ s1, s.PushBack v = .ok s1 ∧ s1.Valid ∧ s1.mSize = s.mSize + 1 ∧
      s1.mCapacity = s.mCapacity ∧ s1.contents = s.contents ++ [some v] := by
  obtain ⟨hlen, hle, hcap⟩ := hv
  have hfull : s.IsFull = false := by
    simp [FixedQueue.IsFull]
    omega
  have hidx : s.mSize < s.mBuffer.length := by omega
  have hadd : addSz s.mSize 1 = s.mSize + 1 := addSz_of_lt (by omega)
  refine ⟨{ s with mBuffer := s.mBuffer.set s.mSize (some v), mSize := s.mSize + 1 },
    ?_, ?_, rfl, rfl, ?_⟩
  · unfold FixedQueue.PushBack
    rw [if_pos hfull, writeCell_of_lt _ hidx, hadd]
  · refine ⟨?_, ?_, hcap⟩
    · simp [hlen]
    · show s.mSize + 1 ≤ s.mCapacity
      omega
  · exact take_succ_set s.mBuffer s.mSize (some v) hidx

theorem FixedQueue.queue_pushAll_spec {T : Type} (xs : List T) :
    ∀ s : FixedQueue T, s.Valid → s.mSize + xs.length ≤ s.mCapacity →
      ∃ s1, s.pushAll xs = .ok s1 ∧ s1.Valid ∧ s1.mSize = s.mSize + xs.length ∧
        s1.mCapacity = s.mCapacity ∧ s1.contents = s.contents ++ xs.map some := by
  induction xs with
  | nil =>
    intro s hv _
    exact ⟨s, rfl, hv, rfl, rfl, by simp⟩
  | cons x rest ih =>
    intro s hv hle
    have hle1 : s.mSize + (rest.length + 1) ≤ s.mCapacity := by simpa using hle
    obtain ⟨s1, hpush, hv1, hsize1, hcap1, hc1⟩ := FixedQueue.PushBack_spec s x hv (by omega)
    obtain ⟨s2, hrun, hv2, hsize2, hcap2, hc2⟩ := ih s1 hv1 (by omega)
    refine ⟨s2, ?_, hv2, ?_, by omega, ?_⟩
    · simp only [FixedQueue.pushAll, hpush]
      exact hrun
    · simp only [List.length_cons]
      omega
    · rw [hc2, hc1]
      simp

/-- On a queue that is not full and not empty, `Front()` is the first element and
`PopFront()` returns, keeps the other elements in their order and decreases the size
by 1. -/
theorem FixedQueue.PopFront_spec {T : Type} (s : FixedQueue T) (x : Option T)
    (c : List (Option T)) (hv : s.Valid) (hlt : s.mSize < s.mCapacity)
    (hc : s.contents = x :: c) :
    s.Front = .ok x ∧
    ∃ s1, s.PopFront = .ok s1 ∧ s1.Valid ∧ s1.mSize = s.mSize - 1 ∧
      s1.mCapacity = s.mCapacity ∧ s1.contents = c := by
  obtain ⟨hlen, hle, hcap⟩ := hv
  have hpos : 0 < s.mSize := by
    by_contra h0
    have h00 : s.mSize = 0 := by omega
    simp [FixedQueue.contents, h00] at hc
  have h0 : 0 < s.mBuffer.length := by omega
  have hfront : s.mBuffer.get ⟨0, h0⟩ = x := by
    have h1 := congrArg (fun l => l[0]?) hc
    simp only [FixedQueue.contents, List.getElem?_take, if_pos hpos,
      List.getElem?_cons_zero] at h1
    rw [List.getElem?_eq_getElem h0] at h1
    exact Option.some.inj h1
  have hempty : s.IsEmpty = false := by
    simp [FixedQueue.IsEmpty]
    omega
  have hsub : subSz s.mSize 1 = s.mSize - 1 := by
    unfold subSz
    rw [SIZE_MOD_eq] at *
    omega
  refine ⟨?_, ?_⟩
  · unfold FixedQueue.Front
    rw [if_pos hpos, readCell_of_lt h0, hfront]
  · obtain ⟨B1, hrun, hlen1, hfin⟩ :=
      shiftLeft_spec s.mBuffer s.mSize (by omega) s.mSize 0 s.mBuffer (by omega) rfl
        (fun j => by rw [if_neg (Nat.not_lt_zero j)])
    refine ⟨{ s with mBuffer := B1, mSize := s.mSize - 1 }, ?_, ?_, rfl, rfl, ?_⟩
    · unfold FixedQueue.PopFront
      rw [if_pos hempty, hrun, hsub]
    · exact ⟨hlen1.trans hlen, by show s.mSize - 1 ≤ s.mCapacity; omega, hcap⟩
    · have htail : c = s.contents.tail := by rw [hc]; rfl
      rw [htail]
      apply List.ext_getElem?
      intro j
      show (B1.take (s.mSize - 1))[j]? = (s.mBuffer.take s.mSize).tail[j]?
      rw [List.getElem?_tail, List.getElem?_take, List.getElem?_take, hfin j]
      by_cases hj : j < s.mSize - 1
      · rw [if_pos hj, if_pos (by omega), if_pos (by omega)]
      · rw [if_neg hj, if_neg (by omega)]

theorem FixedQueue.queue_drain_spec {T : Type} (n : Nat) :
    ∀ (s : FixedQueue T) (ys c : List (Option T)), s.Valid → s.mSize < s.mCapacity →
      ys.length = n → s.contents = ys ++ c →
      ∃ s1, s.drain n = .ok (ys, s1) ∧ s1.contents = c ∧
        s1.mSize = s.mSize - n ∧ s1.mCapacity = s.mCapacity := by
  induction n with
  | zero =>
    intro s ys c hv _ hlen hc
    have : ys = [] := List.length_eq_zero.mp hlen
    subst this
    exact ⟨s, rfl, by simpa using hc, rfl, rfl⟩
  | succ m ih =>
    intro s ys c hv hlt hlen hc
    cases ys with
    | nil => simp at hlen
    | cons y ys1 =>
      have hlen1 : ys1.length = m := by simpa using hlen
      obtain ⟨hfront, s1, hpop, hv1, hs1, hcap1, hc1⟩ :=
        FixedQueue.PopFront_spec s y (ys1 ++ c) hv hlt (by simpa using hc)
      obtain ⟨s2, hrun, hc2, hs2, hcap2⟩ := ih s1 ys1 c hv1 (by omega) hlen1 hc1
      refine ⟨s2, ?_, hc2, by omega, by omega⟩
      simp only [FixedQueue.drain, hfront, hpop, hrun]

/-- FIFO below the capacity: on an empty queue, for fewer values than the capacity,
`PushBack` of `xs` followed by `xs.length` rounds of `Front()` and `PopFront()` returns,
yields `xs` in their order and leaves the queue empty. -/
theorem FixedQueue.fifo_below_capacity {T : Type} (s : FixedQueue T) (hv : s.Valid)
    (hempty : s.mSize = 0) (xs : List T) (hlen : xs.length < s.mCapacity) :
    ∃ s1 s2, s.pushAll xs = .ok s1 ∧ s1.drain xs.length = .ok (xs.map some, s2) ∧
      s2.Size = 0 := by
  obtain ⟨s1, hrun, hv1, hsize1, hcap1, hc1⟩ := FixedQueue.queue_pushAll_spec xs s hv (by omega)
  have hc0 : s.contents = [] := by simp [FixedQueue.contents, hempty]
  obtain ⟨s2, hdrain, _, hs2, _⟩ :=
    FixedQueue.queue_drain_spec xs.length s1 (xs.map some) [] hv1 (by omega) (by simp)
      (by rw [hc1, hc0]; simp)
  refine ⟨s1, s2, hrun, hdrain, ?_⟩
  show s2.mSize = 0
  omega

/-- C28, failing input: a queue of capacity 2 is filled with `PushBack(1)`,
`PushBack(2)` (`n = 2 = Capacity()`); `Front()` reads 1, but `PopFront()` reads
`mBuffer[2]`, outside the two cells of the buffer, so neither it nor the reading of the
two values returns. -/
theorem C28_pop_front_on_full_queue_reads_past_buffer :
    FixedQueue.pushAll (FixedQueue.construct 2 : FixedQueue Int) [1, 2] =
      .ok { mBuffer := [some 1, some 2], mCapacity := 2, mSize := 2 } ∧
    FixedQueue.Front ({ mBuffer := [some 1, some 2], mCapacity := 2, mSize := 2 }
      : FixedQueue Int) = .ok (some 1) ∧
    FixedQueue.PopFront ({ mBuffer := [some 1, some 2], mCapacity := 2, mSize := 2 }
      : FixedQueue Int) = .error .outOfBounds ∧
    FixedQueue.drain ({ mBuffer := [some 1, some 2], mCapacity := 2, mSize := 2 }
      : FixedQueue Int) 2 = .error .outOfBounds := by
  decide

/-! ## BinarySearch -/

theorem BinarySearch_loop_14 (fuel : Nat) :
    BinarySearch fuel [-2, -1, 0, 3, 4, 14] 14 2 5 = none := by
  induction fuel with
  | zero => rfl
  | succ n ih =>
    have hstep : BinarySearch (n + 1) [-2, -1, 0, 3, 4, 14] 14 2 5
        = BinarySearch n [-2, -1, 0, 3, 4, 14] 14 2 5 := rfl
    rw [hstep, ih]

/-- C23, failing input: in the sorted vector `-2, -1, 0, 3, 4, 14` of the test the
search for 14 with `startIdx = 0`, `endIdx = 5` visits `halfIdx = 3`, then `(3, 5)` with
`halfIdx = 1`, then `(1, 5)` with `halfIdx = 2`, then `(2, 5)` with `halfIdx = 2`, which
calls itself with the same arguments: no depth of recursion is enough for a result.
The search for -1 of the test does return index 1. -/
theorem C23_binary_search_never_returns :
    (∀ fuel, BinarySearch fuel [-2, -1, 0, 3, 4, 14] 14 0 5 = none) ∧
    BinarySearch 3 [-2, -1, 0, 3, 4, 14] (-1) 0 5 = some (.ok 1) := by
  refine ⟨?_, by decide⟩
  intro fuel
  cases fuel with
  | zero => rfl
  | succ f1 =>
    have h1 : BinarySearch (f1 + 1) [-2, -1, 0, 3, 4, 14] 14 0 5
        = BinarySearch f1 [-2, -1, 0, 3, 4, 14] 14 3 5 := rfl
    rw [h1]
    cases f1 with
    | zero => rfl
    | succ f2 =>
      have h2 : BinarySearch (f2 + 1) [-2, -1, 0, 3, 4, 14] 14 3 5
          = BinarySearch f2 [-2, -1, 0, 3, 4, 14] 14 1 5 := rfl
      rw [h2]
      cases f2 with
      | zero => rfl
      | succ f3 =>
        have h3 : BinarySearch (f3 + 1) [-2, -1, 0, 3, 4, 14] 14 1 5
            = BinarySearch f3 [-2, -1, 0, 3, 4, 14] 14 2 5 := rfl
        rw [h3]
        exact BinarySearch_loop_14 f3

/-! ## InsertionSort -/

theorem Vector.SetAt_of_lt {vec : List Int} {index : Nat} (val : Int)
    (h : index < vec.length) : Vector.SetAt vec index val = .ok (vec.set index val) := by
  unfold Vector.SetAt
  rw [if_pos h]

theorem set_getD_self (vec : List Int) (i : Nat) (h : i < vec.length) :
    vec.set i (vec.getD i 0) = vec := by
  induction vec generalizing i with
  | nil => simp at h
  | cons y ys ih =>
    cases i with
    | zero => simp
    | succ n =>
      have hn : n < ys.length := by simpa using h
      simp only [List.getD_cons_succ, List.set_cons_succ, ih n hn]

/-- One shift of the `while` loop, seen on the vector with `crr` written into the
hole: it exchanges the hole with its left neighbour. -/
theorem shift_eq_swap (vec : List Int) (j : Nat) (crr : Int) (hj : j + 1 < vec.length) :
    (vec.set (j + 1) (vec.getD j 0)).set j crr
      = swapElems (vec.set (j + 1) crr) j (j + 1) := by
  unfold swapElems
  rw [getD_set_eq vec (j + 1) (j + 1) crr hj, if_pos rfl,
    getD_set_eq vec (j + 1) j crr hj, if_neg (by omega)]
  rw [List.set_comm crr crr vec (by omega : j + 1 ≠ j), List.set_set,
    List.set_comm crr (vec.getD j 0) vec (by omega : j ≠ j + 1)]

/-- The `while` loop of `InsertionSort`, with the hole at `j`: the vector with `crr`
written into the final hole has the same elements and is in order up to index `i`. -/
theorem insertShift_spec (comp : Comparator) (crr : Int) (i n : Nat) (base : List Int)
    (hi : i < n) :
    ∀ (j : Nat) (vec : List Int), j ≤ i → vec.length = n →
      (vec.set j crr).Perm base →
      (∀ k l, k ≤ l → l ≤ i → k ≠ j → l ≠ j →
        comp.mayPrecede (vec.getD k 0) (vec.getD l 0)) →
      (∀ l, j < l → l ≤ i → comp.mayPrecede crr (vec.getD l 0)) →
      ∃ j1 vec1, insertShift comp crr j vec = .ok (j1, vec1) ∧ vec1.length = n ∧
        j1 < n ∧ (vec1.set j1 crr).Perm base ∧
        SortedBelow comp (vec1.set j1 crr) (i + 1) := by
  intro j
  induction j with
  | zero =>
    intro vec _ hlen hperm hsorted hafter
    refine ⟨0, vec, rfl, hlen, by omega, hperm, ?_⟩
    intro k l hkl hl
    rw [getD_set_eq vec 0 k crr (by omega), getD_set_eq vec 0 l crr (by omega)]
    by_cases hk0 : k = 0
    · by_cases hl0 : l = 0
      · rw [if_pos hk0, if_pos hl0]
        exact Comparator.mayPrecede_refl comp _
      · rw [if_pos hk0, if_neg hl0]
        exact hafter l (by omega) (by omega)
    · have hl0 : ¬ l = 0 := by omega
      rw [if_neg hk0, if_neg hl0]
      exact hsorted k l hkl (by omega) hk0 hl0
  | succ j ih =>
    intro vec hji hlen hperm hsorted hafter
    have hjl : j < vec.length := by omega
    have hj1l : j + 1 < vec.length := by omega
    by_cases hc : comp.call crr (vec.getD j 0) = true
    · have hlt := Comparator.mayPrecede_of_call comp hc
      have hget : ∀ k, (vec.set (j + 1) (vec.getD j 0)).getD k 0
          = if k = j + 1 then vec.getD j 0 else vec.getD k 0 :=
        fun k => getD_set_eq vec (j + 1) k _ hj1l
      obtain ⟨j1, vec1, hrun, hlen1, hj1, hperm1, hs1⟩ :=
        ih (vec.set (j + 1) (vec.getD j 0)) (by omega) (by simpa using hlen)
          (by
            rw [shift_eq_swap vec j crr hj1l]
            exact (swapElems_perm _ j (j + 1) (by simpa using hjl)
              (by simpa using hj1l)).trans hperm)
          (by
            intro k l hkl hl hkj hlj
            rw [hget k, hget l]
            by_cases hk1 : k = j + 1
            · by_cases hl1 : l = j + 1
              · rw [if_pos hk1, if_pos hl1]
                exact Comparator.mayPrecede_refl comp _
              · rw [if_pos hk1, if_neg hl1]
                exact hsorted j l (by omega) hl (by omega) hl1
            · by_cases hl1 : l = j + 1
              · rw [if_neg hk1, if_pos hl1]
                exact hsorted k j (by omega) (by omega) hk1 (by omega)
              · rw [if_neg hk1, if_neg hl1]
                exact hsorted k l hkl hl hk1 hl1)
          (by
            intro l hjl2 hl
            rw [hget l]
            by_cases hl1 : l = j + 1
            · rw [if_pos hl1]
              exact hlt
            · rw [if_neg hl1]
              exact hafter l (by omega) hl)
      refine ⟨j1, vec1, ?_, hlen1, hj1, hperm1, hs1⟩
      simp only [insertShift, Vector.At_of_lt hjl, hc, if_true,
        Vector.SetAt_of_lt _ hj1l]
      exact hrun
    · have hle : comp.mayPrecede (vec.getD j 0) crr := by
        show comp.call crr (vec.getD j 0) = false
        simpa using hc
      refine ⟨j + 1, vec, ?_, hlen, by omega, hperm, ?_⟩
      · simp only [insertShift, Vector.At_of_lt hjl, hc]
        rfl
      · intro k l hkl hl
        rw [getD_set_eq vec (j + 1) k crr hj1l, getD_set_eq vec (j + 1) l crr hj1l]
        by_cases hk1 : k = j + 1
        · by_cases hl1 : l = j + 1
          · rw [if_pos hk1, if_pos hl1]
            exact Comparator.mayPrecede_refl comp _
          · rw [if_pos hk1, if_neg hl1]
            exact hafter l (by omega) (by omega)
        · by_cases hl1 : l = j + 1
          · rw [if_neg hk1, if_pos hl1]
            exact Comparator.mayPrecede_trans comp
              (hsorted k j (by omega) (by omega) hk1 (by omega)) hle
          · rw [if_neg hk1, if_neg hl1]
            exact hsorted k l hkl (by omega) hk1 hl1

theorem forLoop_add {σ : Type} (body : Nat → σ → Except Fault σ) (a b : Nat) :
    ∀ (first : Nat) (st : σ),
      forLoop body first (a + b) st =
        match forLoop body first a st with
        | .error f => .error f
        | .ok st1 => forLoop body (first + a) b st1 := by
  induction a with
  | zero =>
    intro first st
    simp [forLoop]
  | succ n ih =>
    intro first st
    have h1 : n + 1 + b = (n + b) + 1 := by omega
    rw [h1]
    simp only [forLoop]
    cases hb : body first st with
    | error f => rfl
    | ok st1 =>
      simp only []
      rw [ih (first + 1) st1]
      have h2 : first + 1 + n = first + (n + 1) := by omega
      rw [h2]

/-- One pass of the `for` loop of `InsertionSort` together with `++i`: the pass puts
the elements up to index `i` in order and keeps the elements; the increment is defined
when `i + 1` is an `int`. -/
theorem insertionBody_spec (comp : Comparator) (i n : Nat) (v : List Int) (hi : i < n)
    (hlen : v.length = n) (hsorted : SortedBelow comp v i) :
    ∃ w, w.length = n ∧ w.Perm v ∧ SortedBelow comp w (i + 1) ∧
      insertionBody comp i v
        = if (i : Int) + 1 ≤ INT_MAX then .ok w else .error .signedOverflow := by
  have hil : i < v.length := by omega
  obtain ⟨j1, vec1, hrun, hlen1, hj1, hperm1, hs1⟩ :=
    insertShift_spec comp (v.getD i 0) i n v hi i v (Nat.le_refl i) hlen
      (by rw [set_getD_self v i hil])
      (fun k l hkl hl hk hlne => hsorted k l hkl (by omega))
      (fun l hl1 hl2 => absurd hl1 (by omega))
  refine ⟨vec1.set j1 (v.getD i 0), by simpa using hlen1, hperm1, hs1, ?_⟩
  have hj1l : j1 < vec1.length := by omega
  have hmin : INT_MIN ≤ (i : Int) + 1 := by
    unfold INT_MIN
    omega
  unfold insertionBody
  by_cases hmax : (i : Int) + 1 ≤ INT_MAX
  · have hck : checkInt ((i : Int) + 1) = .ok ((i : Int) + 1) := by
      unfold checkInt
      rw [if_neg (not_or.mpr ⟨not_lt.mpr hmin, not_lt.mpr hmax⟩)]
    rw [hck, if_pos hmax, Vector.At_of_lt hil]
    dsimp only
    rw [hrun]
    dsimp only
    rw [Vector.SetAt_of_lt _ hj1l]
  · have hck : checkInt ((i : Int) + 1) = .error .signedOverflow := by
      unfold checkInt
      rw [if_pos (Or.inr (not_le.mp hmax))]
    rw [hck, if_neg hmax, Vector.At_of_lt hil]
    dsimp only
    rw [hrun]
    dsimp only
    rw [Vector.SetAt_of_lt _ hj1l]

/-- The `for` loop of `InsertionSort` while the index stays an `int`. -/
theorem insertionOuter_spec (comp : Comparator) (n : Nat) :
    ∀ (count i : Nat) (v : List Int), i + count ≤ n → ((i + count : Nat) : Int) ≤ INT_MAX →
      v.length = n → SortedBelow comp v i →
      ∃ w, forLoop (insertionBody comp) i count v = .ok w ∧ w.length = n ∧ w.Perm v ∧
        SortedBelow comp w (i + count) := by
  intro count
  induction count with
  | zero =>
    intro i v _ _ hlen hsorted
    exact ⟨v, rfl, hlen, List.Perm.refl _, hsorted⟩
  | succ c ih =>
    intro i v hle hmax hlen hsorted
    obtain ⟨w1, hlen1, hperm1, hs1, hbody⟩ :=
      insertionBody_spec comp i n v (by omega) hlen hsorted
    have hmax1 : (i : Int) + 1 ≤ INT_MAX := by
      have : ((i + (c + 1) : Nat) : Int) = (i : Int) + 1 + c := by push_cast; ring
      rw [this] at hmax
      omega
    rw [if_pos hmax1] at hbody
    obtain ⟨w, hrun, hwlen, hperm, hws⟩ :=
      ih (i + 1) w1 (by omega) (by
        have : i + 1 + c = i + (c + 1) := by omega
        rw [this]
        exact hmax) hlen1 hs1
    have hidx : i + 1 + c = i + (c + 1) := by omega
    rw [hidx] at hws
    refine ⟨w, ?_, hwlen, hperm.trans hperm1, hws⟩
    simp only [forLoop, hbody]
    exact hrun

/-- For vectors of at most `INT_MAX` elements (and at least 2) `InsertionSort` returns
a permutation of its input in which no adjacent pair `vec[k], vec[k+1]` has
`comp(vec[k+1], vec[k])`: non-decreasing for `Less`, non-increasing for `Greater`. -/
theorem InsertionSort_sorts_up_to_INT_MAX (vec : List Int) (comp : Comparator)
    (hsize : 2 ≤ vec.length) (hmax : (vec.length : Int) ≤ INT_MAX) :
    ∃ out, InsertionSort vec comp = .ok out ∧ out.Perm vec ∧
      List.Chain' (fun a b => comp.call b a = false) out ∧
      (comp = .Less → out.Sorted (fun a b => a ≤ b)) ∧
      (comp = .Greater → out.Sorted (fun a b => a ≥ b)) := by
  obtain ⟨out, hrun, hlen, hperm, hsorted⟩ :=
    insertionOuter_spec comp vec.length vec.length 0 vec (by omega)
      (by rw [Nat.zero_add]; exact hmax) rfl
      (fun k l _ hl => absurd hl (Nat.not_lt_zero l))
  rw [Nat.zero_add] at hsorted
  refine ⟨out, ?_, hperm, sorted_forms (SortedBelow.pairwise (hlen ▸ hsorted))⟩
  unfold InsertionSort
  rw [if_pos hsize]
  exact hrun

/-- On a vector of more than `INT_MAX` elements the `int` index of `InsertionSort`
reaches `INT_MAX` and its increment overflows. -/
theorem InsertionSort_overflow (vec : List Int) (comp : Comparator)
    (hbig : 2147483647 < vec.length) :
    InsertionSort vec comp = .error .signedOverflow := by
  obtain ⟨r, hr⟩ : ∃ r, vec.length = 2147483647 + (r + 1) := ⟨vec.length - 2147483648, by omega⟩
  obtain ⟨w, hrun, hlen, _, hsorted⟩ :=
    insertionOuter_spec comp vec.length 2147483647 0 vec (by omega)
      (by unfold INT_MAX; omega) rfl
      (fun k l _ hl => absurd hl (Nat.not_lt_zero l))
  rw [Nat.zero_add] at hsorted
  obtain ⟨w1, _, _, _, hbody⟩ :=
    insertionBody_spec comp 2147483647 vec.length w (by omega) hlen hsorted
  rw [if_neg (by unfold INT_MAX; omega)] at hbody
  unfold InsertionSort
  rw [if_pos (by omega)]
  have hsplit := forLoop_add (insertionBody comp) 2147483647 (r + 1) 0 vec
  rw [← hr, hrun, Nat.zero_add] at hsplit
  rw [hsplit]
  simp only [forLoop, hbody]

/-- C21, failing input: the vector of 2147483648 zeros followed by -1
(`Size() = INT_MAX + 2`) with `Less`. The vector is not in order (its last pair is
`0, -1`), and `InsertionSort` does not return with it sorted: the increment `++i` of its
`int` index at `i = INT_MAX` overflows. -/
theorem C21_insertion_sort_int_index_overflows :
    2 ≤ (List.replicate 2147483648 (0 : Int) ++ [-1]).length ∧
    InsertionSort (List.replicate 2147483648 (0 : Int) ++ [-1]) .Less
      = .error .signedOverflow ∧
    InsertionSort [-12, 4, 35, 19, -7] .Less = .ok [-12, -7, 4, 19, 35] ∧
    InsertionSort [-12, 4, 35, 19, -7] .Greater = .ok [35, 19, 4, -7, -12] := by
  have hlen : (List.replicate 2147483648 (0 : Int) ++ [-1]).length = 2147483649 := by
    rw [List.length_append, List.length_replicate]
    rfl
  refine ⟨by rw [hlen]; omega, ?_, by decide, by decide⟩
  exact InsertionSort_overflow _ _ (by rw [hlen]; omega)



/-! ## Lists with a default element -/

theorem getD_set_self {α : Type} (l : List α) (i : Nat) (a d : α) (h : i < l.length) :
    (l.set i a).getD i d = a := by
  rw [List.getD_eq_getElem _ _ (by simpa using h)]
  simp

theorem getD_set_ne {α : Type} (l : List α) (i k : Nat) (a d : α) (h : k ≠ i) :
    (l.set i a).getD k d = l.getD k d := by
  simp only [List.getD_eq_getElem?_getD]
  rw [List.getElem?_set_ne (fun e => h e.symm)]

theorem getD_append_left {α : Type} (l1 l2 : List α) (k : Nat) (d : α)
    (h : k < l1.length) : (l1 ++ l2).getD k d = l1.getD k d := by
  simp only [List.getD_eq_getElem?_getD]
  rw [List.getElem?_append_left h]

theorem getD_append_length {α : Type} (l : List α) (a d : α) :
    (l ++ [a]).getD l.length d = a := by
  simp [List.getD_eq_getElem?_getD]

theorem getD_of_length_le {α : Type} (l : List α) (k : Nat) (d : α) (h : l.length ≤ k) :
    l.getD k d = d := by
  simp only [List.getD_eq_getElem?_getD]
  rw [List.getElem?_eq_none h]
  rfl

/-! ## QuickSort -/

theorem checkInt_of_range {x : Int} (h1 : INT_MIN ≤ x) (h2 : x ≤ INT_MAX) :
    checkInt x = .ok x := by
  unfold checkInt
  rw [if_neg (not_or.mpr ⟨not_lt.mpr h1, not_lt.mpr h2⟩)]

theorem intToSize_natCast (k : Nat) (h : k < SIZE_MOD) : intToSize (k : Int) = k := by
  unfold intToSize
  rw [Int.emod_eq_of_lt (by positivity) (by exact_mod_cast h)]
  simp

theorem sizeToInt_natCast (k : Nat) (h : k ≤ 2147483647) : sizeToInt k = (k : Int) := by
  have hmod : k % 4294967296 = k := Nat.mod_eq_of_lt (by omega)
  unfold sizeToInt
  rw [hmod, if_pos (by omega)]

theorem swapElems_self (vec : List Int) (j : Nat) (hj : j < vec.length) :
    swapElems vec j j = vec := by
  unfold swapElems
  rw [set_getD_self vec j hj, set_getD_self vec j hj]

/-- One iteration of the loop of `Partition` with `i = p - 1` and `p ≤ j < Size()`,
`j ≤ INT_MAX`. -/
theorem partitionBody_eq (comp : Comparator) (pivot : Int) (p j : Nat) (v : List Int)
    (hpj : p ≤ j) (hj : j < v.length) (hmax : j ≤ 2147483647) :
    partitionBody comp pivot j ((p : Int) - 1, v)
      = .ok (if comp.call (v.getD j 0) pivot = true then ((p : Int), swapElems v p j)
          else ((p : Int) - 1, v)) := by
  have hle : (p : Int) ≤ INT_MAX := by
    unfold INT_MAX
    omega
  have hmin : INT_MIN ≤ (p : Int) := by
    unfold INT_MIN
    omega
  have he : (p : Int) - 1 + 1 = (p : Int) := by omega
  have hpl : p < v.length := by omega
  have hps : p < SIZE_MOD := by
    rw [SIZE_MOD_eq]
    omega
  unfold partitionBody
  simp only [Vector.At_of_lt hj, he, checkInt_of_range hmin hle, intToSize_natCast p hps]
  by_cases hc : comp.call (v.getD j 0) pivot = true
  · rw [if_pos hc, if_pos hc]
    by_cases hpj2 : p = j
    · rw [if_neg (by simpa using hpj2)]
      subst hpj2
      rw [swapElems_self v p hj]
    · rw [if_pos hpj2, Vector.SwapAt_of_lt hpl hj]
  · rw [if_neg hc, if_neg hc]


/-- An iteration of the loop of `Partition` keeps the loop state described by
`PartitionInv`. -/
theorem PartitionInv.step {comp : Comparator} {pivot : Int} {v0 : List Int}
    {lo hi p j : Nat} {v : List Int} (h : PartitionInv comp pivot v0 lo hi p j v)
    (hj : j < hi) (hhi : hi < v0.length) :
    (comp.call (v.getD j 0) pivot = true →
      PartitionInv comp pivot v0 lo hi (p + 1) (j + 1) (swapElems v p j)) ∧
    (comp.call (v.getD j 0) pivot = false →
      PartitionInv comp pivot v0 lo hi p (j + 1) v) := by
  have hlen := h.length_eq
  have hple := h.p_le
  have hlo := h.lo_le
  have hpl : p < v.length := by omega
  have hjl : j < v.length := by omega
  have hget : ∀ k, (swapElems v p j).getD k 0 =
      if k = j then v.getD p 0 else if k = p then v.getD j 0 else v.getD k 0 :=
    fun k => swapElems_getD v p j k hpl hjl
  constructor
  · intro hc
    refine ⟨by omega, by omega, by rw [swapElems_length, hlen],
      (swapElems_perm v p j hpl hjl).trans h.perm, ?_, ?_, ?_, ?_, ?_⟩
    · have h1 : ¬ hi = j := by omega
      have h2 : ¬ hi = p := by omega
      rw [hget hi, if_neg h1, if_neg h2]
      exact h.pivot_eq
    · intro k hk1 hk2
      rw [hget k]
      by_cases hkp : k = p
      · by_cases hkj : k = j
        · rw [if_pos hkj]
          have hpj : p = j := by omega
          rw [hpj]
          exact hc
        · rw [if_neg hkj, if_pos hkp]
          exact hc
      · have hkj : ¬ k = j := by omega
        rw [if_neg hkj, if_neg hkp]
        exact h.left k hk1 (by omega)
    · intro k hk1 hk2
      rw [hget k]
      have hkp : ¬ k = p := by omega
      by_cases hkj : k = j
      · rw [if_pos hkj]
        exact h.right p (Nat.le_refl p) (by omega)
      · rw [if_neg hkj, if_neg hkp]
        exact h.right k (by omega) (by omega)
    · intro k hk
      have hkj : ¬ k = j := by omega
      have hkp : ¬ k = p := by omega
      rw [hget k, if_neg hkj, if_neg hkp]
      exact h.outside k hk
    · intro k hk1 hk2
      rw [hget k]
      by_cases hkj : k = j
      · rw [if_pos hkj]
        exact h.from_segment p hlo (by omega)
      · by_cases hkp : k = p
        · rw [if_neg hkj, if_pos hkp]
          exact h.from_segment j (by omega) (by omega)
        · rw [if_neg hkj, if_neg hkp]
          exact h.from_segment k hk1 hk2
  · intro hc
    refine ⟨hlo, by omega, hlen, h.perm, h.pivot_eq, h.left, ?_, h.outside, h.from_segment⟩
    intro k hk1 hk2
    by_cases hkj : k = j
    · rw [hkj]
      exact hc
    · exact h.right k hk1 (by omega)

/-- The loop of `Partition` on a segment `lo .. hi` with `1 ≤ hi < Size()` and
`hi ≤ INT_MAX` ends after `hi - j` iterations in a state described by `PartitionInv` at
`j = hi`. -/
theorem partitionLoop_spec (comp : Comparator) (pivot : Int) (v0 : List Int) (lo hi : Nat)
    (hhi : hi < v0.length) (hmax : hi ≤ 2147483647) (hpos : 1 ≤ hi) :
    ∀ (m fuel j p : Nat) (v : List Int), j + m = hi → m + 1 ≤ fuel →
      PartitionInv comp pivot v0 lo hi p j v →
      ∃ (p2 : Nat) (v2 : List Int),
        partitionLoop comp pivot (hi : Int) fuel j ((p : Int) - 1, v)
          = some (.ok ((p2 : Int) - 1, v2)) ∧
        PartitionInv comp pivot v0 lo hi p2 hi v2 := by
  have hck : checkInt ((hi : Int) - 1) = .ok (((hi - 1 : Nat) : Int)) := by
    have he : (hi : Int) - 1 = ((hi - 1 : Nat) : Int) := by omega
    rw [he]
    exact checkInt_of_range (by unfold INT_MIN; omega) (by unfold INT_MAX; omega)
  have hsz : intToSize (((hi - 1 : Nat) : Int)) = hi - 1 :=
    intToSize_natCast _ (by
      rw [SIZE_MOD_eq]
      omega)
  intro m
  induction m with
  | zero =>
    intro fuel j p v hjm hfuel hinv
    obtain ⟨f, rfl⟩ : ∃ f, fuel = f + 1 := ⟨fuel - 1, by omega⟩
    have hjhi : j = hi := by omega
    subst hjhi
    refine ⟨p, v, ?_, hinv⟩
    simp only [partitionLoop, hck, hsz]
    rw [if_neg (by omega)]
  | succ m ih =>
    intro fuel j p v hjm hfuel hinv
    obtain ⟨f, rfl⟩ : ∃ f, fuel = f + 1 := ⟨fuel - 1, by omega⟩
    have hj : j < hi := by omega
    have hjl : j < v.length := by
      rw [hinv.length_eq]
      omega
    have hvmax : j ≤ 2147483647 := by omega
    have hadd : addSz j 1 = j + 1 :=
      addSz_of_lt (by
        rw [SIZE_MOD_eq]
        omega)
    have hstep := hinv.step hj hhi
    by_cases hc : comp.call (v.getD j 0) pivot = true
    · obtain ⟨p2, v2, hrun, hinv2⟩ :=
        ih f (j + 1) (p + 1) (swapElems v p j) (by omega) (by omega) (hstep.1 hc)
      refine ⟨p2, v2, ?_, hinv2⟩
      have hcast : ((p + 1 : Nat) : Int) - 1 = (p : Int) := by omega
      rw [hcast] at hrun
      simp only [partitionLoop, hck, hsz]
      rw [if_pos (by omega), partitionBody_eq comp pivot p j v hinv.p_le hjl hvmax, if_pos hc,
        hadd]
      exact hrun
    · have hcf : comp.call (v.getD j 0) pivot = false := by simpa using hc
      obtain ⟨p2, v2, hrun, hinv2⟩ :=
        ih f (j + 1) p v (by omega) (by omega) (hstep.2 hcf)
      refine ⟨p2, v2, ?_, hinv2⟩
      simp only [partitionLoop, hck, hsz]
      rw [if_pos (by omega), partitionBody_eq comp pivot p j v hinv.p_le hjl hvmax, if_neg hc,
        hadd]
      exact hrun


/-- `Partition` on a segment `lo .. hi` with `lo < hi < Size()` and `hi ≤ INT_MAX`
returns an index `p` of the segment: the elements before `p` satisfy `comp(x, vec[p])`,
those after `p` do not, and only the segment has been rearranged. -/
theorem Partition_spec (comp : Comparator) (v : List Int) (lo hi fuel : Nat) (hlo : lo < hi)
    (hhi : hi < v.length) (hmax : hi ≤ 2147483647) (hfuel : hi - lo + 1 ≤ fuel) :
    ∃ (p : Nat) (w : List Int),
      Partition fuel v (lo : Int) (hi : Int) comp = some (.ok (p, w)) ∧
      lo ≤ p ∧ p ≤ hi ∧ w.length = v.length ∧ w.Perm v ∧
      (∀ k, lo ≤ k → k < p → comp.call (w.getD k 0) (w.getD p 0) = true) ∧
      (∀ k, p < k → k ≤ hi → comp.call (w.getD k 0) (w.getD p 0) = false) ∧
      (∀ k, k < lo ∨ hi < k → w.getD k 0 = v.getD k 0) ∧
      (∀ k, lo ≤ k → k ≤ hi → ∃ k2, lo ≤ k2 ∧ k2 ≤ hi ∧ w.getD k 0 = v.getD k2 0) := by
  have hinit : PartitionInv comp (v.getD hi 0) v lo hi lo lo v :=
    ⟨Nat.le_refl lo, Nat.le_refl lo, rfl, List.Perm.refl v, rfl,
      fun k h1 h2 => absurd h1 (by omega), fun k h1 h2 => absurd h1 (by omega),
      fun _ _ => rfl, fun k h1 h2 => ⟨k, h1, h2, rfl⟩⟩
  obtain ⟨p, v2, hrun, hinv⟩ :=
    partitionLoop_spec comp (v.getD hi 0) v lo hi hhi hmax (by omega) (hi - lo) fuel lo lo v
      (by omega) hfuel hinit
  have hszhi : intToSize (hi : Int) = hi :=
    intToSize_natCast hi (by rw [SIZE_MOD_eq]; omega)
  have hszlo : intToSize (lo : Int) = lo :=
    intToSize_natCast lo (by rw [SIZE_MOD_eq]; omega)
  have hple := hinv.p_le
  have hszp : intToSize (p : Int) = p :=
    intToSize_natCast p (by rw [SIZE_MOD_eq]; omega)
  have hck0 : checkInt ((lo : Int) - 1) = .ok ((lo : Int) - 1) :=
    checkInt_of_range (by unfold INT_MIN; omega) (by unfold INT_MAX; omega)
  have hck1 : checkInt ((p : Int) - 1 + 1) = .ok (p : Int) := by
    have he : (p : Int) - 1 + 1 = (p : Int) := by omega
    rw [he]
    exact checkInt_of_range (by unfold INT_MIN; omega) (by unfold INT_MAX; omega)
  have hpl : p < v2.length := by
    rw [hinv.length_eq]
    omega
  have hhil : hi < v2.length := by
    rw [hinv.length_eq]
    exact hhi
  have hget : ∀ k, (swapElems v2 p hi).getD k 0 =
      if k = hi then v2.getD p 0 else if k = p then v2.getD hi 0 else v2.getD k 0 :=
    fun k => swapElems_getD v2 p hi k hpl hhil
  have hpivot : (swapElems v2 p hi).getD p 0 = v.getD hi 0 := by
    rw [hget p]
    by_cases hph : p = hi
    · rw [if_pos hph, hph]
      exact hinv.pivot_eq
    · rw [if_neg hph, if_pos rfl]
      exact hinv.pivot_eq
  refine ⟨p, swapElems v2 p hi, ?_, hinv.lo_le, hple,
    by rw [swapElems_length, hinv.length_eq],
    (swapElems_perm v2 p hi hpl hhil).trans hinv.perm, ?_, ?_, ?_, ?_⟩
  · unfold Partition
    simp only [hszhi, Vector.At_of_lt hhi, hck0, hszlo, hrun, hck1, hszp,
      Vector.SwapAt_of_lt hpl hhil]
  · intro k hk1 hk2
    have h1 : ¬ k = hi := by omega
    have h2 : ¬ k = p := by omega
    rw [hpivot, hget k, if_neg h1, if_neg h2]
    exact hinv.left k hk1 hk2
  · intro k hk1 hk2
    rw [hpivot, hget k]
    have h2 : ¬ k = p := by omega
    by_cases h1 : k = hi
    · rw [if_pos h1]
      exact hinv.right p (Nat.le_refl p) (by omega)
    · rw [if_neg h1, if_neg h2]
      exact hinv.right k (by omega) (by omega)
  · intro k hk
    have h1 : ¬ k = hi := by omega
    have h2 : ¬ k = p := by
      have := hinv.lo_le
      omega
    rw [hget k, if_neg h1, if_neg h2]
    exact hinv.outside k hk
  · intro k hk1 hk2
    rw [hget k]
    by_cases h1 : k = hi
    · rw [if_pos h1]
      exact hinv.from_segment p hinv.lo_le hple
    · by_cases h2 : k = p
      · rw [if_neg h1, if_pos h2]
        exact hinv.from_segment hi (by omega) (Nat.le_refl hi)
      · rw [if_neg h1, if_neg h2]
        exact hinv.from_segment k hk1 hk2


/-- `QuickSort` on a segment `lo .. e-1` of a vector of `n ≥ 2` elements, with
`e ≤ INT_MAX`: with a bound above the length of the segment the run returns; the result
is a permutation of the input, differs from it only inside the segment, and has the
segment in order. -/
theorem QuickSort_spec (comp : Comparator) (n : Nat) (hn : 2 ≤ n) :
    ∀ (fuel lo e : Nat) (v : List Int), lo ≤ e → e ≤ n → e ≤ 2147483647 → v.length = n →
      e - lo + 1 ≤ fuel →
      ∃ w, QuickSort fuel v (lo : Int) ((e : Int) - 1) comp = some (.ok w) ∧
        w.length = n ∧ w.Perm v ∧
        (∀ k, k < lo ∨ e ≤ k → w.getD k 0 = v.getD k 0) ∧
        (∀ k, lo ≤ k → k < e → ∃ k2, lo ≤ k2 ∧ k2 < e ∧ w.getD k 0 = v.getD k2 0) ∧
        (∀ k l, lo ≤ k → k ≤ l → l < e →
          comp.mayPrecede (w.getD k 0) (w.getD l 0)) := by
  intro fuel
  induction fuel with
  | zero =>
    intro lo e v _ _ _ _ hfuel
    omega
  | succ f ih =>
    intro lo e v hle hen hnN hlen hfuel
    have hlen2 : v.length ≥ 2 := by omega
    by_cases hseg : lo + 1 < e
    · have hlt : (lo : Int) < (e : Int) - 1 := by omega
      have hcast : ((e - 1 : Nat) : Int) = (e : Int) - 1 := by omega
      obtain ⟨p, w1, hpart, hp1, hp2, hl1, hperm1, hleft1, hright1, hout1, hseg1⟩ :=
        Partition_spec comp v lo (e - 1) f (by omega) (by omega) (by omega) (by omega)
      rw [hcast] at hpart
      have hpN : p ≤ 2147483647 := by omega
      have hck1 : checkInt ((p : Int) - 1) = .ok ((p : Int) - 1) :=
        checkInt_of_range (by unfold INT_MIN; omega) (by unfold INT_MAX; omega)
      have hck2 : checkInt ((p : Int) + 1) = .ok (((p + 1 : Nat) : Int)) := by
        have he : (p : Int) + 1 = ((p + 1 : Nat) : Int) := by omega
        rw [he]
        exact checkInt_of_range (by unfold INT_MIN; omega) (by unfold INT_MAX; omega)
      obtain ⟨w2, hrun2, hl2, hperm2, hout2, hseg2, hs2⟩ :=
        ih lo p w1 hp1 (by omega) (by omega) (by omega) (by omega)
      obtain ⟨w3, hrun3, hl3, hperm3, hout3, hseg3, hs3⟩ :=
        ih (p + 1) e w2 (by omega) hen hnN hl2 (by omega)
      have hB : w3.getD p 0 = w1.getD p 0 := by
        rw [hout3 p (Or.inl (by omega)), hout2 p (Or.inr (Nat.le_refl p))]
      have hA : ∀ k, lo ≤ k → k < p → comp.call (w3.getD k 0) (w1.getD p 0) = true := by
        intro k hk1 hk2
        obtain ⟨k2, hk3, hk4, hk5⟩ := hseg2 k hk1 hk2
        rw [hout3 k (Or.inl (by omega)), hk5]
        exact hleft1 k2 hk3 hk4
      have hC : ∀ k, p < k → k < e → comp.call (w3.getD k 0) (w1.getD p 0) = false := by
        intro k hk1 hk2
        obtain ⟨k2, hk3, hk4, hk5⟩ := hseg3 k (by omega) hk2
        rw [hk5, hout2 k2 (Or.inr (by omega))]
        exact hright1 k2 (by omega) (by omega)
      refine ⟨w3, ?_, hl3, hperm3.trans (hperm2.trans hperm1), ?_, ?_, ?_⟩
      · simp only [QuickSort, hlen2, hlt, if_true, hpart, sizeToInt_natCast p hpN, hck1, hrun2,
          hck2]
        exact hrun3
      · intro k hk
        rw [hout3 k (by omega), hout2 k (by omega), hout1 k (by omega)]
      · intro k hk1 hk2
        by_cases hkp : k < p
        · obtain ⟨k2, hk3, hk4, hk5⟩ := hseg2 k hk1 hkp
          obtain ⟨k3, hk6, hk7, hk8⟩ := hseg1 k2 hk3 (by omega)
          exact ⟨k3, hk6, by omega, by rw [hout3 k (Or.inl (by omega)), hk5, hk8]⟩
        · by_cases hkp2 : k = p
          · obtain ⟨k3, hk6, hk7, hk8⟩ := hseg1 p hp1 hp2
            exact ⟨k3, hk6, by omega, by rw [hkp2, hB, hk8]⟩
          · obtain ⟨k2, hk3, hk4, hk5⟩ := hseg3 k (by omega) hk2
            obtain ⟨k3, hk6, hk7, hk8⟩ := hseg1 k2 (by omega) (by omega)
            exact ⟨k3, hk6, by omega, by rw [hk5, hout2 k2 (Or.inr (by omega)), hk8]⟩
      · intro k l hk hkl hl
        by_cases hlp : l < p
        · rw [hout3 k (Or.inl (by omega)), hout3 l (Or.inl (by omega))]
          exact hs2 k l hk hkl hlp
        · by_cases hlp2 : l = p
          · by_cases hkp : k = p
            · rw [hkp, hlp2]
              exact Comparator.mayPrecede_refl comp _
            · rw [hlp2, hB]
              exact Comparator.mayPrecede_of_call comp (hA k hk (by omega))
          · have hCl := hC l (by omega) hl
            by_cases hkp : k < p
            · exact Comparator.mayPrecede_trans comp
                (Comparator.mayPrecede_of_call comp (hA k hk hkp)) hCl
            · by_cases hkp2 : k = p
              · rw [hkp2, hB]
                exact hCl
              · exact hs3 k l (by omega) hkl hl
    · refine ⟨v, ?_, hlen, List.Perm.refl v, fun _ _ => rfl,
        fun k h1 h2 => ⟨k, h1, h2, rfl⟩, ?_⟩
      · have hnlt : ¬ (lo : Int) < (e : Int) - 1 := by omega
        simp only [QuickSort, hlen2, hnlt, if_true, if_false]
      · intro k l hk hkl hl
        have hkl2 : k = l := by omega
        rw [hkl2]
        exact Comparator.mayPrecede_refl comp _


/-- The loop of `Partition` from `j` with `i = j - 1` when every element at `j .. hi-1`
satisfies `comp(x, pivot)`: `i` follows `j`, no element moves, and `i` ends at
`hi - 1`. -/
theorem partitionLoop_all_before (comp : Comparator) (pivot : Int) (v : List Int) (hi : Nat)
    (hhi : hi < v.length) (hmax : hi ≤ 2147483647) (hpos : 1 ≤ hi) :
    ∀ (m fuel j : Nat), j + m = hi → m + 1 ≤ fuel →
      (∀ k, j ≤ k → k < hi → comp.call (v.getD k 0) pivot = true) →
      partitionLoop comp pivot (hi : Int) fuel j ((j : Int) - 1, v)
        = some (.ok ((hi : Int) - 1, v)) := by
  have hck : checkInt ((hi : Int) - 1) = .ok (((hi - 1 : Nat) : Int)) := by
    have he : (hi : Int) - 1 = ((hi - 1 : Nat) : Int) := by omega
    rw [he]
    exact checkInt_of_range (by unfold INT_MIN; omega) (by unfold INT_MAX; omega)
  have hsz : intToSize (((hi - 1 : Nat) : Int)) = hi - 1 :=
    intToSize_natCast _ (by
      rw [SIZE_MOD_eq]
      omega)
  intro m
  induction m with
  | zero =>
    intro fuel j hjm hfuel _
    obtain ⟨f, rfl⟩ : ∃ f, fuel = f + 1 := ⟨fuel - 1, by omega⟩
    have hjhi : j = hi := by omega
    subst hjhi
    simp only [partitionLoop, hck, hsz]
    rw [if_neg (by omega)]
  | succ m ih =>
    intro fuel j hjm hfuel hall
    obtain ⟨f, rfl⟩ : ∃ f, fuel = f + 1 := ⟨fuel - 1, by omega⟩
    have hj : j < hi := by omega
    have hjl : j < v.length := by omega
    have hadd : addSz j 1 = j + 1 :=
      addSz_of_lt (by
        rw [SIZE_MOD_eq]
        omega)
    have hc := hall j (Nat.le_refl j) hj
    have hrun := ih f (j + 1) (by omega) (by omega) (fun k hk1 hk2 => hall k (by omega) hk2)
    have hcast : ((j + 1 : Nat) : Int) - 1 = (j : Int) := by omega
    rw [hcast] at hrun
    simp only [partitionLoop, hck, hsz]
    rw [if_pos (by omega), partitionBody_eq comp pivot j j v (Nat.le_refl j) hjl (by omega),
      if_pos hc, hadd, swapElems_self v j hjl]
    exact hrun

/-- `Partition` on a segment `lo .. hi` whose last element is a pivot that every other
element of the segment satisfies `comp(x, pivot)` with: the vector stays as it is and
the result is `hi`. -/
theorem Partition_all_before (comp : Comparator) (v : List Int) (lo hi fuel : Nat)
    (hlo : lo < hi) (hhi : hi < v.length) (hmax : hi ≤ 2147483647)
    (hfuel : hi - lo + 1 ≤ fuel)
    (hall : ∀ k, lo ≤ k → k < hi → comp.call (v.getD k 0) (v.getD hi 0) = true) :
    Partition fuel v (lo : Int) (hi : Int) comp = some (.ok (hi, v)) := by
  have hrun := partitionLoop_all_before comp (v.getD hi 0) v hi hhi hmax (by omega) (hi - lo)
    fuel lo (by omega) hfuel hall
  have hszhi : intToSize (hi : Int) = hi :=
    intToSize_natCast hi (by rw [SIZE_MOD_eq]; omega)
  have hszlo : intToSize (lo : Int) = lo :=
    intToSize_natCast lo (by rw [SIZE_MOD_eq]; omega)
  have hck0 : checkInt ((lo : Int) - 1) = .ok ((lo : Int) - 1) :=
    checkInt_of_range (by unfold INT_MIN; omega) (by unfold INT_MAX; omega)
  have hck1 : checkInt ((hi : Int) - 1 + 1) = .ok (hi : Int) := by
    have he : (hi : Int) - 1 + 1 = (hi : Int) := by omega
    rw [he]
    exact checkInt_of_range (by unfold INT_MIN; omega) (by unfold INT_MAX; omega)
  unfold Partition
  simp only [hszhi, Vector.At_of_lt hhi, hck0, hszlo, hrun, hck1,
    Vector.SwapAt_of_lt hhi hhi, swapElems_self v hi hhi]

/-- At `Size() = INT_MAX + 1` the argument `Size() - 1 = INT_MAX` still is an `int`, but
when the last element is a pivot that every other element satisfies `comp(x, pivot)`
with, `Partition` returns `INT_MAX`, and after the call for the part before it `pi + 1`
overflows. -/
theorem QuickSort_overflow_at_INT_MAX (comp : Comparator) (vec : List Int) (fuel : Nat)
    (hlen : vec.length = 2147483648) (hfuel : 2147483649 ≤ fuel)
    (hall : ∀ k, k < 2147483647 →
      comp.call (vec.getD k 0) (vec.getD 2147483647 0) = true) :
    QuickSort fuel vec 0 (sizeToInt (subSz vec.length 1)) comp
      = some (.error .signedOverflow) := by
  obtain ⟨f, rfl⟩ : ∃ f, fuel = f + 1 := ⟨fuel - 1, by omega⟩
  have hhigh : sizeToInt (subSz 2147483648 1) = 2147483647 := by decide
  have hpart := Partition_all_before comp vec 0 2147483647 f (by omega) (by omega)
    (Nat.le_refl _) (by omega) (fun k _ hk => hall k hk)
  obtain ⟨w2, hrun2, _⟩ :=
    QuickSort_spec comp 2147483648 (by omega) f 0 2147483647 vec (by omega) (by omega)
      (Nat.le_refl _) hlen (by omega)
  have hc0 : ((0 : Nat) : Int) = 0 := rfl
  have hc1 : ((2147483647 : Nat) : Int) = 2147483647 := rfl
  rw [hc0, hc1] at hpart hrun2
  have hsti : sizeToInt 2147483647 = 2147483647 := by decide
  have hck1 : checkInt (2147483647 - 1) = .ok (2147483647 - 1) := by decide
  have hck2 : checkInt (2147483647 + 1) = .error .signedOverflow := by decide
  have hlen2 : vec.length ≥ 2 := by omega
  have hlt : (0 : Int) < 2147483647 := by omega
  rw [hlen, hhigh]
  simp only [QuickSort, hlen2, hlt, if_true, hpart, hsti, hck1, hrun2, hck2]

/-- The vector of 2147483647 zeros followed by 1 (`Size() = INT_MAX + 1`) with `Less`:
`pi + 1` overflows. -/
theorem QuickSort_overflow_example (fuel : Nat) (hfuel : 2147483649 ≤ fuel) :
    QuickSort fuel (List.replicate 2147483647 (0 : Int) ++ [1]) 0
        (sizeToInt (subSz (List.replicate 2147483647 (0 : Int) ++ [1]).length 1)) .Less
      = some (.error .signedOverflow) := by
  have hlen : (List.replicate 2147483647 (0 : Int) ++ [1]).length = 2147483648 := by
    rw [List.length_append, List.length_replicate]
    rfl
  have hlast : (List.replicate 2147483647 (0 : Int) ++ [1]).getD 2147483647 0 = 1 := by
    have := getD_append_length (List.replicate 2147483647 (0 : Int)) 1 0
    rw [List.length_replicate] at this
    exact this
  refine QuickSort_overflow_at_INT_MAX .Less _ fuel hlen hfuel ?_
  intro k hk
  rw [hlast, getD_append_left _ _ k 0 (by rw [List.length_replicate]; exact hk),
    List.getD_eq_getElem?_getD, List.getElem?_replicate, if_pos hk]
  rfl

/-- A call of `QuickSort` with `low ≥ high` returns with the vector unchanged. -/
theorem QuickSort_of_not_lt (fuel : Nat) (vec : List Int) (low high : Int) (comp : Comparator)
    (h1 : vec.length ≥ 2) (h2 : ¬ low < high) :
    QuickSort (fuel + 1) vec low high comp = some (.ok vec) := by
  simp only [QuickSort, h1, h2, if_true, if_false]

/-- C22, counterexample: the vector `1, 0, 0, ..., 0` with `2147483649 = INT_MAX + 2`
elements and `Less`. The argument `vec.Size() - 1 = 2147483648` of the call
`QuickSort(vec, 0, vec.Size() - 1, comp)` does not fit the parameter `int high`; converted
to `int` it is `-2147483648`, `low < high` is false, and the call returns with the vector
unchanged, which is not in non-decreasing order. -/
theorem C22_quick_sort_beyond_int_leaves_unsorted :
    2 ≤ (1 :: List.replicate 2147483648 (0 : Int)).length ∧
    sizeToInt (subSz (1 :: List.replicate 2147483648 (0 : Int)).length 1) = -2147483648 ∧
    (∀ fuel : Nat,
      QuickSort (fuel + 1) (1 :: List.replicate 2147483648 (0 : Int)) 0
          (sizeToInt (subSz (1 :: List.replicate 2147483648 (0 : Int)).length 1)) .Less
        = some (.ok (1 :: List.replicate 2147483648 (0 : Int)))) ∧
    ¬ (1 :: List.replicate 2147483648 (0 : Int)).Sorted (fun a b => a ≤ b) := by
  have hlen : (1 :: List.replicate 2147483648 (0 : Int)).length = 2147483649 := by
    rw [List.length_cons, List.length_replicate]
  have hhigh : sizeToInt (subSz 2147483649 1) = -2147483648 := by decide
  refine ⟨by rw [hlen]; omega, by rw [hlen]; exact hhigh, ?_, ?_⟩
  · intro fuel
    rw [hlen, hhigh]
    exact QuickSort_of_not_lt fuel _ _ _ _ (by rw [hlen]; omega) (by omega)
  · intro hsorted
    have hsucc : (2147483648 : Nat) = 2147483647 + 1 := by norm_num
    rw [hsucc, List.replicate_succ] at hsorted
    have h := List.rel_of_sorted_cons hsorted 0 (List.mem_cons_self _ _)
    omega

/-- C22, amended: for every `Vector<int>` with `2 ≤ Size() ≤ INT_MAX` and every
comparator the call `QuickSort(vec, 0, vec.Size() - 1, comp)` returns (every bound above
`Size()` on the depth of the calls and on the iterations of each loop is enough) without
a failed assertion, so without an index outside `[0, Size())`, and leaves a permutation of
the input in which no adjacent pair `vec[k], vec[k+1]` has `comp(vec[k+1], vec[k])`:
non-decreasing for `Less`, non-increasing for `Greater`. -/
theorem C22_quick_sort_sorts_up_to_INT_MAX (vec : List Int) (comp : Comparator) (fuel : Nat)
    (hsize : 2 ≤ vec.length) (hmax : (vec.length : Int) ≤ INT_MAX)
    (hfuel : vec.length + 1 ≤ fuel) :
    ∃ out, QuickSort fuel vec 0 (sizeToInt (subSz vec.length 1)) comp = some (.ok out) ∧
      out.Perm vec ∧
      List.Chain' (fun a b => comp.call b a = false) out ∧
      (comp = .Less → out.Sorted (fun a b => a ≤ b)) ∧
      (comp = .Greater → out.Sorted (fun a b => a ≥ b)) := by
  have hN : vec.length ≤ 2147483647 := by
    unfold INT_MAX at hmax
    omega
  have hsub : subSz vec.length 1 = vec.length - 1 := by
    unfold subSz
    rw [SIZE_MOD_eq]
    omega
  have hhigh : sizeToInt (subSz vec.length 1) = (vec.length : Int) - 1 := by
    rw [hsub, sizeToInt_natCast _ (by omega)]
    omega
  obtain ⟨out, hrun, hlen, hperm, _, _, hsorted⟩ :=
    QuickSort_spec comp vec.length hsize fuel 0 vec.length vec (Nat.zero_le _)
      (Nat.le_refl _) hN rfl (by omega)
  rw [Nat.cast_zero] at hrun
  refine ⟨out, by rw [hhigh]; exact hrun, hperm, sorted_forms (SortedBelow.pairwise ?_)⟩
  intro k l hkl hl
  exact hsorted k l (Nat.zero_le k) hkl (by rw [← hlen]; exact hl)

/-- C22, the vector of the tests: `[-12, 4, 35, 19, -7]` is sorted by
`QuickSort(vec, 0, vec.Size() - 1, comp)` to `[-12, -7, 4, 19, 35]` with `Less` and to
`[35, 19, 4, -7, -12]` with `Greater`. -/
theorem C22_quick_sort_sorts_up_to_INT_MAX_witness :
    QuickSort 6 [-12, 4, 35, 19, -7] 0 (sizeToInt (subSz 5 1)) .Less
      = some (.ok [-12, -7, 4, 19, 35]) ∧
    QuickSort 6 [-12, 4, 35, 19, -7] 0 (sizeToInt (subSz 5 1)) .Greater
      = some (.ok [35, 19, 4, -7, -12]) ∧
    ∃ out, QuickSort 6 [-12, 4, 35, 19, -7] 0
        (sizeToInt (subSz ([-12, 4, 35, 19, -7] : List Int).length 1)) .Less
        = some (.ok out) ∧
      out.Perm [-12, 4, 35, 19, -7] ∧
      List.Chain' (fun a b => Comparator.Less.call b a = false) out ∧
      (Comparator.Less = .Less → out.Sorted (fun a b => a ≤ b)) ∧
      (Comparator.Less = .Greater → out.Sorted (fun a b => a ≥ b)) :=
  ⟨by decide, by decide,
    C22_quick_sort_sorts_up_to_INT_MAX [-12, 4, 35, 19, -7] .Less 6 (by decide) (by decide)
      (by decide)⟩


/-! ## RefCountedPtr -/

/-- C29, failing sequence: `RefCountedPtr<T> a(new T()); a.Reset(); RefCountedPtr<T> b(a);`
followed by the destructions of `b` and of `a`. `Reset()` leaves `a` with a counter that
the default constructor created with count 0, the copy raises it to 1, the destructor of
`b` lowers it to 0 and deletes it while `a` still points to it: `a.GetRefCount()` and the
destructor of `a` then use the deleted counter. The sequences of the tests give the
counts 1, then 2 and 2, then 3, 3 and 3. -/
theorem C29_counter_deleted_under_live_instance :
    refCounts [.declRaw, .reset 0, .declCopy 0]
      = .ok [some (.ok 1), some (.ok 1)] ∧
    refCounts [.declRaw, .reset 0, .declCopy 0, .destroy 1]
      = .ok [some (.error .useAfterFree), none] ∧
    PtrState.empty.run [.declRaw, .reset 0, .declCopy 0, .destroy 1, .destroy 0]
      = .error .useAfterFree ∧
    refCounts [.declRaw] = .ok [some (.ok 1)] ∧
    refCounts [.declRaw, .declCopy 0] = .ok [some (.ok 2), some (.ok 2)] ∧
    refCounts [.declRaw, .declCopy 0, .declDefault, .assign 2 0]
      = .ok [some (.ok 3), some (.ok 3), some (.ok 3)] := by
  refine ⟨by decide, by decide, by decide, by decide, by decide, by decide⟩


/-! ### Counts in the runs that use no deleted counter -/

theorem lt_length_of_getD_true (O : List Bool) (o : Nat) (h : O.getD o false = true) :
    o < O.length := by
  by_contra hge
  rw [getD_of_length_le O o false (by omega)] at h
  exact absurd h (by decide)

theorem sharing_cons (H : List RefCountedPtr) (x : RefCountedPtr) (o : Nat) :
    sharing (x :: H) o = sharing H o + (if x.mDataPtr = some o then 1 else 0) := by
  unfold sharing
  rw [List.countP_cons]
  simp

theorem sharing_le_length (H : List RefCountedPtr) (o : Nat) : sharing H o ≤ H.length :=
  List.countP_le_length _

theorem sharing_pos_iff (H : List RefCountedPtr) (o : Nat) :
    0 < sharing H o ↔ ∃ i ∈ H, i.mDataPtr = some o := by
  unfold sharing
  rw [List.countP_pos_iff]
  simp

theorem HeapInv.of_perm {C : List RefCounter} {O : List Bool} {H1 H2 : List RefCountedPtr}
    (h : HeapInv C O H1) (hp : H1.Perm H2) : HeapInv C O H2 := by
  have hs : ∀ o, sharing H2 o = sharing H1 o := fun o => (hp.countP_eq _).symm
  refine ⟨fun i hi => h.counter_lt i (hp.mem_iff.mpr hi),
    fun i hi => h.object_live i (hp.mem_iff.mpr hi),
    fun i hi o ho => by rw [hs o]; exact h.count_eq i (hp.mem_iff.mpr hi) o ho,
    fun i hi j hj => h.paired i (hp.mem_iff.mpr hi) j (hp.mem_iff.mpr hj),
    fun o ho => by rw [hs o]; exact h.held o ho⟩

theorem reduceOption_set_some (l : List (Option RefCountedPtr)) (v : Nat)
    (d t : RefCountedPtr) (h : l.getD v none = some d) :
    (d :: (l.set v (some t)).reduceOption).Perm (t :: l.reduceOption) := by
  induction l generalizing v with
  | nil => simp at h
  | cons x xs ih =>
    cases v with
    | zero =>
      have hx : x = some d := by simpa using h
      subst hx
      simp only [List.set_cons_zero, List.reduceOption_cons_of_some]
      exact List.Perm.swap t d _
    | succ n =>
      have hn : xs.getD n none = some d := by simpa using h
      have := ih n hn
      cases x with
      | none =>
        simp only [List.set_cons_succ, List.reduceOption_cons_of_none]
        exact this
      | some y =>
        simp only [List.set_cons_succ, List.reduceOption_cons_of_some]
        exact (List.Perm.swap y d _).trans ((this.cons y).trans (List.Perm.swap t y _))

theorem reduceOption_set_none (l : List (Option RefCountedPtr)) (v : Nat)
    (d : RefCountedPtr) (h : l.getD v none = some d) :
    l.reduceOption.Perm (d :: (l.set v none).reduceOption) := by
  induction l generalizing v with
  | nil => simp at h
  | cons x xs ih =>
    cases v with
    | zero =>
      have hx : x = some d := by simpa using h
      subst hx
      simp only [List.set_cons_zero, List.reduceOption_cons_of_some,
        List.reduceOption_cons_of_none]
      exact List.Perm.refl _
    | succ n =>
      have hn : xs.getD n none = some d := by simpa using h
      have := ih n hn
      cases x with
      | none =>
        simp only [List.set_cons_succ, List.reduceOption_cons_of_none]
        exact this
      | some y =>
        simp only [List.set_cons_succ, List.reduceOption_cons_of_some]
        exact (this.cons y).trans (List.Perm.swap d y _)

theorem mem_reduceOption_of_getD (l : List (Option RefCountedPtr)) (v : Nat)
    (d : RefCountedPtr) (h : l.getD v none = some d) : d ∈ l.reduceOption := by
  have := (reduceOption_set_none l v d h).mem_iff (a := d)
  exact this.mpr (List.mem_cons_self _ _)


/-- A copy of a holder `r` with the count of its counter raised by 1. -/
theorem HeapInv.add_holder {C : List RefCounter} {O : List Bool} {H : List RefCountedPtr}
    (h : HeapInv C O H) (r : RefCountedPtr) (hr : r ∈ H) (hlen : H.length + 1 < SIZE_MOD)
    (n : Nat) (hc : C.getD r.mRefCounterPtr ⟨0, false⟩ = ⟨n, true⟩) :
    HeapInv (C.set r.mRefCounterPtr ⟨addSz n 1, true⟩) O (r :: H) := by
  have hrlt := h.counter_lt r hr
  have hmem : ∀ i ∈ r :: H, i ∈ H := by
    intro i hi
    rcases List.mem_cons.mp hi with e | e
    · rw [e]
      exact hr
    · exact e
  refine ⟨fun i hi => by rw [List.length_set]; exact h.counter_lt i (hmem i hi),
    fun i hi => h.object_live i (hmem i hi), ?_,
    fun i hi j hj => h.paired i (hmem i hi) j (hmem j hj), ?_⟩
  · intro i hi o ho
    have hiH := hmem i hi
    rw [sharing_cons]
    by_cases hro : r.mDataPtr = some o
    · have hctr : r.mRefCounterPtr = i.mRefCounterPtr := (h.paired i hiH r hr o ho).mpr hro
      have hcnt := h.count_eq r hr o hro
      rw [hc] at hcnt
      have hn : n = sharing H o := by
        injection hcnt
      have hle := sharing_le_length H o
      rw [← hctr, getD_set_self _ _ _ _ hrlt, if_pos hro, addSz_of_lt (by omega), hn]
    · have hctr : i.mRefCounterPtr ≠ r.mRefCounterPtr :=
        fun e => hro ((h.paired i hiH r hr o ho).mp e.symm)
      rw [getD_set_ne _ _ _ _ _ hctr, if_neg hro, Nat.add_zero]
      exact h.count_eq i hiH o ho
  · intro o ho
    have := h.held o ho
    rw [sharing_cons]
    omega

/-- A new instance made from a new object: a new counter with count 1. -/
theorem HeapInv.add_raw {C : List RefCounter} {O : List Bool} {H : List RefCountedPtr}
    (h : HeapInv C O H) :
    HeapInv (C ++ [⟨1, true⟩]) (O ++ [true]) (⟨C.length, some O.length⟩ :: H) := by
  have hfresh : ∀ i ∈ H, i.mDataPtr ≠ some O.length := by
    intro i hi e
    have := lt_length_of_getD_true O O.length (h.object_live i hi _ e)
    omega
  have hzero : sharing H O.length = 0 := by
    by_contra hne
    obtain ⟨i, hi, e⟩ := (sharing_pos_iff H O.length).mp (by omega)
    exact hfresh i hi e
  have hlive : ∀ i ∈ H, ∀ o, i.mDataPtr = some o → o < O.length :=
    fun i hi o ho => lt_length_of_getD_true O o (h.object_live i hi o ho)
  refine ⟨?_, ?_, ?_, ?_, ?_⟩
  · intro i hi
    rw [List.length_append]
    rcases List.mem_cons.mp hi with e | e
    · rw [e]
      simp
    · have := h.counter_lt i e
      simp
      omega
  · intro i hi o ho
    rcases List.mem_cons.mp hi with e | e
    · rw [e] at ho
      have ho2 : O.length = o := by simpa using ho
      rw [← ho2]
      exact getD_append_length O true false
    · rw [getD_append_left O [true] o false (hlive i e o ho)]
      exact h.object_live i e o ho
  · intro i hi o ho
    rw [sharing_cons]
    rcases List.mem_cons.mp hi with e | e
    · rw [e] at ho ⊢
      have ho2 : O.length = o := by simpa using ho
      rw [← ho2, hzero]
      simp only [getD_append_length, if_true, Nat.zero_add]
    · have hne : ¬ (some O.length = some o) := by
        intro e2
        have := hlive i e o ho
        have : O.length = o := by simpa using e2
        omega
      rw [getD_append_left C _ _ _ (h.counter_lt i e)]
      simp only [hne, if_false, Nat.add_zero]
      exact h.count_eq i e o ho
  · intro i hi j hj o ho
    rcases List.mem_cons.mp hi with e | e
    · rw [e] at ho ⊢
      have ho2 : O.length = o := by simpa using ho
      rcases List.mem_cons.mp hj with e2 | e2
      · rw [e2]
        simp [ho2]
      · have h1 := h.counter_lt j e2
        have h2 := hfresh j e2
        rw [ho2] at h2
        constructor
        · intro e3
          simp only at e3
          omega
        · intro e3
          exact absurd e3 h2
    · rcases List.mem_cons.mp hj with e2 | e2
      · rw [e2]
        have h1 := h.counter_lt i e
        have h2 := hlive i e o ho
        constructor
        · intro e3
          simp only at e3
          omega
        · intro e3
          have : O.length = o := by simpa using e3
          omega
      · exact h.paired i e j e2 o ho
  · intro o ho
    rw [sharing_cons]
    by_cases hlt : o < O.length
    · rw [getD_append_left O [true] o false hlt] at ho
      have := h.held o ho
      omega
    · have ho2 : o = O.length := by
        have := lt_length_of_getD_true _ o ho
        simp at this
        omega
      rw [ho2]
      simp

/-- A new instance made by the default constructor: a new counter with count 0. -/
theorem HeapInv.add_default {C : List RefCounter} {O : List Bool} {H : List RefCountedPtr}
    (h : HeapInv C O H) (c : RefCounter) :
    HeapInv (C ++ [c]) O (⟨C.length, none⟩ :: H) := by
  refine ⟨?_, ?_, ?_, ?_, ?_⟩
  · intro i hi
    rw [List.length_append]
    rcases List.mem_cons.mp hi with e | e
    · rw [e]
      simp
    · have := h.counter_lt i e
      simp
      omega
  · intro i hi o ho
    rcases List.mem_cons.mp hi with e | e
    · rw [e] at ho
      exact absurd ho (by simp)
    · exact h.object_live i e o ho
  · intro i hi o ho
    rw [sharing_cons]
    rcases List.mem_cons.mp hi with e | e
    · rw [e] at ho
      exact absurd ho (by simp)
    · rw [getD_append_left C _ _ _ (h.counter_lt i e)]
      simp only [reduceCtorEq, if_false, Nat.add_zero]
      exact h.count_eq i e o ho
  · intro i hi j hj o ho
    rcases List.mem_cons.mp hi with e | e
    · rw [e] at ho
      exact absurd ho (by simp)
    · rcases List.mem_cons.mp hj with e2 | e2
      · rw [e2]
        have h1 := h.counter_lt i e
        constructor
        · intro e3
          simp only at e3
          omega
        · intro e3
          exact absurd e3 (by simp)
      · exact h.paired i e j e2 o ho
  · intro o ho
    have := h.held o ho
    rw [sharing_cons]
    omega


theorem counterAt_ok {s : PtrState} {p : Nat} {c : RefCounter}
    (h : s.counterAt p = .ok c) :
    s.counters.getD p ⟨0, false⟩ = c ∧ c.live = true := by
  unfold PtrState.counterAt at h
  generalize s.counters.getD p ⟨0, false⟩ = x at h ⊢
  obtain ⟨n, b⟩ := x
  cases b with
  | false => exact absurd h (by simp)
  | true =>
    have hc : (⟨n, true⟩ : RefCounter) = c := by simpa using h
    rw [← hc]
    exact ⟨rfl, rfl⟩

theorem counterAt_of_getD {s : PtrState} {p n : Nat}
    (h : s.counters.getD p ⟨0, false⟩ = ⟨n, true⟩) : s.counterAt p = .ok ⟨n, true⟩ := by
  unfold PtrState.counterAt
  rw [h]

theorem AddRefCount_ok {s s1 : PtrState} {p m : Nat} (h : AddRefCount s p = .ok (m, s1)) :
    ∃ n, s.counters.getD p ⟨0, false⟩ = ⟨n, true⟩ ∧
      s1 = { s with counters := s.counters.set p ⟨addSz n 1, true⟩ } := by
  unfold AddRefCount at h
  cases hc : s.counterAt p with
  | error f =>
    rw [hc] at h
    exact absurd h (by simp)
  | ok c =>
    rw [hc] at h
    obtain ⟨hget, hlive⟩ := counterAt_ok hc
    obtain ⟨n, b⟩ := c
    have hb : b = true := hlive
    subst hb
    have h2 : (addSz n 1, { s with counters := s.counters.set p ⟨addSz n 1, true⟩ })
        = (m, s1) := by simpa using h
    exact ⟨n, hget, (congrArg Prod.snd h2).symm⟩

theorem DecRefCount_ok {s s1 : PtrState} {p m : Nat} (h : DecRefCount s p = .ok (m, s1)) :
    ∃ n, s.counters.getD p ⟨0, false⟩ = ⟨n, true⟩ ∧ m = subSz n 1 ∧
      s1 = { s with counters := s.counters.set p ⟨subSz n 1, true⟩ } := by
  unfold DecRefCount at h
  cases hc : s.counterAt p with
  | error f =>
    rw [hc] at h
    exact absurd h (by simp)
  | ok c =>
    rw [hc] at h
    obtain ⟨hget, hlive⟩ := counterAt_ok hc
    obtain ⟨n, b⟩ := c
    have hb : b = true := hlive
    subst hb
    have h2 : (subSz n 1, { s with counters := s.counters.set p ⟨subSz n 1, true⟩ })
        = (m, s1) := by simpa using h
    exact ⟨n, hget, (congrArg Prod.fst h2).symm, (congrArg Prod.snd h2).symm⟩

theorem deleteObject_ok {s s1 : PtrState} {o : Nat} (h : deleteObject s o = .ok s1) :
    s.objects.getD o false = true ∧ s1 = { s with objects := s.objects.set o false } := by
  unfold deleteObject at h
  by_cases hb : s.objects.getD o false = true
  · rw [if_pos hb] at h
    exact ⟨hb, by simpa using h.symm⟩
  · rw [if_neg hb] at h
    exact absurd h (by simp)

theorem deleteCounter_ok {s s1 : PtrState} {p : Nat} (h : deleteCounter s p = .ok s1) :
    ∃ n, s.counters.getD p ⟨0, false⟩ = ⟨n, true⟩ ∧
      s1 = { s with counters := s.counters.set p ⟨n, false⟩ } := by
  unfold deleteCounter at h
  cases hc : s.counterAt p with
  | error f =>
    rw [hc] at h
    exact absurd h (by simp)
  | ok c =>
    rw [hc] at h
    obtain ⟨hget, hlive⟩ := counterAt_ok hc
    obtain ⟨n, b⟩ := c
    have hb : b = true := hlive
    subst hb
    exact ⟨n, hget, by simpa using h.symm⟩


/-- The end of a holder `d`: the heap stays consistent with the remaining holders when
only the counter of `d` and the object of `d` change, the counter of `d` shows the
remaining holders of its object, and the object is deleted exactly when none remains. -/
theorem HeapInv.remove_holder {C C1 : List RefCounter} {O O1 : List Bool}
    {H : List RefCountedPtr} {d : RefCountedPtr} (h : HeapInv C O (d :: H))
    (hL : C1.length = C.length)
    (hC : ∀ k, k ≠ d.mRefCounterPtr → C1.getD k ⟨0, false⟩ = C.getD k ⟨0, false⟩)
    (hcount : ∀ o, d.mDataPtr = some o → 0 < sharing H o →
      C1.getD d.mRefCounterPtr ⟨0, false⟩ = ⟨sharing H o, true⟩)
    (hO : ∀ k, d.mDataPtr ≠ some k ∨ 0 < sharing H k → O1.getD k false = O.getD k false)
    (hdel : ∀ o, d.mDataPtr = some o → sharing H o = 0 → O1.getD o false = false) :
    HeapInv C1 O1 H := by
  have hd : d ∈ d :: H := List.mem_cons_self _ _
  have hmem : ∀ i ∈ H, i ∈ d :: H := fun i hi => List.mem_cons_of_mem _ hi
  have hpos : ∀ i ∈ H, ∀ o, i.mDataPtr = some o → 0 < sharing H o :=
    fun i hi o ho => (sharing_pos_iff H o).mpr ⟨i, hi, ho⟩
  refine ⟨fun i hi => by rw [hL]; exact h.counter_lt i (hmem i hi), ?_, ?_,
    fun i hi j hj => h.paired i (hmem i hi) j (hmem j hj), ?_⟩
  · intro i hi o ho
    rw [hO o (Or.inr (hpos i hi o ho))]
    exact h.object_live i (hmem i hi) o ho
  · intro i hi o ho
    by_cases hdo : d.mDataPtr = some o
    · have hctr : i.mRefCounterPtr = d.mRefCounterPtr :=
        (h.paired d hd i (hmem i hi) o hdo).mpr ho
      rw [hctr]
      exact hcount o hdo (hpos i hi o ho)
    · have hctr : i.mRefCounterPtr ≠ d.mRefCounterPtr :=
        fun e => hdo ((h.paired i (hmem i hi) d hd o ho).mp e.symm)
      have := h.count_eq i (hmem i hi) o ho
      rw [sharing_cons, if_neg hdo, Nat.add_zero] at this
      rw [hC _ hctr]
      exact this
  · intro o ho
    by_contra hzero
    have hz : sharing H o = 0 := by omega
    by_cases hdo : d.mDataPtr = some o
    · rw [hdel o hdo hz] at ho
      exact absurd ho (by decide)
    · rw [hO o (Or.inl hdo)] at ho
      have := h.held o ho
      rw [sharing_cons, if_neg hdo] at this
      omega

theorem subSz_succ_one (k : Nat) (h : k + 1 < SIZE_MOD) : subSz (k + 1) 1 = k := by
  unfold subSz
  rw [SIZE_MOD_eq] at h ⊢
  omega

/-- `Release` of a holder `d` that returns leaves the heap consistent with the remaining
holders and does not touch the variables. -/
theorem Release_inv (s s1 : PtrState) (d : RefCountedPtr) (H : List RefCountedPtr)
    (h : HeapInv s.counters s.objects (d :: H)) (hlen : H.length + 1 < SIZE_MOD)
    (hrel : RefCountedPtr.Release s d = .ok s1) :
    HeapInv s1.counters s1.objects H ∧ s1.instances = s.instances := by
  have hd : d ∈ d :: H := List.mem_cons_self _ _
  have hdlt := h.counter_lt d hd
  unfold RefCountedPtr.Release at hrel
  cases hdec : DecRefCount s d.mRefCounterPtr with
  | error f =>
    rw [hdec] at hrel
    exact absurd hrel (by simp)
  | ok r =>
    obtain ⟨m, s2⟩ := r
    rw [hdec] at hrel
    obtain ⟨n, hget, hm, hs2⟩ := DecRefCount_ok hdec
    have hcnt : ∀ o, d.mDataPtr = some o → m = sharing H o := by
      intro o ho
      have := h.count_eq d hd o ho
      rw [hget, sharing_cons, if_pos ho] at this
      have hn : n = sharing H o + 1 := by
        injection this
      have hle := sharing_le_length H o
      rw [hm, hn]
      exact subSz_succ_one _ (by omega)
    by_cases hz : m = 0
    · simp only [hz, if_true] at hrel
      cases hdata : d.mDataPtr with
      | none =>
        rw [hdata] at hrel
        obtain ⟨n2, _, hs1⟩ := deleteCounter_ok hrel
        subst hs1
        subst hs2
        refine ⟨h.remove_holder (by simp) (fun k hk => ?_) (fun o ho => ?_) (fun k _ => rfl)
          (fun o ho => ?_), rfl⟩
        · simp only
          rw [getD_set_ne _ _ _ _ _ hk, getD_set_ne _ _ _ _ _ hk]
        · rw [hdata] at ho
          exact absurd ho (by simp)
        · rw [hdata] at ho
          exact absurd ho (by simp)
      | some o =>
        rw [hdata] at hrel
        dsimp only at hrel
        cases hdo : deleteObject s2 o with
        | error f =>
          rw [hdo] at hrel
          exact absurd hrel (by simp)
        | ok s3 =>
          rw [hdo] at hrel
          obtain ⟨hlive, hs3⟩ := deleteObject_ok hdo
          obtain ⟨n2, _, hs1⟩ := deleteCounter_ok hrel
          subst hs1
          subst hs3
          subst hs2
          have holt := lt_length_of_getD_true _ o (h.object_live d hd o hdata)
          have hsh0 : sharing H o = 0 := by
            rw [← hcnt o hdata]
            exact hz
          refine ⟨h.remove_holder (by simp) (fun k hk => ?_) (fun o2 ho2 hpos => ?_)
            (fun k hk => ?_) (fun o2 ho2 _ => ?_), rfl⟩
          · simp only
            rw [getD_set_ne _ _ _ _ _ hk, getD_set_ne _ _ _ _ _ hk]
          · have : o2 = o := by
              rw [hdata] at ho2
              simpa using ho2.symm
            rw [this] at hpos
            omega
          · have hko : k ≠ o := by
              intro e
              rw [e] at hk
              rcases hk with hk | hk
              · exact hk hdata
              · omega
            simp only
            rw [getD_set_ne _ _ _ _ _ hko]
          · have : o2 = o := by
              rw [hdata] at ho2
              simpa using ho2.symm
            rw [this]
            simp only
            exact getD_set_self _ _ _ _ holt
    · simp only [hz, if_false] at hrel
      have hs1 : s2 = s1 := by simpa using hrel
      subst hs1
      subst hs2
      refine ⟨h.remove_holder (by simp) (fun k hk => ?_) (fun o ho _ => ?_) (fun k _ => rfl)
        (fun o ho hzero => ?_), rfl⟩
      · simp only
        rw [getD_set_ne _ _ _ _ _ hk]
      · simp only
        rw [getD_set_self _ _ _ _ hdlt, ← hm, hcnt o ho]
      · rw [← hcnt o ho] at hzero
        exact absurd hzero hz


theorem set_append_length {α : Type} (l : List α) (a b : α) :
    (l ++ [a]).set l.length b = l ++ [b] := by
  induction l with
  | nil => rfl
  | cons x xs ih =>
    simp only [List.cons_append, List.length_cons, List.set_cons_succ, ih]

theorem Copy_inv (s s1 : PtrState) (r t : RefCountedPtr) (H : List RefCountedPtr)
    (h : HeapInv s.counters s.objects H) (hr : r ∈ H) (hlen : H.length + 1 < SIZE_MOD)
    (hcopy : RefCountedPtr.Copy s r = .ok (t, s1)) :
    t = r ∧ HeapInv s1.counters s1.objects (r :: H) ∧ s1.instances = s.instances := by
  unfold RefCountedPtr.Copy at hcopy
  cases hadd : AddRefCount s r.mRefCounterPtr with
  | error f =>
    rw [hadd] at hcopy
    exact absurd hcopy (by simp)
  | ok x =>
    obtain ⟨m, s2⟩ := x
    rw [hadd] at hcopy
    obtain ⟨n, hget, hs2⟩ := AddRefCount_ok hadd
    have h2 : ((⟨r.mRefCounterPtr, r.mDataPtr⟩ : RefCountedPtr), s2) = (t, s1) := by
      simpa using hcopy
    have ht : r = t := congrArg Prod.fst h2
    have hs1 : s2 = s1 := congrArg Prod.snd h2
    subst hs1
    subst hs2
    exact ⟨ht.symm, h.add_holder r hr hlen n hget, rfl⟩

theorem constructFrom_inv (s s1 : PtrState) (t : RefCountedPtr) (H : List RefCountedPtr)
    (h : HeapInv s.counters s.objects H)
    (hc : RefCountedPtr.constructFrom (newObject s).2 (some (newObject s).1) = .ok (t, s1)) :
    HeapInv s1.counters s1.objects (t :: H) ∧ s1.instances = s.instances := by
  unfold RefCountedPtr.constructFrom at hc
  cases hadd : AddRefCount (newRefCounter (newObject s).2).2 (newRefCounter (newObject s).2).1
    with
  | error f =>
    rw [hadd] at hc
    exact absurd hc (by simp)
  | ok x =>
    obtain ⟨m, s2⟩ := x
    rw [hadd] at hc
    obtain ⟨n, hget, hs2⟩ := AddRefCount_ok hadd
    have h2 : ((⟨(newRefCounter (newObject s).2).1, some (newObject s).1⟩ : RefCountedPtr), s2)
        = (t, s1) := by
      simpa using hc
    have ht : (⟨(newRefCounter (newObject s).2).1, some (newObject s).1⟩ : RefCountedPtr) = t :=
      congrArg Prod.fst h2
    have hs1 : s2 = s1 := congrArg Prod.snd h2
    subst hs1
    subst hs2
    subst ht
    have hn : n = 0 := by
      have hg : (s.counters ++ [(⟨0, true⟩ : RefCounter)]).getD s.counters.length ⟨0, false⟩
          = ⟨n, true⟩ := hget
      rw [getD_append_length] at hg
      injection hg with e _
      exact e.symm
    subst hn
    have hone : addSz 0 1 = 1 := by decide
    refine ⟨?_, rfl⟩
    show HeapInv ((s.counters ++ [(⟨0, true⟩ : RefCounter)]).set s.counters.length
        (⟨addSz 0 1, true⟩ : RefCounter))
      (s.objects ++ [true])
      ((⟨s.counters.length, some s.objects.length⟩ : RefCountedPtr) :: H)
    rw [set_append_length, hone]
    exact h.add_raw

theorem live_declare (s : PtrState) (x : RefCountedPtr) :
    (s.declare x).live = s.live ++ [x] := by
  unfold PtrState.declare PtrState.live
  simp [List.reduceOption_append]

theorem live_length_le (s : PtrState) : s.live.length ≤ s.instances.length :=
  List.reduceOption_length_le _

theorem swapAndRelease_inv (s s1 : PtrState) (v : Nat) (d t : RefCountedPtr)
    (h : HeapInv s.counters s.objects (t :: s.live)) (hv : s.getInstance v = some d)
    (hlen : s.instances.length + 1 < SIZE_MOD)
    (hrun : swapAndRelease s v d t = .ok s1) :
    HeapInv s1.counters s1.objects s1.live ∧ s1.instances.length = s.instances.length := by
  unfold swapAndRelease at hrun
  have hperm := reduceOption_set_some s.instances v d t hv
  have hle : ((s.instances.set v (some t)).reduceOption).length ≤ s.instances.length := by
    have := List.reduceOption_length_le (s.instances.set v (some t))
    simpa using this
  obtain ⟨hinv, hinst⟩ :=
    Release_inv { s with instances := s.instances.set v (some t) } s1 d
      (s.instances.set v (some t)).reduceOption (h.of_perm hperm.symm) (by omega) hrun
  refine ⟨?_, by rw [hinst]; simp⟩
  unfold PtrState.live
  rw [hinst]
  exact hinv


theorem declare_inv (s : PtrState) (t : RefCountedPtr)
    (h : HeapInv s.counters s.objects (t :: s.live)) :
    HeapInv (s.declare t).counters (s.declare t).objects (s.declare t).live := by
  rw [live_declare]
  exact h.of_perm (List.perm_append_singleton t s.live).symm

/-- A statement that returns keeps the heap consistent with the variables that are
alive, and declares at most one variable. -/
theorem step_inv (s s1 : PtrState) (op : PtrOp) (h : HeapInv s.counters s.objects s.live)
    (hlen : s.instances.length + 1 < SIZE_MOD) (hstep : s.step op = .ok s1) :
    HeapInv s1.counters s1.objects s1.live ∧
      s1.instances.length ≤ s.instances.length + 1 := by
  have hll := live_length_le s
  cases op with
  | declRaw =>
    simp only [PtrState.step] at hstep
    cases hc : RefCountedPtr.constructFrom (newObject s).2 (some (newObject s).1) with
    | error f =>
      rw [hc] at hstep
      exact absurd hstep (by simp)
    | ok x =>
      obtain ⟨t, s2⟩ := x
      rw [hc] at hstep
      have hs1 : s2.declare t = s1 := by simpa using hstep
      obtain ⟨hinv, hinst⟩ := constructFrom_inv s s2 t s.live h hc
      have hl : s2.live = s.live := by
        unfold PtrState.live
        rw [hinst]
      subst hs1
      refine ⟨declare_inv s2 t (by rw [hl]; exact hinv), ?_⟩
      show (s2.instances ++ [some t]).length ≤ _
      rw [hinst]
      simp
  | declDefault =>
    simp only [PtrState.step] at hstep
    have hs1 : (RefCountedPtr.construct s).2.declare (RefCountedPtr.construct s).1 = s1 := by
      simpa using hstep
    subst hs1
    refine ⟨declare_inv _ _ (h.add_default ⟨0, true⟩), ?_⟩
    show (s.instances ++ [some _]).length ≤ _
    simp
  | declCopy src =>
    simp only [PtrState.step] at hstep
    cases hsrc : s.getInstance src with
    | none =>
      rw [hsrc] at hstep
      have hs1 : s = s1 := by simpa using hstep
      subst hs1
      exact ⟨h, by omega⟩
    | some r =>
      rw [hsrc] at hstep
      dsimp only at hstep
      cases hc : RefCountedPtr.Copy s r with
      | error f =>
        rw [hc] at hstep
        exact absurd hstep (by simp)
      | ok x =>
        obtain ⟨t, s2⟩ := x
        rw [hc] at hstep
        have hs1 : s2.declare t = s1 := by simpa using hstep
        obtain ⟨ht, hinv, hinst⟩ :=
          Copy_inv s s2 r t s.live h (mem_reduceOption_of_getD _ src r hsrc) (by omega) hc
        have hl : s2.live = s.live := by
          unfold PtrState.live
          rw [hinst]
        subst hs1
        refine ⟨declare_inv s2 t (by rw [hl, ht]; exact hinv), ?_⟩
        show (s2.instances ++ [some t]).length ≤ _
        rw [hinst]
        simp
  | assign dst src =>
    simp only [PtrState.step] at hstep
    cases hdst : s.getInstance dst with
    | none =>
      rw [hdst] at hstep
      have hs1 : s = s1 := by simpa using hstep
      subst hs1
      exact ⟨h, by omega⟩
    | some d =>
      cases hsrc : s.getInstance src with
      | none =>
        rw [hdst, hsrc] at hstep
        have hs1 : s = s1 := by simpa using hstep
        subst hs1
        exact ⟨h, by omega⟩
      | some r =>
        rw [hdst, hsrc] at hstep
        dsimp only at hstep
        cases hc : RefCountedPtr.Copy s r with
        | error f =>
          rw [hc] at hstep
          exact absurd hstep (by simp)
        | ok x =>
          obtain ⟨t, s2⟩ := x
          rw [hc] at hstep
          dsimp only at hstep
          obtain ⟨ht, hinv, hinst⟩ :=
            Copy_inv s s2 r t s.live h (mem_reduceOption_of_getD _ src r hsrc) (by omega) hc
          have hl : s2.live = s.live := by
            unfold PtrState.live
            rw [hinst]
          obtain ⟨hinv1, hlen1⟩ :=
            swapAndRelease_inv s2 s1 dst d t (by rw [hl, ht]; exact hinv)
              (by unfold PtrState.getInstance; rw [hinst]; exact hdst)
              (by rw [hinst]; exact hlen) hstep
          exact ⟨hinv1, by rw [hlen1, hinst]; omega⟩
  | reset v =>
    simp only [PtrState.step] at hstep
    cases hv : s.getInstance v with
    | none =>
      rw [hv] at hstep
      have hs1 : s = s1 := by simpa using hstep
      subst hs1
      exact ⟨h, by omega⟩
    | some d =>
      rw [hv] at hstep
      dsimp only at hstep
      obtain ⟨hinv1, hlen1⟩ :=
        swapAndRelease_inv (RefCountedPtr.construct s).2 s1 v d (RefCountedPtr.construct s).1
          (h.add_default ⟨0, true⟩) hv hlen hstep
      exact ⟨hinv1, by rw [hlen1]; exact Nat.le_succ _⟩
  | resetRaw v =>
    simp only [PtrState.step] at hstep
    cases hv : s.getInstance v with
    | none =>
      rw [hv] at hstep
      have hs1 : s = s1 := by simpa using hstep
      subst hs1
      exact ⟨h, by omega⟩
    | some d =>
      rw [hv] at hstep
      dsimp only at hstep
      cases hc : RefCountedPtr.constructFrom (newObject s).2 (some (newObject s).1) with
      | error f =>
        rw [hc] at hstep
        exact absurd hstep (by simp)
      | ok x =>
        obtain ⟨t, s2⟩ := x
        rw [hc] at hstep
        dsimp only at hstep
        obtain ⟨hinv, hinst⟩ := constructFrom_inv s s2 t s.live h hc
        have hl : s2.live = s.live := by
          unfold PtrState.live
          rw [hinst]
        obtain ⟨hinv1, hlen1⟩ :=
          swapAndRelease_inv s2 s1 v d t (by rw [hl]; exact hinv)
            (by unfold PtrState.getInstance; rw [hinst]; exact hv)
            (by rw [hinst]; exact hlen) hstep
        exact ⟨hinv1, by rw [hlen1, hinst]; omega⟩
  | destroy v =>
    simp only [PtrState.step] at hstep
    cases hv : s.getInstance v with
    | none =>
      rw [hv] at hstep
      have hs1 : s = s1 := by simpa using hstep
      subst hs1
      exact ⟨h, by omega⟩
    | some d =>
      rw [hv] at hstep
      dsimp only at hstep
      cases hc : RefCountedPtr.Release s d with
      | error f =>
        rw [hc] at hstep
        exact absurd hstep (by simp)
      | ok s2 =>
        rw [hc] at hstep
        have hs1 : { s2 with instances := s2.instances.set v none } = s1 := by
          simpa using hstep
        have hperm := reduceOption_set_none s.instances v d hv
        have hle := List.reduceOption_length_le (s.instances.set v none)
        obtain ⟨hinv, hinst⟩ :=
          Release_inv s s2 d (s.instances.set v none).reduceOption (h.of_perm hperm)
            (by
              rw [List.length_set] at hle
              omega) hc
        subst hs1
        refine ⟨?_, ?_⟩
        · show HeapInv s2.counters s2.objects (s2.instances.set v none).reduceOption
          rw [hinst]
          exact hinv
        · show (s2.instances.set v none).length ≤ _
          rw [hinst, List.length_set]
          omega


theorem run_inv (ops : List PtrOp) :
    ∀ (s s1 : PtrState), HeapInv s.counters s.objects s.live →
      s.instances.length + ops.length < SIZE_MOD → s.run ops = .ok s1 →
      HeapInv s1.counters s1.objects s1.live := by
  induction ops with
  | nil =>
    intro s s1 h _ hrun
    have hs1 : s = s1 := by simpa [PtrState.run] using hrun
    rw [← hs1]
    exact h
  | cons op ops ih =>
    intro s s1 h hlen hrun
    simp only [PtrState.run] at hrun
    rw [List.length_cons] at hlen
    cases hstep : s.step op with
    | error f =>
      rw [hstep] at hrun
      exact absurd hrun (by simp)
    | ok s2 =>
      rw [hstep] at hrun
      obtain ⟨hinv, hle⟩ := step_inv s s2 op h (by omega) hstep
      exact ih s2 s1 hinv (by omega) hrun

/-- Every program of fewer than `2 ^ 64` statements that never uses a deleted counter or
object ends in a state in which `GetRefCount()` of every instance that holds an object
is the number of the instances alive that share the object, every object that is held
is alive, and an object is alive only while an instance holds it. -/
theorem counts_in_runs_without_fault (ops : List PtrOp) (s : PtrState)
    (hlen : ops.length < SIZE_MOD) (hrun : PtrState.empty.run ops = .ok s) :
    (∀ v i o, s.getInstance v = some i → i.mDataPtr = some o →
      i.GetRefCount s = .ok (sharing s.live o) ∧ s.objects.getD o false = true) ∧
    (∀ o, s.objects.getD o false = true ↔ 0 < sharing s.live o) := by
  have hempty : HeapInv PtrState.empty.counters PtrState.empty.objects PtrState.empty.live :=
    ⟨fun i hi => absurd hi (List.not_mem_nil i), fun i hi => absurd hi (List.not_mem_nil i),
      fun i hi => absurd hi (List.not_mem_nil i), fun i hi => absurd hi (List.not_mem_nil i),
      fun o ho => by
        have : PtrState.empty.objects.getD o false = false := rfl
        rw [this] at ho
        exact absurd ho (by decide)⟩
  have hinv := run_inv ops PtrState.empty s hempty
    (by
      show 0 + ops.length < SIZE_MOD
      omega) hrun
  constructor
  · intro v i o hv ho
    have hi := mem_reduceOption_of_getD s.instances v i hv
    refine ⟨?_, hinv.object_live i hi o ho⟩
    unfold RefCountedPtr.GetRefCount
    rw [counterAt_of_getD (hinv.count_eq i hi o ho)]
  · intro o
    constructor
    · exact hinv.held o
    · intro hpos
      obtain ⟨i, hi, ho⟩ := (sharing_pos_iff s.live o).mp hpos
      exact hinv.object_live i hi o ho


/-! ## The guard of the padding call -/

/-- The padding `Allocate` computes is the result of the call it makes, and 0 when the
guard skips the call. -/
theorem appliedPadding_eq_call (s : LiniarAllocator) (alignment : Nat)
    (hal : alignment < SIZE_MOD) :
    (∀ a, paddingCallAddress s alignment = some a →
      CalculateMemoryPadding a alignment = .ok (appliedPadding s alignment)) ∧
    (paddingCallAddress s alignment = none → appliedPadding s alignment = 0) := by
  unfold paddingCallAddress appliedPadding
  by_cases hc : alignment > 0 ∧ s.mOffset % alignment ≠ 0
  · rw [if_pos hc, if_pos hc]
    refine ⟨fun a ha => ?_, fun h => absurd h (by simp)⟩
    have he : addSz s.mMemoryBuffer s.mOffset = a := by simpa using ha
    rw [← he]
    exact CalculateMemoryPadding_eq _ alignment hal hc.1
  · rw [if_neg hc, if_neg hc]
    exact ⟨fun a ha => absurd ha (by simp), fun _ => rfl⟩

/-- C31, counterexample: a block of 100 bytes at address 4112 (a multiple of 16, not of
32). After `Allocate(16, 0)` the offset is 16; in `Allocate(8, 32)` the guard holds
(`16 % 32 != 0`) and the calculator is called with the address 4128, which is a multiple
of 32; it returns 32, a full alignment step, and the call is granted at 4160 with the
offset moved from 16 to 56. -/
theorem C31_guard_passes_aligned_address :
    Reachable { mTotalSize := 100, mUsed := 16, mPeak := 16,
                mMemoryBuffer := 4112, mOffset := 16 } ∧
    paddingCallAddress { mTotalSize := 100, mUsed := 16, mPeak := 16,
                         mMemoryBuffer := 4112, mOffset := 16 } 32 = some 4128 ∧
    4128 % 32 = 0 ∧
    CalculateMemoryPadding 4128 32 = .ok 32 ∧
    ¬ (32 < 32) ∧
    LiniarAllocator.Allocate { mTotalSize := 100, mUsed := 16, mPeak := 16,
                               mMemoryBuffer := 4112, mOffset := 16 } 8 32 =
      .ok (4160, { mTotalSize := 100, mUsed := 56, mPeak := 56,
                   mMemoryBuffer := 4112, mOffset := 56 }) := by
  refine ⟨?_, by decide, by decide, by decide, by decide, by decide⟩
  exact Reachable.alloc 16 0 4112
    (Reachable.init 4112 (Reachable.ctor 100 (by decide)) (by decide))
    (by decide) (by decide) (by decide)


/-- C31, amended: for every reachable state of an allocator whose block starts at a
multiple of the alignment and ends below `2 ^ 64`, and every `std::size_t`
alignment > 0: `Allocate` calls `CalculateMemoryPadding` only with the address
`blockStart + offset`, which then is no multiple of the alignment, the call returns a
padding with `0 < padding < alignment`, and the padding `Allocate` applies (that result,
or 0 when the guard skips the call) is strictly less than the alignment. -/
theorem C31_guard_masks_quirk_for_aligned_block (s : LiniarAllocator) (alignment : Nat)
    (hs : Reachable s) (hpos : 0 < alignment) (hal : alignment < SIZE_MOD)
    (hblock : s.mMemoryBuffer % alignment = 0)
    (hend : s.mMemoryBuffer + s.mTotalSize < SIZE_MOD) :
    (∀ a, paddingCallAddress s alignment = some a →
      a = s.mMemoryBuffer + s.mOffset ∧ a % alignment ≠ 0 ∧
      ∃ padding, CalculateMemoryPadding a alignment = .ok padding ∧
        0 < padding ∧ padding < alignment ∧ appliedPadding s alignment = padding) ∧
    (paddingCallAddress s alignment = none → appliedPadding s alignment = 0) ∧
    appliedPadding s alignment < alignment := by
  have hw := hs.wellFormed
  have hle := hw.offset_le
  have hadd : addSz s.mMemoryBuffer s.mOffset = s.mMemoryBuffer + s.mOffset :=
    addSz_of_lt (by omega)
  have hmod : (s.mMemoryBuffer + s.mOffset) % alignment = s.mOffset % alignment := by
    rw [Nat.add_mod, hblock, Nat.zero_add, Nat.mod_mod]
  have hcall := appliedPadding_eq_call s alignment hal
  have hlt : appliedPadding s alignment < alignment := by
    unfold appliedPadding
    by_cases hc : alignment > 0 ∧ s.mOffset % alignment ≠ 0
    · rw [if_pos hc, hadd, hmod]
      have := hc.2
      omega
    · rw [if_neg hc]
      exact hpos
  refine ⟨fun a ha => ?_, hcall.2, hlt⟩
  have hcalc := hcall.1 a ha
  unfold paddingCallAddress at ha
  by_cases hc : alignment > 0 ∧ s.mOffset % alignment ≠ 0
  · rw [if_pos hc, hadd] at ha
    have he : s.mMemoryBuffer + s.mOffset = a := by simpa using ha
    have hne : a % alignment ≠ 0 := by
      rw [← he, hmod]
      exact hc.2
    refine ⟨he.symm, hne, appliedPadding s alignment, hcalc, ?_, hlt, rfl⟩
    unfold appliedPadding
    rw [if_pos hc]
    have := Nat.mod_lt (addSz s.mMemoryBuffer s.mOffset) hpos
    omega
  · rw [if_neg hc] at ha
    exact absurd ha (by simp)

/-- C31, amended, on a block of 100 bytes at address 4096 after `Allocate(10, 0)`: with
alignment 8 the calculator is called with the address 4106 and returns 6. -/
theorem C31_guard_masks_quirk_for_aligned_block_witness :
    Reachable { mTotalSize := 100, mUsed := 10, mPeak := 10,
                mMemoryBuffer := 4096, mOffset := 10 } ∧
    paddingCallAddress { mTotalSize := 100, mUsed := 10, mPeak := 10,
                         mMemoryBuffer := 4096, mOffset := 10 } 8 = some 4106 ∧
    CalculateMemoryPadding 4106 8 = .ok 6 ∧
    ((∀ a, paddingCallAddress { mTotalSize := 100, mUsed := 10, mPeak := 10,
                                mMemoryBuffer := 4096, mOffset := 10 } 8 = some a →
      a = 4096 + 10 ∧ a % 8 ≠ 0 ∧
      ∃ padding, CalculateMemoryPadding a 8 = .ok padding ∧
        0 < padding ∧ padding < 8 ∧
        appliedPadding { mTotalSize := 100, mUsed := 10, mPeak := 10,
                         mMemoryBuffer := 4096, mOffset := 10 } 8 = padding) ∧
    (paddingCallAddress { mTotalSize := 100, mUsed := 10, mPeak := 10,
                          mMemoryBuffer := 4096, mOffset := 10 } 8 = none →
      appliedPadding { mTotalSize := 100, mUsed := 10, mPeak := 10,
                       mMemoryBuffer := 4096, mOffset := 10 } 8 = 0) ∧
    appliedPadding { mTotalSize := 100, mUsed := 10, mPeak := 10,
                     mMemoryBuffer := 4096, mOffset := 10 } 8 < 8) :=
  ⟨Reachable.alloc 10 0 4096
      (Reachable.init 4096 (Reachable.ctor 100 (by decide)) (by decide))
      (by decide) (by decide) (by decide),
    by decide, by decide,
    C31_guard_masks_quirk_for_aligned_block
      { mTotalSize := 100, mUsed := 10, mPeak := 10, mMemoryBuffer := 4096, mOffset := 10 } 8
      (Reachable.alloc 10 0 4096
        (Reachable.init 4096 (Reachable.ctor 100 (by decide)) (by decide))
        (by decide) (by decide) (by decide))
      (by decide) (by decide) (by decide) (by decide)⟩


/-- A block of 4 bytes that ends at `2 ^ 64` and starts at a multiple of 3: at offset 4
the address `blockStart + offset` wraps to 0, so with alignment 3 the guard holds and the
calculator is called with the address 0, a multiple of 3, and returns 3. -/
theorem guard_passes_wrapped_address :
    Reachable { mTotalSize := 4, mUsed := 4, mPeak := 4,
                mMemoryBuffer := 2 ^ 64 - 4, mOffset := 4 } ∧
    (2 ^ 64 - 4) % 3 = 0 ∧
    paddingCallAddress { mTotalSize := 4, mUsed := 4, mPeak := 4,
                         mMemoryBuffer := 2 ^ 64 - 4, mOffset := 4 } 3 = some 0 ∧
    CalculateMemoryPadding 0 3 = .ok 3 := by
  refine ⟨?_, by decide, by decide, by decide⟩
  exact Reachable.alloc 4 0 (2 ^ 64 - 4)
    (Reachable.init (2 ^ 64 - 4) (Reachable.ctor 4 (by decide)) (by decide))
    (by decide) (by decide) (by decide)

/-! ## Monotonic offset -/

/-- When the sum `offset + padding + size` stays below `2 ^ 64`, a call of `Allocate`
either refuses and leaves the state as it is, or moves the offset up by exactly
`size + padding`, with `used` the new offset and `peak` the larger of the old peak and
the new offset. -/
theorem Allocate_offset_increases_of_no_wrap (s s1 : LiniarAllocator)
    (size alignment p : Nat) (hpos : 0 < size) (hal : alignment < SIZE_MOD)
    (hsum : s.mOffset + appliedPadding s alignment + size < SIZE_MOD)
    (h : s.Allocate size alignment = .ok (p, s1)) :
    s1 = s ∨
      (s1.mOffset = s.mOffset + size + appliedPadding s alignment ∧
        s1.mUsed = s1.mOffset ∧ s1.mPeak = max s.mPeak s1.mOffset ∧
        s.mOffset < s1.mOffset ∧ s1.mOffset ≤ s.mTotalSize) := by
  rw [Allocate_eq s size alignment (by omega) hal] at h
  have h1 : addSz size (appliedPadding s alignment) = size + appliedPadding s alignment :=
    addSz_of_lt (by omega)
  have h2 : addSz s.mOffset (size + appliedPadding s alignment)
      = s.mOffset + size + appliedPadding s alignment := by
    rw [addSz_of_lt (by omega)]
    omega
  have h3 : addSz (addSz s.mOffset (appliedPadding s alignment)) size
      = s.mOffset + size + appliedPadding s alignment := by
    rw [addSz_of_lt (by omega : s.mOffset + appliedPadding s alignment < SIZE_MOD),
      addSz_of_lt (by omega)]
    omega
  by_cases hc : addSz (addSz s.mOffset (appliedPadding s alignment)) size > s.mTotalSize
  · rw [if_pos hc] at h
    have he : s = s1 := congrArg Prod.snd (Except.ok.inj h)
    exact Or.inl he.symm
  · rw [if_neg hc, h1, h2] at h
    rw [h3] at hc
    have he : _ = s1 := congrArg Prod.snd (Except.ok.inj h)
    right
    rw [← he]
    refine ⟨rfl, rfl, rfl, ?_, ?_⟩
    · show s.mOffset < s.mOffset + size + appliedPadding s alignment
      omega
    · show s.mOffset + size + appliedPadding s alignment ≤ s.mTotalSize
      omega

/-- C32, failing input: a block of 100 bytes at address 4096 after `Allocate(10, 0)`
(offset 10), then `Allocate(2^64 - 5, 0)`. The sum `10 + 0 + (2^64 - 5)` computed
modulo `2^64` is `5 <= 100`, so the request is granted (pointer 4106, not null) and the
offset goes from 10 down to 5. -/
theorem C32_wrapped_request_granted_offset_decreases :
    Reachable { mTotalSize := 100, mUsed := 10, mPeak := 10,
                mMemoryBuffer := 4096, mOffset := 10 } ∧
    (1 ≤ 2 ^ 64 - 5 ∧ 2 ^ 64 - 5 ≤ 2 ^ 64 - 1) ∧
    SIZE_MOD ≤ 10 + 0 + (2 ^ 64 - 5) ∧
    addSz (addSz 10 0) (2 ^ 64 - 5) = 5 ∧
    LiniarAllocator.Allocate { mTotalSize := 100, mUsed := 10, mPeak := 10,
                               mMemoryBuffer := 4096, mOffset := 10 } (2 ^ 64 - 5) 0 =
      .ok (4106, { mTotalSize := 100, mUsed := 5, mPeak := 10,
                   mMemoryBuffer := 4096, mOffset := 5 }) ∧
    (4106 : Nat) ≠ 0 ∧
    ¬ (10 < 5) := by
  refine ⟨?_, by decide, by decide, by decide, by decide, by decide, by decide⟩
  exact Reachable.alloc 10 0 4096
    (Reachable.init 4096 (Reachable.ctor 100 (by decide)) (by decide))
    (by decide) (by decide) (by decide)

/-! ## Counters without overflow -/

theorem ReachableNoOverflow.reachable {s : LiniarAllocator} (h : ReachableNoOverflow s) :
    Reachable s := by
  induction h with
  | ctor totalSize ht => exact Reachable.ctor totalSize ht
  | init block _ hb ih => exact Reachable.init block ih hb
  | alloc size alignment p _ hsize hal _ h ih =>
    exact Reachable.alloc size alignment p ih hsize hal h
  | reset _ ih => exact Reachable.reset ih

/-- C33: in every state reachable from a constructed allocator by `Init`, `Allocate`
(granted or refused) and `Reset`, when in no call the sum `offset + padding + size`
exceeded the range of `std::size_t`, the offset, `Used()` and `Peak()` are the same
number. -/
theorem C33_counters_coincide (s : LiniarAllocator) (h : ReachableNoOverflow s) :
    s.mOffset = s.Used ∧ s.Used = s.Peak := by
  induction h with
  | ctor totalSize ht => exact ⟨rfl, rfl⟩
  | init block _ hb ih => exact ih
  | @alloc s s1 size alignment p _ hsize hal hsum h ih =>
    by_cases hz : size = 0
    · simp [LiniarAllocator.Allocate, hz] at h
    · have hstep := Allocate_offset_increases_of_no_wrap s s1 size alignment p (by omega) hal
        hsum h
      rcases hstep with he | ⟨_, hused, hpeak, hlt, _⟩
      · rw [he]
        exact ih
      · have hold : s.mPeak = s.mOffset := by
          have h1 : s.mOffset = s.mUsed := ih.1
          have h2 : s.mUsed = s.mPeak := ih.2
          omega
        refine ⟨hused.symm, ?_⟩
        show s1.mUsed = s1.mPeak
        rw [hused, hpeak, hold]
        exact (max_eq_right (by omega)).symm
  | reset _ _ => exact ⟨rfl, rfl⟩

/-- C33 in the state after `Init`, `Allocate(10, 0)` and `Allocate(20, 8)` on a block of
100 bytes at address 4096: offset, `Used()` and `Peak()` are 36. -/
theorem C33_counters_coincide_witness :
    ReachableNoOverflow { mTotalSize := 100, mUsed := 36, mPeak := 36,
                          mMemoryBuffer := 4096, mOffset := 36 } ∧
    (LiniarAllocator.mOffset { mTotalSize := 100, mUsed := 36, mPeak := 36,
                               mMemoryBuffer := 4096, mOffset := 36 } =
       LiniarAllocator.Used { mTotalSize := 100, mUsed := 36, mPeak := 36,
                              mMemoryBuffer := 4096, mOffset := 36 } ∧
     LiniarAllocator.Used { mTotalSize := 100, mUsed := 36, mPeak := 36,
                            mMemoryBuffer := 4096, mOffset := 36 } =
       LiniarAllocator.Peak { mTotalSize := 100, mUsed := 36, mPeak := 36,
                              mMemoryBuffer := 4096, mOffset := 36 }) :=
  have h10 : ReachableNoOverflow { mTotalSize := 100, mUsed := 10, mPeak := 10,
                                   mMemoryBuffer := 4096, mOffset := 10 } :=
    ReachableNoOverflow.alloc 10 0 4096
      (ReachableNoOverflow.init 4096 (ReachableNoOverflow.ctor 100 (by decide))
        (by decide))
      (by decide) (by decide) (by decide) (by decide)
  have hr : ReachableNoOverflow { mTotalSize := 100, mUsed := 36, mPeak := 36,
                                  mMemoryBuffer := 4096, mOffset := 36 } :=
    ReachableNoOverflow.alloc 20 8 4112 h10 (by decide) (by decide) (by decide) (by decide)
  ⟨hr, C33_counters_coincide _ hr⟩

end SDA
